import Mathlib

/-!
# Character-map codec: the text-menu variant (`0.c`) and the GTK variant (`3.c`)

Shallow embedding of the mapping-table loader and of the encode / decode loops of
both programs, followed by the properties proved about them.

Conventions of the embedding.

* A byte is a `Nat` (its unsigned value, `0..255`); a file or a C string is a
  `List Nat`.
* `char_map_size` is an `int` in both programs.  It starts at `0` and is only ever
  overwritten by a strictly larger value, so it is never negative and is kept as a
  `Nat`.  Values scanned with `%d` are `Int`.
* The C library functions the programs call (`fgets`, `fscanf("%d")`,
  `fprintf("%d ")`, `isspace`) are modelled in the namespace `Libc`, following the
  C standard.
* Behaviour the C standard leaves undefined (a `%d` conversion whose value does not
  fit an `int`, a store outside the 256-slot table) is the result `none`.
* A read `char_map[i]` is a total function of the model (`List.getD`); it is inside the
  array whenever the state satisfies `WF`, which the properties that read the table
  assume.
* A line of a mapping file is what one `fgets` call puts in the line buffer (at most
  1023 bytes, ending after a newline); `Libc.fgets_chunks` cuts a file into these
  buffers and the properties of single lines are stated for such a buffer.
* Files are byte sequences as a POSIX `fopen(..., "r")` delivers them (no translation
  of line ends).  A file operation is modelled for the case that its files opened; the
  prompts, dialogs, progress bar and previews around it are left out.
-/

namespace Libc

/-- The C-locale `isspace`: space, `\t`, `\n`, `\v`, `\f`, `\r`. -/
def isspace (c : Nat) : Bool := c == 32 || (9 ≤ c && c ≤ 13)

/-- The C `isdigit`: `'0'..'9'`. -/
def isdigit (c : Nat) : Bool := 48 ≤ c && c ≤ 57

/-- Smallest value of a 32-bit `int`. -/
def INT_MIN : Int := -2147483648

/-- Largest value of a 32-bit `int`. -/
def INT_MAX : Int := 2147483647

/-- Whether a scanned value is representable as an `int`. -/
def fits_int (v : Int) : Bool := INT_MIN ≤ v && v ≤ INT_MAX

/-- Value of a run of decimal digit characters, most significant first. -/
def digits_value (ds : List Nat) : Nat := ds.foldl (fun a d => 10 * a + (d - 48)) 0

/-- The digits part of a `%d` conversion: at least one digit is required; the longest
run of digits is consumed. -/
def scan_unsigned (s : List Nat) : Option (Nat × List Nat) :=
  match s with
  | [] => none
  | c :: _ =>
    if isdigit c then some (digits_value (s.takeWhile isdigit), s.dropWhile isdigit)
    else none

/-- One `scanf`-family `%d` conversion on the remaining input: white space is skipped,
an optional sign is read, then the longest run of digits.  The result is `none` when the
call does not return `1` (end of input, or a matching failure), and otherwise the
mathematical value read together with the input that is left. -/
def scan_d (s : List Nat) : Option (Int × List Nat) :=
  match s.dropWhile isspace with
  | [] => none
  | c :: cs =>
    if c = 45 then (scan_unsigned cs).map (fun p => (-(p.1 : Int), p.2))
    else if c = 43 then (scan_unsigned cs).map (fun p => ((p.1 : Int), p.2))
    else (scan_unsigned (c :: cs)).map (fun p => ((p.1 : Int), p.2))

/-- Decimal digit characters of `n`, most significant first (the first argument bounds
the recursion; `n + 1` is always enough). -/
def nat_digits : Nat → Nat → List Nat
  | 0, _ => []
  | f + 1, n => if n < 10 then [48 + n] else nat_digits f (n / 10) ++ [48 + n % 10]

/-- What `printf("%d", v)` writes. -/
def print_d (v : Int) : List Nat :=
  if v < 0 then 45 :: nat_digits (v.natAbs + 1) v.natAbs
  else nat_digits (v.natAbs + 1) v.natAbs

/-- The bytes of a buffer seen as a C string: everything before the first NUL. -/
def cstr (buf : List Nat) : List Nat := buf.takeWhile (fun c => c != 0)

/-- The successive buffers returned by `fgets(line, n, file)` until it returns `NULL`:
each holds at most `n - 1` bytes and ends right after a newline when one is met.
The second argument is the buffer being filled, in reverse. -/
def fgets_chunks (n : Nat) : List Nat → List Nat → List (List Nat)
  | [], cur => if cur = [] then [] else [cur.reverse]
  | c :: cs, cur =>
    if c = 10 ∨ cur.length + 1 = n - 1 then (c :: cur).reverse :: fgets_chunks n cs []
    else fgets_chunks n cs (c :: cur)

/-- First occurrence of a tab, as `strchr(line, '\t')` finds it: the text before it
and the text after it, or `none` when the line has no tab. -/
def split_tab : List Nat → Option (List Nat × List Nat)
  | [] => none
  | c :: cs =>
    if c = 9 then some ([], cs)
    else (split_tab cs).map (fun p => (c :: p.1, p.2))

end Libc

/-- A diagnostic written while a mapping file is loaded. -/
inductive Diag where
  /-- The mapping file could not be opened. -/
  | open_error
  /-- The line has no tab ("not in the expected format"). -/
  | bad_format (line_num : Nat)
  /-- The text before the tab is not an integer ("invalid index"). -/
  | bad_index (line_num : Nat)
  /-- A two-character representation starting with a backslash that is not a known escape. -/
  | unknown_escape (char_part : List Nat)
  /-- A representation of several characters; the first one is used. -/
  | multi_char (char_part : List Nat) (first : Nat)
  /-- An empty representation read as a space (GTK variant only). -/
  | empty_note (line_num : Nat)
  deriving DecidableEq, Repr

/-- Whether the diagnostic is a warning (its text starts with `Warning:` / `WARNING:`).
The others are the error of a file that does not open and the informational `Note:`. -/
def Diag.is_warning : Diag → Bool
  | .open_error => false
  | .empty_note _ => false
  | _ => true

/-- Whether the diagnostic is informational (its text starts with `Note:`). -/
def Diag.is_note : Diag → Bool
  | .empty_note _ => true
  | _ => false

/-- What the body of the read loop does for one line.  Which branch is taken depends on
the text of the line only; `α` is the type of a table entry. -/
inductive LineEffect (α : Type) where
  /-- The line is skipped with a diagnostic before any index is used (`continue`). -/
  | skip (d : Diag)
  /-- Unknown escape: `char_map_size` is raised to `index` when `index` is larger, a
  diagnostic is written, and no table entry is stored (`continue`). -/
  | bump (index : Int) (d : Diag)
  /-- `char_map_size` is raised to `index` when `index` is larger and the entry is stored
  at `char_map[index - 1]`. -/
  | assign (index : Int) (entry : α) (ds : List Diag)
  /-- No branch of the `if` chain applies: nothing happens. -/
  | nothing
  /-- The index read by `sscanf` does not fit an `int`. -/
  | undefined
  deriving DecidableEq, Repr

/-- The word `Space`. -/
def str_Space : List Nat := [83, 112, 97, 99, 101]

/-- The word `Tab`. -/
def str_Tab : List Nat := [84, 97, 98]

/-- The `switch` on the second character of a two-character escape: the byte the
escape stands for (cases `n`, `t`, `r`, `0`, backslash, single quote, double quote, in
this order), or `none` in the `default` case. -/
def escape_byte (c : Nat) : Option Nat :=
  if c = 110 then some 10
  else if c = 116 then some 9
  else if c = 114 then some 13
  else if c = 48 then some 0
  else if c = 92 then some 92
  else if c = 39 then some 39
  else if c = 34 then some 34
  else none

/-! ## The text-menu variant (`0.c`) -/

namespace CLI

/-- Number of slots of `char_map`. -/
def MAX_CHAR_MAP : Nat := 256

/-- Size of the line buffer. -/
def MAX_LINE_LENGTH : Nat := 1024

/-- The three globals of `0.c`. -/
structure State where
  /-- `char char_map[MAX_CHAR_MAP]`. -/
  char_map : List Nat
  /-- `int char_map_size`. -/
  char_map_size : Nat
  /-- `int is_map_loaded`. -/
  is_map_loaded : Bool
  deriving DecidableEq, Repr

/-- The globals at program start (static storage is zero-initialised). -/
def init : State := ⟨List.replicate MAX_CHAR_MAP 0, 0, false⟩

/-- The table has its 256 slots and `char_map_size` does not exceed them, so that every
access `char_map[i]` with `i < char_map_size` is inside the array. -/
def WF (st : State) : Prop := st.char_map.length = MAX_CHAR_MAP ∧ st.char_map_size ≤ MAX_CHAR_MAP

instance (st : State) : Decidable (WF st) := by unfold WF; infer_instance

/-- The `for` loop of `find_char_index`, with `n` iterations left and loop variable `i`. -/
def find_char_index_loop (char_map : List Nat) (c : Nat) : Nat → Nat → Int
  | 0, _ => -1
  | n + 1, i =>
    if char_map.getD i 0 = c then (i : Int) + 1
    else find_char_index_loop char_map c n (i + 1)

/-- `find_char_index`: 1-based position of the first slot below `char_map_size` that
equals `c`, or `-1`. -/
def find_char_index (st : State) (c : Nat) : Int :=
  find_char_index_loop st.char_map c st.char_map_size 0

/-- What the body of the encode loop writes for one input byte. -/
def encode_byte (st : State) (c : Nat) : List Nat :=
  let index := find_char_index st c
  if index ≠ -1 then Libc.print_d index ++ [32] else [48, 32]

/-- The `fgetc` loop of `encode_file`: the text written to the output file for the
given input file contents (both files opened). -/
def encode_file (st : State) : List Nat → List Nat
  | [] => []
  | c :: cs => encode_byte st c ++ encode_file st cs

/-- What the body of the decode loop writes for one scanned `index`. -/
def decode_emit (st : State) (index : Int) : List Nat :=
  if index > 0 ∧ index ≤ st.char_map_size then [st.char_map.getD (index - 1).toNat 0]
  else if index = 0 then [63]
  else []

/-- The `fscanf` loop of `decode_file` on the remaining input text.  The first argument
bounds the number of iterations; every iteration consumes input, so the length of the
text plus one is enough. -/
def decode_loop (st : State) : Nat → List Nat → Option (List Nat)
  | 0, _ => none
  | f + 1, text =>
    match Libc.scan_d text with
    | none => some []
    | some (index, rest) =>
      if Libc.fits_int index then (decode_loop st f rest).map (fun out => decode_emit st index ++ out)
      else none

/-- `decode_file`: the bytes written to the output file for the given input text
(both files opened). -/
def decode_file (st : State) (text : List Nat) : Option (List Nat) :=
  decode_loop st (text.length + 1) text

/-- The body of the read loop of `load_char_map` up to the choice of a branch, for the
buffer `buf` that `fgets` returned as line number `line_num`. -/
def parse_line (line_num : Nat) (buf : List Nat) : LineEffect Nat :=
  let line := (Libc.cstr buf).takeWhile (fun c => c != 10)
  match Libc.split_tab line with
  | none => .skip (.bad_format line_num)
  | some (pre, char_part) =>
    match Libc.scan_d pre with
    | none => .skip (.bad_index line_num)
    | some (index, _) =>
      if !Libc.fits_int index then .undefined
      else if char_part = str_Space then .assign index 32 []
      else if char_part = str_Tab then .assign index 9 []
      else if char_part.length = 1 then .assign index (char_part.headD 0) []
      else if char_part.headD 0 = 92 ∧ char_part.length = 2 then
        match escape_byte (char_part.getD 1 0) with
        | some b => .assign index b []
        | none => .bump index (.unknown_escape char_part)
      else if char_part.length > 0 then
        .assign index (char_part.headD 0) [.multi_char char_part (char_part.headD 0)]
      else .nothing

/-- `if (index > char_map_size) char_map_size = index;` -/
def raise_size (size : Nat) (index : Int) : Nat :=
  if index > size then index.toNat else size

/-- The state change of one line.  A store `char_map[index - 1] = ...` outside the 256
slots is undefined behaviour (`none`). -/
def apply_effect (st : State) : LineEffect Nat → Option (State × List Diag)
  | .skip d => some (st, [d])
  | .bump index d => some ({ st with char_map_size := raise_size st.char_map_size index }, [d])
  | .assign index b ds =>
    if 1 ≤ index ∧ index ≤ MAX_CHAR_MAP then
      some ({ st with char_map_size := raise_size st.char_map_size index,
                      char_map := st.char_map.set (index - 1).toNat b }, ds)
    else none
  | .nothing => some (st, [])
  | .undefined => none

/-- The read loop `while (fgets(line, MAX_LINE_LENGTH, file) && char_map_size < MAX_CHAR_MAP)`
over the buffers `fgets` returns; `line_num` is the number of lines read so far. -/
def load_lines : State → Nat → List (List Nat) → Option (State × List Diag)
  | st, _, [] => some (st, [])
  | st, line_num, buf :: rest =>
    if st.char_map_size < MAX_CHAR_MAP then
      match apply_effect st (parse_line (line_num + 1) buf) with
      | none => none
      | some (st1, ds) => (load_lines st1 (line_num + 1) rest).map (fun r => (r.1, ds ++ r.2))
    else some (st, [])

/-- `load_char_map`: `file` is `none` when `fopen` fails, otherwise the bytes of the
mapping file.  The result is the new state and the diagnostics printed.  The loop that
prints the table afterwards reads `char_map[i]` for `i < char_map_size` and changes
nothing; it is left out, and stays within the table when `char_map_size` is at most 256. -/
def load_char_map (st : State) (file : Option (List Nat)) : Option (State × List Diag) :=
  match file with
  | none => some (st, [.open_error])
  | some bytes =>
    let st0 : State := { st with char_map := List.replicate MAX_CHAR_MAP 0, char_map_size := 0 }
    (load_lines st0 0 (Libc.fgets_chunks MAX_LINE_LENGTH bytes [])).map
      (fun r => ({ r.1 with is_map_loaded := true }, r.2))

/-- Index `i` (1-based, at most `char_map_size`) holds the byte `b`. -/
def holds (st : State) (i : Nat) (b : Nat) : Prop :=
  1 ≤ i ∧ i ≤ st.char_map_size ∧ st.char_map.getD (i - 1) 0 = b

instance (st : State) (i b : Nat) : Decidable (holds st i b) := by unfold holds; infer_instance

/-- The token `encode_file` writes for the byte `c`: its index, or `0`. -/
def code (st : State) (c : Nat) : Int :=
  if find_char_index st c ≠ -1 then find_char_index st c else 0

end CLI

/-! ## The GTK variant (`3.c`) -/

namespace GUI

/-- Number of slots of `char_map`. -/
def MAX_CHAR_MAP : Nat := 256

/-- Size of the line buffer. -/
def MAX_LINE_LENGTH : Nat := 1024

/-- The character-mapping fields of `AppData`. -/
structure AppData where
  /-- `char *char_map[MAX_CHAR_MAP]`: `none` is `NULL`, `some s` a heap C string `s`. -/
  char_map : List (Option (List Nat))
  /-- `int char_map_size`. -/
  char_map_size : Nat
  /-- `bool is_map_loaded`. -/
  is_map_loaded : Bool
  deriving DecidableEq, Repr

/-- The fields after `memset(&app, 0, sizeof(AppData))` in `main`. -/
def init : AppData := ⟨List.replicate MAX_CHAR_MAP none, 0, false⟩

/-- The table has its 256 slots and `char_map_size` does not exceed them, so that every
access `char_map[i]` with `i < char_map_size` is inside the array. -/
def WF (app : AppData) : Prop :=
  app.char_map.length = MAX_CHAR_MAP ∧ app.char_map_size ≤ MAX_CHAR_MAP

instance (app : AppData) : Decidable (WF app) := by unfold WF; infer_instance

/-- Outcome of `encode_file` / `decode_file`. -/
inductive Outcome where
  /-- The map is not loaded: a dialog is shown, no file is opened or written. -/
  | refused
  /-- Undefined behaviour. -/
  | undefined
  /-- The bytes written to the output file. -/
  | written (out : List Nat)
  deriving DecidableEq, Repr

/-- The `for` loop of `find_char_index`, with `n` iterations left and loop variable `i`;
`search_char` is the C string `{c, 0}`. -/
def find_char_index_loop (char_map : List (Option (List Nat))) (c : Nat) : Nat → Nat → Int
  | 0, _ => -1
  | n + 1, i =>
    if char_map.getD i none = some (Libc.cstr [c, 0]) then (i : Int) + 1
    else find_char_index_loop char_map c n (i + 1)

/-- `find_char_index`: 1-based position of the first slot below `char_map_size` whose
string equals the one-character string of `c`, or `-1`. -/
def find_char_index (app : AppData) (c : Nat) : Int :=
  find_char_index_loop app.char_map c app.char_map_size 0

/-- What the body of the encode loop writes for one input byte. -/
def encode_byte (app : AppData) (c : Nat) : List Nat :=
  let index := find_char_index app c
  if index ≠ -1 then Libc.print_d index ++ [32] else [48, 32]

/-- The `fgetc` loop of `encode_file`. -/
def encode_loop (app : AppData) : List Nat → List Nat
  | [] => []
  | c :: cs => encode_byte app c ++ encode_loop app cs

/-- `encode_file` for the given input file contents (file names entered, both files
opened). -/
def encode_file (app : AppData) (input : List Nat) : Outcome :=
  if !app.is_map_loaded then .refused else .written (encode_loop app input)

/-- What the body of the decode loop writes for one scanned `index`
(`fprintf(output_file, "%s", app->char_map[index - 1])`, or `?`). -/
def decode_emit (app : AppData) (index : Int) : List Nat :=
  if index > 0 ∧ index ≤ app.char_map_size ∧ app.char_map.getD (index - 1).toNat none ≠ none then
    (app.char_map.getD (index - 1).toNat none).getD []
  else if index = 0 then [63]
  else []

/-- The `fscanf` loop of `decode_file` on the remaining input text.  The first argument
bounds the number of iterations; every iteration consumes input, so the length of the
text plus one is enough. -/
def decode_loop (app : AppData) : Nat → List Nat → Option (List Nat)
  | 0, _ => none
  | f + 1, text =>
    match Libc.scan_d text with
    | none => some []
    | some (index, rest) =>
      if Libc.fits_int index then
        (decode_loop app f rest).map (fun out => decode_emit app index ++ out)
      else none

/-- `decode_file` for the given input text (file names entered, both files opened). -/
def decode_file (app : AppData) (text : List Nat) : Outcome :=
  if !app.is_map_loaded then .refused
  else
    match decode_loop app (text.length + 1) text with
    | none => .undefined
    | some out => .written out

/-- The line with one trailing `\n` or `\r` removed
(`if (len > 0 && (line[len-1] == '\n' || line[len-1] == '\r')) line[--len] = '\0'`). -/
def strip_newline (line : List Nat) : List Nat :=
  if line.getLast? = some 10 ∨ line.getLast? = some 13 then line.dropLast else line

/-- The body of the read loop of `load_char_map` up to the choice of a branch, for the
buffer `buf` that `fgets` returned as line number `line_num`.  An entry is the C string
handed to `strdup`. -/
def parse_line (line_num : Nat) (buf : List Nat) : LineEffect (List Nat) :=
  let line := strip_newline (Libc.cstr buf)
  match Libc.split_tab line with
  | none => .skip (.bad_format line_num)
  | some (pre, char_part) =>
    match Libc.scan_d pre with
    | none => .skip (.bad_index line_num)
    | some (index, _) =>
      if !Libc.fits_int index then .undefined
      else if char_part = str_Space then .assign index [32] []
      else if char_part = str_Tab then .assign index [9] []
      else if char_part = [] then .assign index [32] [.empty_note line_num]
      else if char_part.length = 1 then .assign index char_part []
      else if char_part.length = 2 ∧ char_part.headD 0 = 92 then
        match escape_byte (char_part.getD 1 0) with
        | some b => .assign index (Libc.cstr [b, 0]) []
        | none => .bump index (.unknown_escape char_part)
      else if char_part.length > 0 then
        .assign index (Libc.cstr [char_part.headD 0, 0])
          [.multi_char char_part (char_part.headD 0)]
      else .nothing

/-- `if (index > app->char_map_size) app->char_map_size = index;` -/
def raise_size (size : Nat) (index : Int) : Nat :=
  if index > size then index.toNat else size

/-- The state change of one line.  A store `app->char_map[index - 1] = ...` outside the
256 slots is undefined behaviour (`none`). -/
def apply_effect (app : AppData) : LineEffect (List Nat) → Option (AppData × List Diag)
  | .skip d => some (app, [d])
  | .bump index d => some ({ app with char_map_size := raise_size app.char_map_size index }, [d])
  | .assign index e ds =>
    if 1 ≤ index ∧ index ≤ MAX_CHAR_MAP then
      some ({ app with char_map_size := raise_size app.char_map_size index,
                       char_map := app.char_map.set (index - 1).toNat (some e) }, ds)
    else none
  | .nothing => some (app, [])
  | .undefined => none

/-- The reset loop `for (i = 0; i < char_map_size; i++) if (char_map[i] != NULL)
{ free(char_map[i]); char_map[i] = NULL; }`: the first `n` slots become `NULL`. -/
def reset : Nat → List (Option (List Nat)) → List (Option (List Nat))
  | 0, m => m
  | _ + 1, [] => []
  | n + 1, _ :: m => none :: reset n m

/-- The read loop `while (fgets(line, sizeof(line), file))` over the buffers `fgets`
returns; `line_num` is the number of lines read so far. -/
def load_lines : AppData → Nat → List (List Nat) → Option (AppData × List Diag)
  | app, _, [] => some (app, [])
  | app, line_num, buf :: rest =>
    match apply_effect app (parse_line (line_num + 1) buf) with
    | none => none
    | some (app1, ds) => (load_lines app1 (line_num + 1) rest).map (fun r => (r.1, ds ++ r.2))

/-- `load_char_map`: `file` is `none` when `fopen` fails, otherwise the bytes of the
mapping file.  The result is the new state and the diagnostics collected.  The loop that
displays the table afterwards reads `char_map[i]` for `i < char_map_size` and changes
nothing; it is left out, and stays within the table when `char_map_size` is at most 256. -/
def load_char_map (app : AppData) (file : Option (List Nat)) : Option (AppData × List Diag) :=
  match file with
  | none => some (app, [.open_error])
  | some bytes =>
    let app0 : AppData :=
      { app with char_map := reset app.char_map_size app.char_map, char_map_size := 0 }
    (load_lines app0 0 (Libc.fgets_chunks MAX_LINE_LENGTH bytes [])).map
      (fun r => ({ r.1 with is_map_loaded := true }, r.2))

/-- Index `i` (1-based, at most `char_map_size`) holds the byte `b`: its entry is the
one-character C string of `b` (the empty string for the NUL byte). -/
def holds (app : AppData) (i : Nat) (b : Nat) : Prop :=
  1 ≤ i ∧ i ≤ app.char_map_size ∧ app.char_map.getD (i - 1) none = some (Libc.cstr [b, 0])

instance (app : AppData) (i b : Nat) : Decidable (holds app i b) := by
  unfold holds; infer_instance

/-- The token `encode_file` writes for the byte `c`: its index, or `0`. -/
def code (app : AppData) (c : Nat) : Int :=
  if find_char_index app c ≠ -1 then find_char_index app c else 0

end GUI

/-! ## Notions used to state the properties -/

namespace Libc

/-- The text `fprintf(output_file, "%d ", t)` writes for each token of a list in turn. -/
def print_tokens : List Int → List Nat
  | [] => []
  | t :: ts => print_d t ++ 32 :: print_tokens ts

/-- The values a repeated `fscanf(input_file, "%d", &index) == 1` loop reads from a text,
in order, up to the first conversion that fails (the first argument bounds the number of
iterations). -/
def scan_tokens : Nat → List Nat → List Int
  | 0, _ => []
  | f + 1, text =>
    match scan_d text with
    | none => []
    | some (v, rest) => v :: scan_tokens f rest

/-- The tokens of a text, as the decode loop reads them. -/
def tokens (text : List Nat) : List Int := scan_tokens (text.length + 1) text

/-- The decode loop of both programs, with what the body writes for an index as a
parameter. -/
def scan_loop (emit : Int → List Nat) : Nat → List Nat → Option (List Nat)
  | 0, _ => none
  | f + 1, text =>
    match scan_d text with
    | none => some []
    | some (index, rest) =>
      if fits_int index then (scan_loop emit f rest).map (fun out => emit index ++ out)
      else none

/-- The search loop of both programs, with the test of slot `i` as a parameter: `n`
iterations are left and the loop variable is `i`. -/
def first_index (p : Nat → Bool) : Nat → Nat → Int
  | 0, _ => -1
  | n + 1, i => if p i then (i : Int) + 1 else first_index p n (i + 1)

end Libc

/-- The index whose table entry the line stores, if it stores one. -/
def LineEffect.target {α : Type} : LineEffect α → Option Int
  | .assign index _ _ => some index
  | _ => none

namespace CLI

/-- Some line of the mapping file stores a character at index `t`. -/
def assigned (file : List Nat) (t : Int) : Prop :=
  ∃ buf ∈ Libc.fgets_chunks MAX_LINE_LENGTH file [], (parse_line 0 buf).target = some t

instance (file : List Nat) (t : Int) : Decidable (assigned file t) := by
  unfold assigned; infer_instance

end CLI

namespace GUI

/-- Some line of the mapping file stores a character at index `t`. -/
def assigned (file : List Nat) (t : Int) : Prop :=
  ∃ buf ∈ Libc.fgets_chunks MAX_LINE_LENGTH file [], (parse_line 0 buf).target = some t

instance (file : List Nat) (t : Int) : Decidable (assigned file t) := by
  unfold assigned; infer_instance

/-- The table has its 256 slots and every slot at or beyond `char_map_size` is `NULL`. -/
def Shape (app : AppData) : Prop :=
  app.char_map.length = MAX_CHAR_MAP ∧
    ∀ i, app.char_map_size ≤ i → app.char_map.getD i none = none

/-- What holds of the table in `main` after `memset` and after every load that leaves
`char_map_size` within the table: `char_map_size` is at most 256 (so the reset loop of the
next load stays inside the array) and the table has the shape `Shape`. -/
def Inv (app : AppData) : Prop := app.char_map_size ≤ MAX_CHAR_MAP ∧ Shape app

end GUI

/-! ## Example tables -/

/-- A mapping file with `A` at 1 and 4, `B` at 2 and no line for index 3
(`1<TAB>A`, `2<TAB>B`, `4<TAB>A`). -/
def example_file : List Nat := [49, 9, 65, 10, 50, 9, 66, 10, 52, 9, 65, 10]

/-- The table of the text-menu variant after loading `example_file`. -/
def CLI.example_state : CLI.State := ⟨[65, 66, 0, 65] ++ List.replicate 252 0, 4, true⟩

/-- The table of the GTK variant after loading `example_file`. -/
def GUI.example_app : GUI.AppData :=
  ⟨[some [65], some [66], none, some [65]] ++ List.replicate 252 none, 4, true⟩

/-- The GTK variant with an empty table (size 0) that counts as loaded. -/
def GUI.empty_loaded : GUI.AppData := ⟨List.replicate 256 none, 0, true⟩

/-- A second mapping file, `1<TAB>A`, `3<TAB>B`: no line for index 2. -/
def example_file_gap : List Nat := [49, 9, 65, 10, 51, 9, 66, 10]

/-- The table of the GTK variant after loading `example_file_gap`. -/
def GUI.example_app_gap : GUI.AppData :=
  ⟨[some [65], none, some [66]] ++ List.replicate 253 none, 3, true⟩

/-- The mapping file of the single line `3<TAB>\q` (an unknown escape). -/
def example_file_bad_escape : List Nat := [51, 9, 92, 113, 10]

/-- The table of the text-menu variant after loading `example_file_bad_escape`. -/
def CLI.example_state_bad_escape : CLI.State := ⟨List.replicate 256 0, 3, true⟩

/-- The mapping file of the single line `1<TAB>\0` (the NUL escape). -/
def example_file_nul : List Nat := [49, 9, 92, 48, 10]

/-- The table of the GTK variant after loading `example_file_nul`: the entry of index 1
is the empty string. -/
def GUI.example_app_nul : GUI.AppData := ⟨some [] :: List.replicate 255 none, 1, true⟩

/-! ## Notions used to state the properties of the loader and of the loaded flag -/

/-- The line `<i><TAB><rep>` of a mapping file, with its newline. -/
def mapping_line (i : Int) (rep : List Nat) : List Nat := Libc.print_d i ++ 9 :: rep ++ [10]

/-- Follows the spec's words: the recognised escapes `\n`, `\t`, `\r`, `\0`, `\\`, `\'`,
`\"`, each as the character after the backslash paired with the byte it maps to
(`0x0A`, `0x09`, `0x0D`, `0x00`, `0x5C`, `0x27`, `0x22`). -/
def spec_escapes : List (Nat × Nat) :=
  [(110, 10), (116, 9), (114, 13), (48, 0), (92, 92), (39, 39), (34, 34)]

/-- Follows the spec's words: the character a representation stands for, for the
representations that are accepted without a diagnostic: the word `Space`, the word `Tab`,
exactly one literal character, or a recognised two-character escape. -/
def spec_char (rep : List Nat) : Option Nat :=
  if rep = str_Space then some 32
  else if rep = str_Tab then some 9
  else
    match rep with
    | [c] => some c
    | [92, x] => spec_escapes.lookup x
    | _ => none

/-- The line neither overflows `int` nor uses an index outside `1..256`. -/
def LineEffect.in_range {α : Type} : LineEffect α → Bool
  | .assign index _ _ => decide (1 ≤ index ∧ index ≤ 256)
  | .bump index _ => decide (1 ≤ index ∧ index ≤ 256)
  | .undefined => false
  | _ => true

/-- A request of the user: menu choices 1, 2, 3 of the text-menu variant, or the three
buttons of the GTK variant, with the contents of the file the request names (`none` for
a mapping file that does not open). -/
inductive Request where
  /-- Load a mapping file. -/
  | load (file : Option (List Nat))
  /-- Encode the input file. -/
  | encode (input : List Nat)
  /-- Decode the token file. -/
  | decode (text : List Nat)
  deriving DecidableEq, Repr

/-- What a request produces. -/
inductive Reply where
  /-- The request is refused with "Please load a character map first"; nothing is read or
  written. -/
  | refused
  /-- A load returned, with these diagnostics. -/
  | loaded (ds : List Diag)
  /-- The bytes written to the output file. -/
  | written (out : List Nat)
  deriving DecidableEq, Repr

namespace CLI

/-- Every line of the mapping file that uses an index uses one in `1..256`. -/
def indices_in_range (file : List Nat) : Prop :=
  ∀ buf ∈ Libc.fgets_chunks MAX_LINE_LENGTH file [], (parse_line 0 buf).in_range = true

instance (file : List Nat) : Decidable (indices_in_range file) := by
  unfold indices_in_range; infer_instance

/-- The `switch (choice)` of `main` for the choices 1, 2 and 3: the new globals and what
the request produced (`none`: undefined behaviour). -/
def main_switch (st : State) : Request → Option (State × Reply)
  | .load file => (load_char_map st file).map (fun r => (r.1, .loaded r.2))
  | .encode input =>
    if !st.is_map_loaded then some (st, .refused)
    else some (st, .written (encode_file st input))
  | .decode text =>
    if !st.is_map_loaded then some (st, .refused)
    else (decode_file st text).map (fun out => (st, .written out))

end CLI

namespace GUI

/-- Every line of the mapping file that uses an index uses one in `1..256`. -/
def indices_in_range (file : List Nat) : Prop :=
  ∀ buf ∈ Libc.fgets_chunks MAX_LINE_LENGTH file [], (parse_line 0 buf).in_range = true

instance (file : List Nat) : Decidable (indices_in_range file) := by
  unfold indices_in_range; infer_instance

/-- What an `Outcome` is as the reply to a request that leaves the state as it is. -/
def reply_of (app : AppData) : Outcome → Option (AppData × Reply)
  | .refused => some (app, .refused)
  | .undefined => none
  | .written out => some (app, .written out)

/-- The three button callbacks `load_char_map`, `encode_file`, `decode_file`: the new
fields of `AppData` and what the request produced (`none`: undefined behaviour). -/
def callback (app : AppData) : Request → Option (AppData × Reply)
  | .load file => (load_char_map app file).map (fun r => (r.1, .loaded r.2))
  | .encode input => reply_of app (encode_file app input)
  | .decode text => reply_of app (decode_file app text)

end GUI

/-- The mapping file of the spec example: `1<TAB>Space`, `2<TAB>Tab`, `3<TAB>A`. -/
def spec_example_file : List Nat :=
  [49, 9, 83, 112, 97, 99, 101, 10, 50, 9, 84, 97, 98, 10, 51, 9, 65, 10]

/-- The table of the text-menu variant after loading `spec_example_file`. -/
def CLI.spec_example_state : CLI.State := ⟨[32, 9, 65] ++ List.replicate 253 0, 3, true⟩

/-- The table of the GTK variant after loading `spec_example_file`. -/
def GUI.spec_example_app : GUI.AppData :=
  ⟨[some [32], some [9], some [65]] ++ List.replicate 253 none, 3, true⟩

/-- The mapping file of the single line `1<TAB>` (an empty representation). -/
def example_file_empty_rep : List Nat := [49, 9, 10]

/-- The table of the text-menu variant after loading `example_file_empty_rep`: nothing
is assigned and `char_map_size` is still 0. -/
def CLI.example_state_empty_rep : CLI.State := ⟨List.replicate 256 0, 0, true⟩

/-- The table of the GTK variant after loading `example_file_empty_rep`. -/
def GUI.example_app_empty_rep : GUI.AppData := ⟨some [32] :: List.replicate 255 none, 1, true⟩

/-- The globals of the text-menu variant after a line stored the byte `b` at index
`index`: `if (index > char_map_size) char_map_size = index; char_map[index - 1] = b;`. -/
def CLI.stored (st : CLI.State) (index : Int) (b : Nat) : CLI.State :=
  { st with char_map_size := CLI.raise_size st.char_map_size index,
            char_map := st.char_map.set (index - 1).toNat b }

/-- The globals of the text-menu variant after a line only raised `char_map_size`:
`if (index > char_map_size) char_map_size = index;`. -/
def CLI.raised (st : CLI.State) (index : Int) : CLI.State :=
  { st with char_map_size := CLI.raise_size st.char_map_size index }

/-- The fields of the GTK variant after a line stored the string `e` at index `index`:
`if (index > char_map_size) char_map_size = index; char_map[index - 1] = strdup(e);`. -/
def GUI.stored (app : GUI.AppData) (index : Int) (e : List Nat) : GUI.AppData :=
  { app with char_map_size := GUI.raise_size app.char_map_size index,
             char_map := app.char_map.set (index - 1).toNat (some e) }

/-- The fields of the GTK variant after a line only raised `char_map_size`. -/
def GUI.raised (app : GUI.AppData) (index : Int) : GUI.AppData :=
  { app with char_map_size := GUI.raise_size app.char_map_size index }

/-! ## Notions used to state the properties of whole mapping files -/

/-- The index a line uses: the one it stores at, or the one it raises `char_map_size`
to without storing. -/
def LineEffect.index {α : Type} : LineEffect α → Option Int
  | .assign index _ _ => some index
  | .bump index _ => some index
  | _ => none

/-- What the line stores, if it stores: the index and the entry. -/
def LineEffect.store {α : Type} : LineEffect α → Option (Int × α)
  | .assign index entry _ => some (index, entry)
  | _ => none

/-- The effect in the GTK variant that corresponds to an effect in the text-menu
variant: the byte stored becomes the C string `{b, 0}` handed to `strdup`. -/
def LineEffect.to_gui : LineEffect Nat → LineEffect (List Nat)
  | .skip d => .skip d
  | .bump index d => .bump index d
  | .assign index b ds => .assign index (Libc.cstr [b, 0]) ds
  | .nothing => .nothing
  | .undefined => .undefined

/-- The line, as the text-menu variant reads it, has an index in `1..255` when it has
one, and does not have an empty representation. -/
def LineEffect.agreeable : LineEffect Nat → Bool
  | .assign index _ _ => decide (1 ≤ index ∧ index ≤ 255)
  | .bump index _ => decide (1 ≤ index ∧ index ≤ 255)
  | .skip _ => true
  | .nothing => false
  | .undefined => false

namespace CLI

/-- The table has its 256 slots and every slot at or beyond `char_map_size` is 0. -/
def Shape (st : State) : Prop :=
  st.char_map.length = MAX_CHAR_MAP ∧ ∀ i, st.char_map_size ≤ i → st.char_map.getD i 0 = 0

/-- The lossy round trip `R`: `decode_file` applied to what `encode_file` writes. -/
def round_trip (st : State) (s : List Nat) : Option (List Nat) :=
  decode_file st (encode_file st s)

end CLI

namespace GUI

/-- The lossy round trip `R`: `decode_file` applied to what `encode_file` writes. -/
def round_trip (app : AppData) (s : List Nat) : Outcome :=
  match encode_file app s with
  | .written text => decode_file app text
  | .refused => .refused
  | .undefined => .undefined

end GUI

/-- The tables of the two variants hold the same mapping: same size, 256 slots each,
and every slot of the GTK table is either `NULL` where the text-menu table has 0, or
the C string of the byte the text-menu table has. -/
def Sim (st : CLI.State) (app : GUI.AppData) : Prop :=
  st.char_map_size = app.char_map_size ∧ st.char_map.length = 256 ∧
    app.char_map.length = 256 ∧
    ∀ j, (app.char_map.getD j none = none ∧ st.char_map.getD j 0 = 0) ∨
      app.char_map.getD j none = some (Libc.cstr [st.char_map.getD j 0, 0])

/-- The mapping file `256<TAB>A`, `256<TAB>B`: two lines for the index 256. -/
def example_file_twice_256 : List Nat := [50, 53, 54, 9, 65, 10, 50, 53, 54, 9, 66, 10]

/-- The mapping file `256<TAB>A`, `1<TAB>B`. -/
def example_file_256_first : List Nat := [50, 53, 54, 9, 65, 10, 49, 9, 66, 10]

/-- The mapping file `1<TAB>Space` with a CR LF line ending. -/
def example_file_crlf : List Nat := [49, 9, 83, 112, 97, 99, 101, 13, 10]

/-- The mapping file `1<TAB>Space` with an LF line ending. -/
def example_file_lf : List Nat := [49, 9, 83, 112, 97, 99, 101, 10]

/-- The mapping file of the single line `0<TAB>A`. -/
def example_file_index_0 : List Nat := [48, 9, 65, 10]

/-- The mapping file of the single line `300<TAB>A`. -/
def example_file_index_300 : List Nat := [51, 48, 48, 9, 65, 10]

/-- The mapping file of the single line `-1<TAB>A`. -/
def example_file_index_neg : List Nat := [45, 49, 9, 65, 10]

/-- The line uses no index, or one below `m`. -/
def LineEffect.index_below {α : Type} (m : Int) (eff : LineEffect α) : Bool :=
  match eff.index with
  | some j => decide (j < m)
  | none => true

/-- The mapping file `1<TAB>A`, `1<TAB>B`: two lines for the index 1. -/
def example_file_twice_1 : List Nat := [49, 9, 65, 10, 49, 9, 66, 10]

/-- The mapping file `1<TAB>A`, `3<TAB>\q`, `2<TAB>B`: the largest index has an unknown
escape. -/
def example_file_escape_top : List Nat := [49, 9, 65, 10, 51, 9, 92, 113, 10, 50, 9, 66, 10]

/-- Follows the words of the property: the file with every LF replaced by CR LF. -/
def to_crlf (file : List Nat) : List Nat :=
  file.flatMap (fun c => if c = 10 then [13, 10] else [c])

/-! ## Notions used to state the properties of a line within a whole file -/

/-- The `int` that holds the low 32 bits of `v` (two's complement): what a conversion
stores where it keeps the low bits of a value that an `int` cannot hold. -/
def Libc.wrap_int (v : Int) : Int := (v + 2147483648) % 4294967296 - 2147483648

/-- The globals of the text-menu variant when the read loop starts: `memset(char_map, 0,
sizeof(char_map)); char_map_size = 0;`. -/
def CLI.cleared (st : CLI.State) : CLI.State :=
  { st with char_map := List.replicate CLI.MAX_CHAR_MAP 0, char_map_size := 0 }

/-- The fields of the GTK variant when the read loop starts: the reset loop has run and
`char_map_size = 0`. -/
def GUI.cleared (app : GUI.AppData) : GUI.AppData :=
  { app with char_map := GUI.reset app.char_map_size app.char_map, char_map_size := 0 }

/-- The mapping file `256<TAB>Z`, `2<TAB>Tab`. -/
def example_file_256_then_tab : List Nat :=
  [50, 53, 54, 9, 90, 10, 50, 9, 84, 97, 98, 10]

/-- The mapping file `256<TAB>A`, `1<TAB>xyz`. -/
def example_file_256_then_multi : List Nat :=
  [50, 53, 54, 9, 65, 10, 49, 9, 120, 121, 122, 10]

/-- The mapping file `256<TAB>A`, `hello`. -/
def example_file_256_then_bad : List Nat :=
  [50, 53, 54, 9, 65, 10, 104, 101, 108, 108, 111, 10]

/-- The token text `4294967297 2 `. -/
def example_text_big_token : List Nat :=
  [52, 50, 57, 52, 57, 54, 55, 50, 57, 55, 32, 50, 32]

/-! ## Facts about the C library model -/

namespace Libc

theorem isdigit_not_isspace {c : Nat} (h : isdigit c = true) : isspace c = false := by
  simp only [isdigit, isspace, Bool.and_eq_true, decide_eq_true_eq, Bool.or_eq_false_iff,
    beq_eq_false_iff_ne, Bool.and_eq_false_iff, decide_eq_false_iff_not] at *
  omega

theorem nat_digits_isdigit (f n : Nat) : ∀ d ∈ nat_digits f n, isdigit d = true := by
  induction f generalizing n with
  | zero => simp [nat_digits]
  | succ f ih =>
    intro d hd
    unfold nat_digits at hd
    split at hd
    · simp only [List.mem_singleton] at hd
      subst hd
      simp [isdigit]; omega
    · rcases List.mem_append.mp hd with h | h
      · exact ih _ d h
      · simp only [List.mem_singleton] at h
        subst h
        simp [isdigit]; omega

theorem nat_digits_ne_nil (f n : Nat) : nat_digits (f + 1) n ≠ [] := by
  unfold nat_digits
  split <;> simp

theorem foldl_nat_digits (f n : Nat) (h : n < f) (a : Nat) :
    (nat_digits f n).foldl (fun a d => 10 * a + (d - 48)) a
      = a * 10 ^ (nat_digits f n).length + n := by
  induction f generalizing n a with
  | zero => omega
  | succ f ih =>
    unfold nat_digits
    split
    · simp; omega
    · rename_i h10
      have hlt : n / 10 < f := by omega
      rw [List.foldl_append, ih _ hlt]
      simp only [List.foldl_cons, List.foldl_nil, List.length_append, List.length_singleton,
        Nat.add_sub_cancel_left, pow_succ]
      have := Nat.div_add_mod n 10
      ring_nf
      omega

theorem digits_value_nat_digits (n : Nat) : digits_value (nat_digits (n + 1) n) = n := by
  unfold digits_value
  rw [foldl_nat_digits _ _ (Nat.lt_succ_self n)]
  simp

/-- Scanning a run of digits that is followed by a non-digit reads exactly the run. -/
theorem scan_unsigned_digits (ds : List Nat) (c : Nat) (rest : List Nat)
    (hne : ds ≠ []) (hds : ∀ d ∈ ds, isdigit d = true) (hc : isdigit c = false) :
    scan_unsigned (ds ++ c :: rest) = some (digits_value ds, c :: rest) := by
  cases ds with
  | nil => exact absurd rfl hne
  | cons d ds' =>
    have hd : isdigit d = true := hds d (List.mem_cons_self _ _)
    have e1 : (d :: ds' ++ c :: rest).takeWhile isdigit = d :: ds' := by
      rw [List.takeWhile_append_of_pos hds]
      simp [hc]
    have e2 : (d :: ds' ++ c :: rest).dropWhile isdigit = c :: rest := by
      rw [List.dropWhile_append_of_pos hds]
      simp [hc]
    show scan_unsigned (d :: (ds' ++ c :: rest)) = _
    unfold scan_unsigned
    simp only [hd, if_true]
    rw [← List.cons_append, e1, e2]

/-- A `%d` conversion reads back a non-negative number printed with `%d` and followed by
a non-digit, and leaves the input after the number. -/
theorem scan_d_print_nat (n : Nat) (c : Nat) (rest : List Nat) (hc : isdigit c = false) :
    scan_d (print_d (n : Int) ++ c :: rest) = some ((n : Int), c :: rest) := by
  have hp : print_d (n : Int) = nat_digits (n + 1) n := by
    unfold print_d
    simp
  rw [hp]
  have hall := nat_digits_isdigit (n + 1) n
  have hscan := scan_unsigned_digits _ c rest (nat_digits_ne_nil n n) hall hc
  cases hds : nat_digits (n + 1) n with
  | nil => exact absurd hds (nat_digits_ne_nil n n)
  | cons d ds' =>
    rw [hds] at hscan hall
    have hd : isdigit d = true := hall d (List.mem_cons_self _ _)
    have hsp : isspace d = false := isdigit_not_isspace hd
    have h45 : d ≠ 45 := by
      intro h; subst h; simp [isdigit] at hd
    have h43 : d ≠ 43 := by
      intro h; subst h; simp [isdigit] at hd
    unfold scan_d
    rw [List.cons_append, List.dropWhile_cons_of_neg (by simp [hsp])]
    simp only [h45, h43, if_false]
    rw [← List.cons_append, hscan, ← hds, digits_value_nat_digits]
    rfl

/-- A `%d` conversion reads back a negative number printed with `%d` and followed by a
non-digit. -/
theorem scan_d_print_neg (n : Nat) (c : Nat) (rest : List Nat) (hn : 0 < n)
    (hc : isdigit c = false) :
    scan_d (print_d (-(n : Int)) ++ c :: rest) = some (-(n : Int), c :: rest) := by
  have hp : print_d (-(n : Int)) = 45 :: nat_digits (n + 1) n := by
    unfold print_d
    have : (-(n : Int)) < 0 := by omega
    simp [this]
  rw [hp]
  have hscan := scan_unsigned_digits _ c rest (nat_digits_ne_nil n n) (nat_digits_isdigit (n + 1) n) hc
  unfold scan_d
  rw [List.cons_append, List.dropWhile_cons_of_neg (by simp [isspace])]
  simp only [if_true]
  rw [hscan, digits_value_nat_digits]
  rfl

/-- A `%d` conversion reads back any number printed with `%d` and followed by a non-digit. -/
theorem scan_d_print_d (v : Int) (c : Nat) (rest : List Nat) (hc : isdigit c = false) :
    scan_d (print_d v ++ c :: rest) = some (v, c :: rest) := by
  rcases Int.lt_or_le v 0 with h | h
  · obtain ⟨n, hn⟩ : ∃ n : Nat, v = -(n : Int) := ⟨v.natAbs, by omega⟩
    subst hn
    exact scan_d_print_neg n c rest (by omega) hc
  · obtain ⟨n, hn⟩ : ∃ n : Nat, v = (n : Int) := ⟨v.natAbs, by omega⟩
    subst hn
    exact scan_d_print_nat n c rest hc

/-- Leading white space is skipped by a `%d` conversion. -/
theorem scan_d_cons_space (c : Nat) (s : List Nat) (hc : isspace c = true) :
    scan_d (c :: s) = scan_d s := by
  unfold scan_d
  rw [List.dropWhile_cons_of_pos hc]

theorem length_dropWhile_le (p : Nat → Bool) (s : List Nat) :
    (s.dropWhile p).length ≤ s.length := by
  induction s with
  | nil => simp
  | cons a s ih =>
    rw [List.dropWhile_cons]
    split
    · simp; omega
    · simp

theorem scan_unsigned_length {s : List Nat} {v : Nat} {r : List Nat}
    (h : scan_unsigned s = some (v, r)) : r.length < s.length := by
  cases s with
  | nil => simp [scan_unsigned] at h
  | cons c cs =>
    by_cases hd : isdigit c = true
    · simp only [scan_unsigned, hd, if_true, Option.some.injEq, Prod.mk.injEq] at h
      rw [← h.2, List.dropWhile_cons_of_pos hd]
      have := length_dropWhile_le isdigit cs
      simp only [List.length_cons]
      omega
    · simp [scan_unsigned, hd] at h

/-- A successful `%d` conversion consumes at least one byte. -/
theorem scan_d_length {s : List Nat} {v : Int} {r : List Nat}
    (h : scan_d s = some (v, r)) : r.length < s.length := by
  unfold scan_d at h
  have hle := length_dropWhile_le isspace s
  split at h
  · simp at h
  · rename_i c cs heq
    rw [heq] at hle
    simp only [List.length_cons] at hle
    split at h
    · simp only [Option.map_eq_some', Prod.mk.injEq, Prod.exists] at h
      obtain ⟨a, b, hab, -, rfl⟩ := h
      have := scan_unsigned_length hab
      omega
    · split at h
      · simp only [Option.map_eq_some', Prod.mk.injEq, Prod.exists] at h
        obtain ⟨a, b, hab, -, rfl⟩ := h
        have := scan_unsigned_length hab
        omega
      · simp only [Option.map_eq_some', Prod.mk.injEq, Prod.exists] at h
        obtain ⟨a, b, hab, -, rfl⟩ := h
        have := scan_unsigned_length hab
        simp only [List.length_cons] at this
        omega

end Libc

/-! ## Facts about the two loops shared by both programs -/

namespace Libc

theorem scan_loop_fuel (emit : Int → List Nat) (f1 : Nat) :
    ∀ (f2 : Nat) (text : List Nat), text.length < f1 → text.length < f2 →
      scan_loop emit f1 text = scan_loop emit f2 text := by
  induction f1 with
  | zero => intro f2 text h; omega
  | succ k ih =>
    intro f2 text h1 h2
    cases f2 with
    | zero => omega
    | succ m =>
      unfold scan_loop
      cases hs : scan_d text with
      | none => rfl
      | some p =>
        obtain ⟨v, rest⟩ := p
        have hlen := scan_d_length hs
        simp only
        rw [ih m rest (by omega) (by omega)]

/-- The decode loop never runs out of iterations when it is given more of them than the
text has bytes: it ends with an output unless a scanned value does not fit an `int`. -/
theorem scan_loop_total (emit : Int → List Nat) (f : Nat) :
    ∀ text : List Nat, text.length < f →
      (∀ v ∈ scan_tokens f text, fits_int v = true) →
      ∃ out, scan_loop emit f text = some out := by
  induction f with
  | zero => intro text h; omega
  | succ k ih =>
    intro text hlen hfit
    unfold scan_loop
    unfold scan_tokens at hfit
    cases hs : scan_d text with
    | none => exact ⟨[], rfl⟩
    | some p =>
      obtain ⟨v, rest⟩ := p
      rw [hs] at hfit
      simp only [List.mem_cons, forall_eq_or_imp] at hfit
      have hr := scan_d_length hs
      obtain ⟨out, hout⟩ := ih rest (by omega) hfit.2
      exact ⟨emit v ++ out, by simp [hfit.1, hout]⟩

theorem scan_loop_cons_space (emit : Int → List Nat) (f : Nat) (c : Nat) (text : List Nat)
    (hc : isspace c = true) :
    scan_loop emit (f + 1) (c :: text) = scan_loop emit (f + 1) text := by
  unfold scan_loop
  rw [scan_d_cons_space c text hc]

theorem scan_loop_print_d (emit : Int → List Nat) (f : Nat) (t : Int) (rest : List Nat)
    (ht : fits_int t = true) :
    scan_loop emit (f + 1) (print_d t ++ 32 :: rest)
      = (scan_loop emit f (32 :: rest)).map (fun out => emit t ++ out) := by
  conv_lhs => unfold scan_loop
  rw [scan_d_print_d t 32 rest (by decide)]
  simp [ht]

theorem length_print_tokens (ts : List Int) : ts.length ≤ (print_tokens ts).length := by
  induction ts with
  | nil => simp [print_tokens]
  | cons t ts ih =>
    simp only [print_tokens, List.length_append, List.length_cons]
    omega

/-- Decoding a printed token list writes what the body writes for each token in turn. -/
theorem scan_loop_print_tokens (emit : Int → List Nat) (ts : List Int)
    (hfit : ∀ t ∈ ts, fits_int t = true) :
    ∀ f, ts.length < f → scan_loop emit f (print_tokens ts) = some (ts.flatMap emit) := by
  induction ts with
  | nil =>
    intro f hf
    cases f with
    | zero => omega
    | succ k => rfl
  | cons t ts ih =>
    intro f hf
    cases f with
    | zero => omega
    | succ k =>
      simp only [List.length_cons] at hf
      cases k with
      | zero => omega
      | succ j =>
        simp only [print_tokens]
        rw [scan_loop_print_d emit _ t _ (hfit t (List.mem_cons_self _ _)),
          scan_loop_cons_space emit j 32 _ (by decide),
          ih (fun u hu => hfit u (List.mem_cons_of_mem _ hu)) (j + 1) (by omega)]
        simp

/-- A text that stops being numeric: the decode loop reads the same from the printed
tokens whether or not the non-numeric tail follows them. -/
theorem scan_loop_stop (emit : Int → List Nat) (ts : List Int) (bad : List Nat)
    (hbad : scan_d bad = none) :
    ∀ f, ts.length < f →
      scan_loop emit f (print_tokens ts ++ bad) = scan_loop emit f (print_tokens ts) := by
  induction ts with
  | nil =>
    intro f hf
    cases f with
    | zero => omega
    | succ k =>
      simp only [print_tokens, List.nil_append]
      unfold scan_loop
      rw [hbad]
      rfl
  | cons t ts ih =>
    intro f hf
    cases f with
    | zero => omega
    | succ k =>
      simp only [List.length_cons] at hf
      cases k with
      | zero => omega
      | succ j =>
        simp only [print_tokens, List.append_assoc, List.cons_append]
        conv_lhs => unfold scan_loop
        conv_rhs => unfold scan_loop
        rw [scan_d_print_d t 32 _ (by decide), scan_d_print_d t 32 _ (by decide)]
        simp only
        rw [scan_loop_cons_space emit j 32 _ (by decide),
          scan_loop_cons_space emit j 32 _ (by decide), ih (j + 1) (by omega)]

theorem scan_tokens_fuel (f1 : Nat) :
    ∀ (f2 : Nat) (text : List Nat), text.length < f1 → text.length < f2 →
      scan_tokens f1 text = scan_tokens f2 text := by
  induction f1 with
  | zero => intro f2 text h; omega
  | succ k ih =>
    intro f2 text h1 h2
    cases f2 with
    | zero => omega
    | succ m =>
      unfold scan_tokens
      cases hs : scan_d text with
      | none => rfl
      | some p =>
        obtain ⟨v, rest⟩ := p
        have hlen := scan_d_length hs
        simp only
        rw [ih m rest (by omega) (by omega)]

/-- The decode scanner reads a printed token list back. -/
theorem scan_tokens_print_tokens (ts : List Int) :
    ∀ f, ts.length < f → scan_tokens f (print_tokens ts) = ts := by
  induction ts with
  | nil =>
    intro f hf
    cases f with
    | zero => omega
    | succ k => rfl
  | cons t ts ih =>
    intro f hf
    cases f with
    | zero => omega
    | succ k =>
      simp only [List.length_cons] at hf
      cases k with
      | zero => omega
      | succ j =>
        simp only [print_tokens]
        conv_lhs => unfold scan_tokens
        rw [scan_d_print_d t 32 _ (by decide)]
        simp only
        have : scan_tokens (j + 1) (32 :: print_tokens ts) = scan_tokens (j + 1) (print_tokens ts) := by
          unfold scan_tokens
          rw [scan_d_cons_space 32 _ (by decide)]
        rw [this, ih (j + 1) (by omega)]

theorem tokens_print_tokens (ts : List Int) : tokens (print_tokens ts) = ts :=
  scan_tokens_print_tokens ts _ (by have := length_print_tokens ts; omega)

/-- What the search loop returns: `-1` when no slot in the range passes the test, and
otherwise one more than the first slot that passes it. -/
theorem first_index_spec (p : Nat → Bool) (n : Nat) :
    ∀ i, (first_index p n i = -1 ∧ ∀ j, i ≤ j → j < i + n → p j = false) ∨
      (∃ k : Nat, first_index p n i = (k : Int) + 1 ∧ i ≤ k ∧ k < i + n ∧ p k = true ∧
        ∀ j, i ≤ j → j < k → p j = false) := by
  induction n with
  | zero =>
    intro i
    left
    exact ⟨rfl, fun j h1 h2 => by omega⟩
  | succ n ih =>
    intro i
    unfold first_index
    by_cases hp : p i = true
    · right
      refine ⟨i, by simp [hp], le_refl _, by omega, hp, fun j h1 h2 => by omega⟩
    · simp only [hp, if_false]
      rcases ih (i + 1) with ⟨h1, h2⟩ | ⟨k, h1, h2, h3, h4, h5⟩
      · left
        refine ⟨h1, fun j hj1 hj2 => ?_⟩
        rcases Nat.eq_or_lt_of_le hj1 with h | h
        · subst h; simpa using hp
        · exact h2 j h (by omega)
      · right
        refine ⟨k, h1, by omega, by omega, h4, fun j hj1 hj2 => ?_⟩
        rcases Nat.eq_or_lt_of_le hj1 with h | h
        · subst h; simpa using hp
        · exact h5 j h hj2

end Libc

/-! ## Facts about the text-menu variant -/

namespace CLI

theorem cli_decode_loop_eq (st : State) (f : Nat) :
    ∀ text, decode_loop st f text = Libc.scan_loop (decode_emit st) f text := by
  induction f with
  | zero => intro text; rfl
  | succ f ih =>
    intro text
    unfold decode_loop Libc.scan_loop
    cases Libc.scan_d text with
    | none => rfl
    | some p => simp only [ih]

theorem cli_find_char_index_loop_eq (m : List Nat) (c : Nat) (n : Nat) :
    ∀ i, find_char_index_loop m c n i
      = Libc.first_index (fun j => decide (m.getD j 0 = c)) n i := by
  induction n with
  | zero => intro i; rfl
  | succ n ih =>
    intro i
    unfold find_char_index_loop Libc.first_index
    simp only [ih, decide_eq_true_eq]

/-- What `find_char_index` returns: `-1` when no index holds the byte, and otherwise the
lowest index that holds it. -/
theorem cli_find_char_index_spec (st : State) (c : Nat) :
    (find_char_index st c = -1 ∧ ∀ i, ¬ holds st i c) ∨
      (∃ k : Nat, find_char_index st c = (k : Int) ∧ holds st k c ∧
        ∀ j, holds st j c → k ≤ j) := by
  unfold find_char_index
  rw [cli_find_char_index_loop_eq]
  rcases Libc.first_index_spec (fun j => decide (st.char_map.getD j 0 = c))
      st.char_map_size 0 with ⟨h1, h2⟩ | ⟨k, h1, -, h3, h4, h5⟩
  · left
    refine ⟨h1, fun i hi => ?_⟩
    obtain ⟨hi1, hi2, hi3⟩ := hi
    have := h2 (i - 1) (Nat.zero_le _) (by omega)
    simp only [decide_eq_false_iff_not] at this
    exact this hi3
  · right
    refine ⟨k + 1, by rw [h1]; push_cast; rfl, ⟨by omega, by omega, ?_⟩, fun j hj => ?_⟩
    · simpa using h4
    · obtain ⟨hj1, hj2, hj3⟩ := hj
      by_contra hlt
      have := h5 (j - 1) (Nat.zero_le _) (by omega)
      simp only [decide_eq_false_iff_not] at this
      exact this hj3

theorem cli_code_spec (st : State) (c : Nat) :
    (code st c = 0 ∧ find_char_index st c = -1 ∧ ∀ i, ¬ holds st i c) ∨
      (∃ k : Nat, code st c = (k : Int) ∧ find_char_index st c = (k : Int) ∧ holds st k c ∧
        ∀ j, holds st j c → k ≤ j) := by
  rcases cli_find_char_index_spec st c with ⟨h1, h2⟩ | ⟨k, h1, h2, h3⟩
  · left
    exact ⟨by simp [code, h1], h1, h2⟩
  · right
    refine ⟨k, ?_, h1, h2, h3⟩
    have hk : (k : Int) ≠ -1 := by omega
    simp [code, h1, hk]

theorem cli_encode_byte_eq (st : State) (c : Nat) :
    encode_byte st c = Libc.print_d (code st c) ++ [32] := by
  unfold encode_byte code
  by_cases h : find_char_index st c = -1
  · simp only [h, ne_eq, not_true_eq_false, if_false]
    rfl
  · simp only [ne_eq, h, not_false_eq_true, if_true]

theorem encode_file_eq (st : State) (s : List Nat) :
    encode_file st s = Libc.print_tokens (s.map (code st)) := by
  induction s with
  | nil => rfl
  | cons c cs ih =>
    simp only [encode_file, List.map_cons, Libc.print_tokens, ih, cli_encode_byte_eq,
      List.append_assoc, List.singleton_append]

theorem cli_code_fits (st : State) (hwf : WF st) (c : Nat) : Libc.fits_int (code st c) = true := by
  rcases cli_code_spec st c with ⟨h, -, -⟩ | ⟨k, h, -, ⟨-, hk, -⟩, -⟩
  · rw [h]; decide
  · rw [h]
    have : k ≤ 256 := le_trans hk hwf.2
    simp only [Libc.fits_int, Libc.INT_MIN, Libc.INT_MAX, Bool.and_eq_true, decide_eq_true_eq]
    omega

theorem decode_file_print_tokens (st : State) (ts : List Int)
    (hfit : ∀ t ∈ ts, Libc.fits_int t = true) :
    decode_file st (Libc.print_tokens ts) = some (ts.flatMap (decode_emit st)) := by
  unfold decode_file
  rw [cli_decode_loop_eq]
  exact Libc.scan_loop_print_tokens _ ts hfit _
    (by have := Libc.length_print_tokens ts; omega)

theorem cli_decode_emit_of_holds (st : State) (k b : Nat) (h : holds st k b) :
    decode_emit st (k : Int) = [b] := by
  obtain ⟨h1, h2, h3⟩ := h
  unfold decode_emit
  have hc : (k : Int) > 0 ∧ (k : Int) ≤ (st.char_map_size : Int) := by omega
  have ht : ((k : Int) - 1).toNat = k - 1 := by omega
  simp only [hc, and_self, if_true, ht, h3]

end CLI

/-! ## Facts about the GTK variant -/

namespace GUI

theorem gui_decode_loop_eq (app : AppData) (f : Nat) :
    ∀ text, decode_loop app f text = Libc.scan_loop (decode_emit app) f text := by
  induction f with
  | zero => intro text; rfl
  | succ f ih =>
    intro text
    unfold decode_loop Libc.scan_loop
    cases Libc.scan_d text with
    | none => rfl
    | some p => simp only [ih]

theorem gui_find_char_index_loop_eq (m : List (Option (List Nat))) (c : Nat) (n : Nat) :
    ∀ i, find_char_index_loop m c n i
      = Libc.first_index (fun j => decide (m.getD j none = some (Libc.cstr [c, 0]))) n i := by
  induction n with
  | zero => intro i; rfl
  | succ n ih =>
    intro i
    unfold find_char_index_loop Libc.first_index
    simp only [ih, decide_eq_true_eq]

/-- What `find_char_index` returns: `-1` when no index holds the byte, and otherwise the
lowest index that holds it. -/
theorem gui_find_char_index_spec (app : AppData) (c : Nat) :
    (find_char_index app c = -1 ∧ ∀ i, ¬ holds app i c) ∨
      (∃ k : Nat, find_char_index app c = (k : Int) ∧ holds app k c ∧
        ∀ j, holds app j c → k ≤ j) := by
  unfold find_char_index
  rw [gui_find_char_index_loop_eq]
  rcases Libc.first_index_spec
      (fun j => decide (app.char_map.getD j none = some (Libc.cstr [c, 0])))
      app.char_map_size 0 with ⟨h1, h2⟩ | ⟨k, h1, -, h3, h4, h5⟩
  · left
    refine ⟨h1, fun i hi => ?_⟩
    obtain ⟨hi1, hi2, hi3⟩ := hi
    have := h2 (i - 1) (Nat.zero_le _) (by omega)
    simp only [decide_eq_false_iff_not] at this
    exact this hi3
  · right
    refine ⟨k + 1, by rw [h1]; push_cast; rfl, ⟨by omega, by omega, ?_⟩, fun j hj => ?_⟩
    · simpa using h4
    · obtain ⟨hj1, hj2, hj3⟩ := hj
      by_contra hlt
      have := h5 (j - 1) (Nat.zero_le _) (by omega)
      simp only [decide_eq_false_iff_not] at this
      exact this hj3

theorem gui_code_spec (app : AppData) (c : Nat) :
    (code app c = 0 ∧ find_char_index app c = -1 ∧ ∀ i, ¬ holds app i c) ∨
      (∃ k : Nat, code app c = (k : Int) ∧ find_char_index app c = (k : Int) ∧ holds app k c ∧
        ∀ j, holds app j c → k ≤ j) := by
  rcases gui_find_char_index_spec app c with ⟨h1, h2⟩ | ⟨k, h1, h2, h3⟩
  · left
    exact ⟨by simp [code, h1], h1, h2⟩
  · right
    refine ⟨k, ?_, h1, h2, h3⟩
    have hk : (k : Int) ≠ -1 := by omega
    simp [code, h1, hk]

theorem gui_encode_byte_eq (app : AppData) (c : Nat) :
    encode_byte app c = Libc.print_d (code app c) ++ [32] := by
  unfold encode_byte code
  by_cases h : find_char_index app c = -1
  · simp only [h, ne_eq, not_true_eq_false, if_false]
    rfl
  · simp only [ne_eq, h, not_false_eq_true, if_true]

theorem encode_loop_eq (app : AppData) (s : List Nat) :
    encode_loop app s = Libc.print_tokens (s.map (code app)) := by
  induction s with
  | nil => rfl
  | cons c cs ih =>
    simp only [encode_loop, List.map_cons, Libc.print_tokens, ih, gui_encode_byte_eq,
      List.append_assoc, List.singleton_append]

theorem gui_code_fits (app : AppData) (hwf : WF app) (c : Nat) :
    Libc.fits_int (code app c) = true := by
  rcases gui_code_spec app c with ⟨h, -, -⟩ | ⟨k, h, -, ⟨-, hk, -⟩, -⟩
  · rw [h]; decide
  · rw [h]
    have : k ≤ 256 := le_trans hk hwf.2
    simp only [Libc.fits_int, Libc.INT_MIN, Libc.INT_MAX, Bool.and_eq_true, decide_eq_true_eq]
    omega

theorem decode_loop_print_tokens (app : AppData) (ts : List Int)
    (hfit : ∀ t ∈ ts, Libc.fits_int t = true) :
    decode_loop app ((Libc.print_tokens ts).length + 1) (Libc.print_tokens ts)
      = some (ts.flatMap (decode_emit app)) := by
  rw [gui_decode_loop_eq]
  exact Libc.scan_loop_print_tokens _ ts hfit _
    (by have := Libc.length_print_tokens ts; omega)

theorem gui_decode_emit_of_holds (app : AppData) (k b : Nat) (h : holds app k b) :
    decode_emit app (k : Int) = Libc.cstr [b, 0] := by
  obtain ⟨h1, h2, h3⟩ := h
  unfold decode_emit
  have hc : (k : Int) > 0 ∧ (k : Int) ≤ (app.char_map_size : Int) := by omega
  have ht : ((k : Int) - 1).toNat = k - 1 := by omega
  rw [ht, h3]
  simp [hc]

end GUI

namespace Libc

theorem print_d_length_pos (v : Int) : 0 < (print_d v).length := by
  unfold print_d
  split
  · simp
  · exact List.length_pos.mpr (nat_digits_ne_nil _ _)

/-- One printed token at the head of a text: the decode loop writes what the body writes
for it and goes on with the rest of the text. -/
theorem scan_loop_token (emit : Int → List Nat) (t : Int) (rest : List Nat)
    (ht : fits_int t = true) :
    scan_loop emit ((print_d t ++ 32 :: rest).length + 1) (print_d t ++ 32 :: rest)
      = (scan_loop emit (rest.length + 1) rest).map (fun out => emit t ++ out) := by
  have hpos := print_d_length_pos t
  rw [scan_loop_print_d emit _ t rest ht]
  have e1 : scan_loop emit (print_d t ++ 32 :: rest).length (32 :: rest)
      = scan_loop emit (rest.length + 1 + 1) (32 :: rest) :=
    scan_loop_fuel emit _ _ _ (by simp; omega) (by simp)
  rw [e1, scan_loop_cons_space emit _ 32 rest (by decide)]
  rw [scan_loop_fuel emit (rest.length + 1 + 1) (rest.length + 1) rest (by omega) (by omega)]

theorem flatMap_map_singleton (code : Nat → Int) (emit : Int → List Nat) (s : List Nat)
    (h : ∀ b ∈ s, emit (code b) = [b]) : (s.map code).flatMap emit = s := by
  induction s with
  | nil => rfl
  | cons c cs ih =>
    simp only [List.map_cons, List.flatMap_cons]
    rw [h c (List.mem_cons_self _ _), ih (fun b hb => h b (List.mem_cons_of_mem _ hb))]
    rfl

end Libc

/-! ## The properties -/

set_option maxRecDepth 20000

/-- C1: in the text-menu variant, for every table (256 slots, `char_map_size` at most
256) and every byte sequence whose bytes are all held by some index in
`1..char_map_size`, decoding the text that `encode_file` writes gives the byte sequence
back. -/
theorem CLI.encode_decode_identity (st : CLI.State) (s : List Nat) (hwf : CLI.WF st)
    (hs : ∀ b ∈ s, ∃ i, CLI.holds st i b) :
    CLI.decode_file st (CLI.encode_file st s) = some s := by
  rw [CLI.encode_file_eq, CLI.decode_file_print_tokens st _ (by
    intro t ht
    obtain ⟨c, -, rfl⟩ := List.mem_map.mp ht
    exact CLI.cli_code_fits st hwf c)]
  congr 1
  apply Libc.flatMap_map_singleton
  intro b hb
  obtain ⟨i, hi⟩ := hs b hb
  rcases CLI.cli_code_spec st b with ⟨-, -, hno⟩ | ⟨k, hk, -, hh, -⟩
  · exact absurd hi (hno i)
  · rw [hk]
    exact CLI.cli_decode_emit_of_holds st k b hh

/-- Witness for C1: the example table and the bytes `B A NUL` (NUL is what the empty
slot 3 holds). -/
theorem CLI.encode_decode_identity_witness :
    CLI.WF CLI.example_state ∧
      CLI.decode_file CLI.example_state (CLI.encode_file CLI.example_state [66, 65, 0])
        = some [66, 65, 0] :=
  ⟨by decide, CLI.encode_decode_identity CLI.example_state [66, 65, 0] (by decide) (by
    intro b hb
    simp only [List.mem_cons, List.mem_singleton, List.not_mem_nil, or_false] at hb
    rcases hb with rfl | rfl | rfl
    · exact ⟨2, by decide⟩
    · exact ⟨1, by decide⟩
    · exact ⟨3, by decide⟩)⟩

/-- C3: in both variants, for every table and every byte that no index in
`1..char_map_size` holds, `encode_file` writes exactly the one token `0` for the byte, and
decoding that text writes the single byte `?`. -/
theorem absent_byte_sentinel (st : CLI.State) (app : GUI.AppData) (b : Nat) :
    (CLI.WF st → (∀ i, ¬ CLI.holds st i b) →
      CLI.encode_file st [b] = [48, 32] ∧ Libc.tokens (CLI.encode_file st [b]) = [0] ∧
        CLI.decode_file st (CLI.encode_file st [b]) = some [63]) ∧
    (GUI.WF app → app.is_map_loaded = true → (∀ i, ¬ GUI.holds app i b) →
      GUI.encode_file app [b] = .written [48, 32] ∧ Libc.tokens [48, 32] = [0] ∧
        GUI.decode_file app [48, 32] = .written [63]) := by
  constructor
  · intro _ hno
    have hfind : CLI.find_char_index st b = -1 := by
      rcases CLI.cli_find_char_index_spec st b with ⟨h, -⟩ | ⟨k, -, hk, -⟩
      · exact h
      · exact absurd hk (hno k)
    have henc : CLI.encode_file st [b] = [48, 32] := by
      simp [CLI.encode_file, CLI.encode_byte, hfind]
    rw [henc]
    exact ⟨rfl, by decide, rfl⟩
  · intro _ hl hno
    have hfind : GUI.find_char_index app b = -1 := by
      rcases GUI.gui_find_char_index_spec app b with ⟨h, -⟩ | ⟨k, -, hk, -⟩
      · exact h
      · exact absurd hk (hno k)
    refine ⟨?_, by decide, ?_⟩
    · simp [GUI.encode_file, hl, GUI.encode_loop, GUI.encode_byte, hfind]
    · simp only [GUI.decode_file, hl]
      rfl

/-- Witness for C3: the byte `Z` with the example tables, which do not hold it. -/
theorem absent_byte_sentinel_witness :
    (CLI.encode_file CLI.example_state [90] = [48, 32] ∧
        Libc.tokens (CLI.encode_file CLI.example_state [90]) = [0] ∧
        CLI.decode_file CLI.example_state (CLI.encode_file CLI.example_state [90]) = some [63]) ∧
      (GUI.encode_file GUI.example_app [90] = .written [48, 32] ∧ Libc.tokens [48, 32] = [0] ∧
        GUI.decode_file GUI.example_app [48, 32] = .written [63]) :=
  ⟨(absent_byte_sentinel CLI.example_state GUI.example_app 90).1 (by decide) (by
      intro i hi
      obtain ⟨h1, h2, h3⟩ := hi
      have h4 : i ≤ 4 := h2
      interval_cases i <;> revert h3 <;> decide),
    (absent_byte_sentinel CLI.example_state GUI.example_app 90).2 (by decide) rfl (by
      intro i hi
      obtain ⟨h1, h2, h3⟩ := hi
      have h4 : i ≤ 4 := h2
      interval_cases i <;> revert h3 <;> decide)⟩

/-- C4: in both variants, for every table and every byte held by at least one index in
`1..char_map_size`, the token `encode_file` writes for the byte is the lowest index that
holds it. -/
theorem encode_lowest_index (st : CLI.State) (app : GUI.AppData) (b i : Nat) :
    (CLI.WF st → CLI.holds st i b →
      ∃ k : Nat, CLI.holds st k b ∧ (∀ j, CLI.holds st j b → k ≤ j) ∧
        CLI.encode_file st [b] = Libc.print_d (k : Int) ++ [32] ∧
        Libc.tokens (CLI.encode_file st [b]) = [(k : Int)]) ∧
    (GUI.WF app → app.is_map_loaded = true → GUI.holds app i b →
      ∃ k : Nat, GUI.holds app k b ∧ (∀ j, GUI.holds app j b → k ≤ j) ∧
        GUI.encode_file app [b] = .written (Libc.print_d (k : Int) ++ [32]) ∧
        Libc.tokens (Libc.print_d (k : Int) ++ [32]) = [(k : Int)]) := by
  have htok : ∀ k : Nat, Libc.tokens (Libc.print_d (k : Int) ++ [32]) = [(k : Int)] :=
    fun k => Libc.tokens_print_tokens [(k : Int)]
  constructor
  · intro _ hi
    rcases CLI.cli_code_spec st b with ⟨-, -, hno⟩ | ⟨k, hk, -, hh, hlow⟩
    · exact absurd hi (hno i)
    · have henc : CLI.encode_file st [b] = Libc.print_d (k : Int) ++ [32] := by
        rw [CLI.encode_file_eq]
        simp [Libc.print_tokens, hk]
      exact ⟨k, hh, hlow, henc, by rw [henc]; exact htok k⟩
  · intro _ hl hi
    rcases GUI.gui_code_spec app b with ⟨-, -, hno⟩ | ⟨k, hk, -, hh, hlow⟩
    · exact absurd hi (hno i)
    · refine ⟨k, hh, hlow, ?_, htok k⟩
      simp only [GUI.encode_file, hl, GUI.encode_loop_eq]
      simp [Libc.print_tokens, hk]

/-- Witness for C4: the byte `A`, which the example tables hold at indices 1 and 4. -/
theorem encode_lowest_index_witness :
    (CLI.holds CLI.example_state 4 65 ∧
      ∃ k : Nat, CLI.holds CLI.example_state k 65 ∧
        (∀ j, CLI.holds CLI.example_state j 65 → k ≤ j) ∧
        CLI.encode_file CLI.example_state [65] = Libc.print_d (k : Int) ++ [32] ∧
        Libc.tokens (CLI.encode_file CLI.example_state [65]) = [(k : Int)]) ∧
    (GUI.holds GUI.example_app 4 65 ∧
      ∃ k : Nat, GUI.holds GUI.example_app k 65 ∧
        (∀ j, GUI.holds GUI.example_app j 65 → k ≤ j) ∧
        GUI.encode_file GUI.example_app [65] = .written (Libc.print_d (k : Int) ++ [32]) ∧
        Libc.tokens (Libc.print_d (k : Int) ++ [32]) = [(k : Int)]) :=
  ⟨⟨by decide, (encode_lowest_index CLI.example_state GUI.example_app 65 4).1
      (by decide) (by decide)⟩,
    ⟨by decide, (encode_lowest_index CLI.example_state GUI.example_app 65 4).2
      (by decide) rfl (by decide)⟩⟩

/-- C5: in both variants, for every table and every input byte sequence, the text
`encode_file` writes holds exactly one token per input byte, in input order: the decode
scanner reads from it as many tokens as there are input bytes and the k-th token is the
code of the k-th byte. -/
theorem encode_one_token_per_byte (st : CLI.State) (app : GUI.AppData) (s : List Nat) :
    (CLI.WF st →
      Libc.tokens (CLI.encode_file st s) = s.map (CLI.code st) ∧
        (Libc.tokens (CLI.encode_file st s)).length = s.length) ∧
    (GUI.WF app → app.is_map_loaded = true →
      GUI.encode_file app s = .written (GUI.encode_loop app s) ∧
        Libc.tokens (GUI.encode_loop app s) = s.map (GUI.code app) ∧
        (Libc.tokens (GUI.encode_loop app s)).length = s.length) := by
  constructor
  · intro _
    have h : Libc.tokens (CLI.encode_file st s) = s.map (CLI.code st) := by
      rw [CLI.encode_file_eq]
      exact Libc.tokens_print_tokens _
    exact ⟨h, by rw [h, List.length_map]⟩
  · intro _ hl
    have h : Libc.tokens (GUI.encode_loop app s) = s.map (GUI.code app) := by
      rw [GUI.encode_loop_eq]
      exact Libc.tokens_print_tokens _
    exact ⟨by simp [GUI.encode_file, hl], h, by rw [h, List.length_map]⟩

/-- Witness for C5: the bytes `A Z B A` with the example tables. -/
theorem encode_one_token_per_byte_witness :
    (Libc.tokens (CLI.encode_file CLI.example_state [65, 90, 66, 65])
        = [65, 90, 66, 65].map (CLI.code CLI.example_state) ∧
      (Libc.tokens (CLI.encode_file CLI.example_state [65, 90, 66, 65])).length = 4) ∧
    (GUI.encode_file GUI.example_app [65, 90, 66, 65]
        = .written (GUI.encode_loop GUI.example_app [65, 90, 66, 65]) ∧
      Libc.tokens (GUI.encode_loop GUI.example_app [65, 90, 66, 65])
        = [65, 90, 66, 65].map (GUI.code GUI.example_app) ∧
      (Libc.tokens (GUI.encode_loop GUI.example_app [65, 90, 66, 65])).length = 4) :=
  ⟨(encode_one_token_per_byte CLI.example_state GUI.example_app [65, 90, 66, 65]).1
      (by decide),
    (encode_one_token_per_byte CLI.example_state GUI.example_app [65, 90, 66, 65]).2
      (by decide) rfl⟩

/-- C6: in both variants, for every table (the empty table of size 0 included), the
decode loop writes exactly the one byte `?` for the token `0`. -/
theorem decode_zero_placeholder (st : CLI.State) (app : GUI.AppData) :
    (CLI.decode_emit st 0 = [63] ∧ CLI.decode_file st [48] = some [63] ∧
      CLI.decode_file st [48, 32] = some [63]) ∧
    (GUI.decode_emit app 0 = [63] ∧
      (app.is_map_loaded = true →
        GUI.decode_file app [48] = .written [63] ∧
          GUI.decode_file app [48, 32] = .written [63])) := by
  refine ⟨⟨rfl, rfl, rfl⟩, ⟨rfl, fun hl => ⟨?_, ?_⟩⟩⟩
  · simp only [GUI.decode_file, hl]
    rfl
  · simp only [GUI.decode_file, hl]
    rfl

/-- Witness for C6: the tables of size 0 (the initial state of the text-menu variant and
the empty loaded table of the GTK variant). -/
theorem decode_zero_placeholder_witness :
    CLI.init.char_map_size = 0 ∧ GUI.empty_loaded.char_map_size = 0 ∧
      CLI.decode_file CLI.init [48, 32] = some [63] ∧
      GUI.decode_file GUI.empty_loaded [48, 32] = .written [63] :=
  ⟨rfl, rfl, (decode_zero_placeholder CLI.init GUI.empty_loaded).1.2.2,
    ((decode_zero_placeholder CLI.init GUI.empty_loaded).2.2 rfl).2⟩

theorem CLI.decode_file_token (st : CLI.State) (t : Int) (rest : List Nat)
    (ht : Libc.fits_int t = true) :
    CLI.decode_file st (Libc.print_d t ++ 32 :: rest)
      = (CLI.decode_file st rest).map (fun out => CLI.decode_emit st t ++ out) := by
  unfold CLI.decode_file
  rw [CLI.cli_decode_loop_eq, CLI.cli_decode_loop_eq]
  exact Libc.scan_loop_token _ t rest ht

theorem GUI.decode_loop_token (app : GUI.AppData) (t : Int) (rest : List Nat)
    (ht : Libc.fits_int t = true) :
    GUI.decode_loop app ((Libc.print_d t ++ 32 :: rest).length + 1) (Libc.print_d t ++ 32 :: rest)
      = (GUI.decode_loop app (rest.length + 1) rest).map
          (fun out => GUI.decode_emit app t ++ out) := by
  rw [GUI.gui_decode_loop_eq, GUI.gui_decode_loop_eq]
  exact Libc.scan_loop_token _ t rest ht

/-- C7 (the claim as stated fails): the token 4294967297 is greater than the size 4 of the
example tables, but it is not a value of `int`, the type of the variable that `fscanf`
fills: the conversion has no defined result (the decode loop of either variant has none
for the text `4294967297 2 `, where it writes `B` for `2 `), and where the conversion
keeps the low 32 bits the token is read as 1 and `A` is written for it. -/
theorem decode_big_token_counterexample :
    Libc.scan_d example_text_big_token = some (4294967297, [32, 50, 32]) ∧
      (4294967297 : Int) > CLI.example_state.char_map_size ∧
      (4294967297 : Int) > GUI.example_app.char_map_size ∧
      Libc.fits_int 4294967297 = false ∧
      CLI.decode_file CLI.example_state example_text_big_token = none ∧
      CLI.decode_file CLI.example_state [50, 32] = some [66] ∧
      GUI.decode_file GUI.example_app example_text_big_token = .undefined ∧
      GUI.decode_file GUI.example_app [50, 32] = .written [66] ∧
      Libc.wrap_int 4294967297 = 1 ∧
      CLI.decode_emit CLI.example_state (Libc.wrap_int 4294967297) = [65] ∧
      GUI.decode_emit GUI.example_app (Libc.wrap_int 4294967297) = [65] := by
  decide

/-- C7 (amended): in both variants, for every table and every token `t` that an `int` can
hold and that is out of range (`t > char_map_size`, or `t < 0`), the decode loop writes
nothing for `t` and goes on with the next token: the output for a text starting with `t`
is the output for the rest of the text. -/
theorem decode_out_of_range_silent (st : CLI.State) (app : GUI.AppData) (t : Int)
    (rest : List Nat) (hfit : Libc.fits_int t = true) :
    ((t > st.char_map_size ∨ t < 0) →
      CLI.decode_emit st t = [] ∧
        CLI.decode_file st (Libc.print_d t ++ 32 :: rest) = CLI.decode_file st rest) ∧
    ((t > app.char_map_size ∨ t < 0) →
      GUI.decode_emit app t = [] ∧
        GUI.decode_file app (Libc.print_d t ++ 32 :: rest) = GUI.decode_file app rest) := by
  constructor
  · intro h
    have hemit : CLI.decode_emit st t = [] := by
      unfold CLI.decode_emit
      have h1 : ¬ (t > 0 ∧ t ≤ (st.char_map_size : Int)) := by omega
      have h2 : t ≠ 0 := by omega
      simp only [h1, h2, if_false]
    refine ⟨hemit, ?_⟩
    rw [CLI.decode_file_token st t rest hfit, hemit]
    cases CLI.decode_file st rest <;> rfl
  · intro h
    have hemit : GUI.decode_emit app t = [] := by
      unfold GUI.decode_emit
      have h1 : ¬ (t > 0 ∧ t ≤ (app.char_map_size : Int) ∧
          app.char_map.getD (t - 1).toNat none ≠ none) := by
        intro hc
        omega
      have h2 : t ≠ 0 := by omega
      simp only [h1, h2, if_false]
    refine ⟨hemit, ?_⟩
    unfold GUI.decode_file
    rw [GUI.decode_loop_token app t rest hfit, hemit]
    cases GUI.decode_loop app (rest.length + 1) rest <;> rfl

/-- Witness for C7: the tokens `7` (above the size 4 of the example tables) and `-2`,
each followed by the text `1 `. -/
theorem decode_out_of_range_silent_witness :
    (CLI.decode_emit CLI.example_state 7 = [] ∧
      CLI.decode_file CLI.example_state (Libc.print_d 7 ++ 32 :: [49, 32])
        = CLI.decode_file CLI.example_state [49, 32]) ∧
    (GUI.decode_emit GUI.example_app (-2) = [] ∧
      GUI.decode_file GUI.example_app (Libc.print_d (-2) ++ 32 :: [49, 32])
        = GUI.decode_file GUI.example_app [49, 32]) :=
  ⟨(decode_out_of_range_silent CLI.example_state GUI.example_app 7 [49, 32] (by decide)).1
      (Or.inl (by decide)),
    (decode_out_of_range_silent CLI.example_state GUI.example_app (-2) [49, 32] (by decide)).2
      (Or.inr (by decide))⟩

/-! ## Facts about the loader of the GTK variant -/

namespace GUI

theorem target_line_num (ln : Nat) (buf : List Nat) :
    (parse_line ln buf).target = (parse_line 0 buf).target := by
  unfold parse_line
  simp only
  repeat' split
  all_goals rfl

theorem length_reset (n : Nat) : ∀ m : List (Option (List Nat)), (reset n m).length = m.length := by
  induction n with
  | zero => intro m; rfl
  | succ n ih =>
    intro m
    cases m with
    | nil => rfl
    | cons a m => simp [reset, ih]

theorem reset_getD (n : Nat) :
    ∀ m : List (Option (List Nat)), (∀ i, n ≤ i → m.getD i none = none) →
      ∀ i, (reset n m).getD i none = none := by
  induction n with
  | zero => intro m h i; exact h i (Nat.zero_le _)
  | succ n ih =>
    intro m h i
    cases m with
    | nil => simp [reset]
    | cons a m =>
      cases i with
      | zero => simp [reset]
      | succ j =>
        have h2 : ∀ i, n ≤ i → m.getD i none = none := fun i hi => by
          have := h (i + 1) (by omega)
          simpa using this
        have := ih m h2 j
        simpa [reset] using this

theorem raise_size_ge (size : Nat) (index : Int) :
    size ≤ raise_size size index ∧ index ≤ (raise_size size index : Int) := by
  unfold raise_size
  split <;> constructor <;> omega

/-- One line that does not store at slot `i` leaves slot `i` as it is. -/
theorem apply_effect_other (app app1 : AppData) (eff : LineEffect (List Nat)) (ds : List Diag)
    (i : Nat) (h : apply_effect app eff = some (app1, ds))
    (ht : eff.target ≠ some ((i : Int) + 1)) :
    app1.char_map.getD i none = app.char_map.getD i none := by
  cases eff with
  | skip d => simp only [apply_effect, Option.some.injEq, Prod.mk.injEq] at h; rw [← h.1]
  | bump index d => simp only [apply_effect, Option.some.injEq, Prod.mk.injEq] at h; rw [← h.1]
  | nothing => simp only [apply_effect, Option.some.injEq, Prod.mk.injEq] at h; rw [← h.1]
  | undefined => simp [apply_effect] at h
  | assign index e es =>
    simp only [apply_effect] at h
    split at h
    · rename_i hr
      simp only [Option.some.injEq, Prod.mk.injEq] at h
      rw [← h.1]
      have hne : (index - 1).toNat ≠ i := by
        intro hc
        apply ht
        simp only [LineEffect.target, Option.some.injEq]
        omega
      show (app.char_map.set (index - 1).toNat (some e)).getD i none = app.char_map.getD i none
      rw [List.getD_eq_getElem?_getD, List.getD_eq_getElem?_getD, List.getElem?_set_ne hne]
    · simp at h

/-- One line keeps the shape of the table: 256 slots, `NULL` from `char_map_size` on. -/
theorem apply_effect_shape (app app1 : AppData) (eff : LineEffect (List Nat)) (ds : List Diag)
    (h : apply_effect app eff = some (app1, ds)) (hinv : Shape app) : Shape app1 := by
  obtain ⟨hlen, hnull⟩ := hinv
  cases eff with
  | skip d =>
    simp only [apply_effect, Option.some.injEq, Prod.mk.injEq] at h
    rw [← h.1]; exact ⟨hlen, hnull⟩
  | nothing =>
    simp only [apply_effect, Option.some.injEq, Prod.mk.injEq] at h
    rw [← h.1]; exact ⟨hlen, hnull⟩
  | undefined => simp [apply_effect] at h
  | bump index d =>
    simp only [apply_effect, Option.some.injEq, Prod.mk.injEq] at h
    rw [← h.1]
    refine ⟨hlen, fun i hi => hnull i ?_⟩
    have := (raise_size_ge app.char_map_size index).1
    exact le_trans this hi
  | assign index e es =>
    simp only [apply_effect] at h
    split at h
    · rename_i hr
      simp only [Option.some.injEq, Prod.mk.injEq] at h
      rw [← h.1]
      refine ⟨by simpa using hlen, fun i hi => ?_⟩
      have hge := raise_size_ge app.char_map_size index
      simp only at hi
      have hne : (index - 1).toNat ≠ i := by omega
      have := hnull i (le_trans hge.1 hi)
      show (app.char_map.set (index - 1).toNat (some e)).getD i none = none
      rw [List.getD_eq_getElem?_getD, List.getElem?_set_ne hne, ← List.getD_eq_getElem?_getD]
      exact this
    · simp at h

theorem load_lines_other (i : Nat) (chunks : List (List Nat)) :
    ∀ (app : AppData) (ln : Nat) (app1 : AppData) (ds : List Diag),
      load_lines app ln chunks = some (app1, ds) →
      (∀ buf ∈ chunks, (parse_line 0 buf).target ≠ some ((i : Int) + 1)) →
      app1.char_map.getD i none = app.char_map.getD i none := by
  induction chunks with
  | nil =>
    intro app ln app1 ds h _
    simp only [load_lines, Option.some.injEq, Prod.mk.injEq] at h
    rw [← h.1]
  | cons buf rest ih =>
    intro app ln app1 ds h hno
    simp only [load_lines] at h
    cases h1 : apply_effect app (parse_line (ln + 1) buf) with
    | none => simp [h1] at h
    | some p =>
      obtain ⟨app2, ds2⟩ := p
      simp only [h1, Option.map_eq_some', Prod.mk.injEq, Prod.exists] at h
      obtain ⟨a, b, hab, rfl, -⟩ := h
      rw [ih app2 (ln + 1) a b hab (fun buf hb => hno buf (List.mem_cons_of_mem _ hb))]
      apply apply_effect_other app app2 _ ds2 i h1
      rw [target_line_num]
      exact hno buf (List.mem_cons_self _ _)

theorem load_lines_shape (chunks : List (List Nat)) :
    ∀ (app : AppData) (ln : Nat) (app1 : AppData) (ds : List Diag),
      load_lines app ln chunks = some (app1, ds) → Shape app → Shape app1 := by
  induction chunks with
  | nil =>
    intro app ln app1 ds h hinv
    simp only [load_lines, Option.some.injEq, Prod.mk.injEq] at h
    rw [← h.1]; exact hinv
  | cons buf rest ih =>
    intro app ln app1 ds h hinv
    simp only [load_lines] at h
    cases h1 : apply_effect app (parse_line (ln + 1) buf) with
    | none => simp [h1] at h
    | some p =>
      obtain ⟨app2, ds2⟩ := p
      simp only [h1, Option.map_eq_some', Prod.mk.injEq, Prod.exists] at h
      obtain ⟨a, b, hab, rfl, -⟩ := h
      exact ih app2 (ln + 1) a b hab (apply_effect_shape app app2 _ ds2 h1 hinv)

/-- The table in `main` before any load satisfies `Inv`. -/
theorem inv_init : Inv init := by
  refine ⟨by decide, by simp [init], fun i _ => ?_⟩
  simp only [init, List.getD_eq_getElem?_getD, List.getElem?_replicate]
  split <;> rfl

/-- A load that opens its file keeps the shape `Shape`. -/
theorem load_char_map_shape (app app1 : AppData) (file : List Nat) (ds : List Diag)
    (h : load_char_map app (some file) = some (app1, ds)) (hinv : Shape app) : Shape app1 := by
  simp only [load_char_map, Option.map_eq_some', Prod.mk.injEq, Prod.exists] at h
  obtain ⟨a, b, hab, rfl, -⟩ := h
  have h0 : Shape { app with char_map := reset app.char_map_size app.char_map,
                             char_map_size := 0 } :=
    ⟨by simpa [length_reset] using hinv.1, fun i _ => reset_getD _ _ hinv.2 i⟩
  have ha := load_lines_shape _ _ _ _ _ hab h0
  exact ⟨ha.1, ha.2⟩

/-- A load that opens its file and leaves `char_map_size` within the table keeps `Inv`. -/
theorem load_char_map_inv (app app1 : AppData) (file : List Nat) (ds : List Diag)
    (h : load_char_map app (some file) = some (app1, ds)) (hinv : Inv app)
    (hsize : app1.char_map_size ≤ MAX_CHAR_MAP) : Inv app1 :=
  ⟨hsize, load_char_map_shape app app1 file ds h hinv.2⟩

/-- After a load, a slot that no line of the file stores to is `NULL`, whatever the
table held before. -/
theorem load_char_map_gap (app app1 : AppData) (file : List Nat) (ds : List Diag) (t : Nat)
    (h : load_char_map app (some file) = some (app1, ds)) (hinv : Inv app)
    (h1 : 1 ≤ t) (hgap : ¬ assigned file (t : Int)) :
    app1.char_map.getD (t - 1) none = none ∧ app1.is_map_loaded = true := by
  simp only [load_char_map, Option.map_eq_some', Prod.mk.injEq, Prod.exists] at h
  obtain ⟨a, b, hab, rfl, -⟩ := h
  refine ⟨?_, rfl⟩
  have hno : ∀ buf ∈ Libc.fgets_chunks MAX_LINE_LENGTH file [],
      (parse_line 0 buf).target ≠ some (((t - 1 : Nat) : Int) + 1) := by
    intro buf hb hc
    apply hgap
    refine ⟨buf, hb, ?_⟩
    rw [hc]
    congr 1
    omega
  have := load_lines_other (t - 1) _ _ _ _ _ hab hno
  simp only at this
  rw [this]
  exact reset_getD _ _ hinv.2.2 _

end GUI

/-- The example table of the GTK variant is what loading `example_file` gives. -/
theorem GUI.gui_load_example_file :
    GUI.load_char_map GUI.init (some example_file) = some (GUI.example_app, []) := by
  decide

/-- The example table of the text-menu variant is what loading `example_file` gives. -/
theorem CLI.cli_load_example_file :
    CLI.load_char_map CLI.init (some example_file) = some (CLI.example_state, []) := by
  decide

/-- C8: in the GTK variant, for every table that `load_char_map` produces (from the
initial state or from the result of earlier loads, `Inv`; the table produced has
`char_map_size` at most 256) and every token `t` with `1 ≤ t ≤ char_map_size` to which no
line of the mapping file assigned a character, the decode loop writes nothing for `t`. -/
theorem GUI.decode_gap_silent (app app1 : GUI.AppData) (file : List Nat) (ds : List Diag)
    (t : Nat) (hinv : GUI.Inv app)
    (hload : GUI.load_char_map app (some file) = some (app1, ds)) (hwf : GUI.WF app1)
    (h1 : 1 ≤ t) (h2 : t ≤ app1.char_map_size) (hgap : ¬ GUI.assigned file (t : Int)) :
    GUI.decode_emit app1 (t : Int) = [] ∧
      GUI.decode_file app1 (Libc.print_d (t : Int) ++ [32]) = .written [] := by
  obtain ⟨hnull, hl⟩ := GUI.load_char_map_gap app app1 file ds t hload hinv h1 hgap
  have hemit : GUI.decode_emit app1 (t : Int) = [] := by
    unfold GUI.decode_emit
    have ht : ((t : Int) - 1).toNat = t - 1 := by omega
    have h0 : (t : Int) ≠ 0 := by omega
    rw [ht, hnull]
    simp [h0]
  refine ⟨hemit, ?_⟩
  have hfit : Libc.fits_int (t : Int) = true := by
    have : t ≤ 256 := le_trans h2 hwf.2
    simp only [Libc.fits_int, Libc.INT_MIN, Libc.INT_MAX, Bool.and_eq_true, decide_eq_true_eq]
    omega
  unfold GUI.decode_file
  rw [GUI.decode_loop_token app1 (t : Int) [] hfit, hemit]
  simp only [hl]
  rfl

/-- Witness for C8: the example table reloaded from `example_file_gap`; index 2, which
held `B` before the reload, has no line in the new file. -/
theorem GUI.decode_gap_silent_witness :
    GUI.load_char_map GUI.example_app (some example_file_gap) = some (GUI.example_app_gap, []) ∧
      2 ≤ GUI.example_app_gap.char_map_size ∧ ¬ GUI.assigned example_file_gap 2 ∧
      GUI.decode_emit GUI.example_app_gap 2 = [] ∧
      GUI.decode_file GUI.example_app_gap [50, 32] = .written [] :=
  ⟨by decide, by decide, by decide,
    GUI.decode_gap_silent GUI.example_app GUI.example_app_gap example_file_gap [] 2
      (GUI.load_char_map_inv GUI.init GUI.example_app example_file [] (by decide) GUI.inv_init
        (by decide))
      (by decide) (by decide) (by decide) (by decide) (by decide)⟩

/-- C9, the behaviour of the code: after the text-menu variant loads the single line
`3<TAB>\q`, no line has assigned a character to index 3 and `char_map_size` is 3; decoding
the token `3` writes one NUL byte, not nothing.  The same happens for the index 3 that
`example_file` leaves out. -/
theorem CLI.decode_gap_writes_nul :
    CLI.load_char_map CLI.init (some example_file_bad_escape)
        = some (CLI.example_state_bad_escape, [Diag.unknown_escape [92, 113]]) ∧
      ¬ CLI.assigned example_file_bad_escape 3 ∧
      CLI.decode_file CLI.example_state_bad_escape [51, 32] = some [0] ∧
      ¬ CLI.assigned example_file 3 ∧
      CLI.decode_file CLI.example_state [51, 32] = some [0] := by
  decide

/-- C2, the behaviour of the code: after the GTK variant loads the single line `1<TAB>\0`,
index 1 holds the NUL byte and `encode_file` writes the token `1` for a NUL byte, but
decoding that text writes nothing, so the NUL byte is not given back. -/
theorem GUI.nul_byte_not_decoded :
    GUI.load_char_map GUI.init (some example_file_nul) = some (GUI.example_app_nul, []) ∧
      GUI.holds GUI.example_app_nul 1 0 ∧
      GUI.encode_file GUI.example_app_nul [0] = .written [49, 32] ∧
      GUI.decode_file GUI.example_app_nul [49, 32] = .written [] := by
  decide

/-- The extent of C2 that holds: in the GTK variant, for every loaded table and every byte
sequence without a NUL byte whose bytes are all held by some index, decoding the text
that `encode_file` writes gives the byte sequence back. -/
theorem GUI.encode_decode_identity_nonzero (app : GUI.AppData) (s : List Nat)
    (hwf : GUI.WF app) (hl : app.is_map_loaded = true)
    (hs : ∀ b ∈ s, b ≠ 0 ∧ ∃ i, GUI.holds app i b) :
    GUI.encode_file app s = .written (GUI.encode_loop app s) ∧
      GUI.decode_file app (GUI.encode_loop app s) = .written s := by
  refine ⟨by simp [GUI.encode_file, hl], ?_⟩
  unfold GUI.decode_file
  rw [GUI.encode_loop_eq, GUI.decode_loop_print_tokens app _ (by
    intro t ht
    obtain ⟨c, -, rfl⟩ := List.mem_map.mp ht
    exact GUI.gui_code_fits app hwf c)]
  simp only [hl]
  have : (s.map (GUI.code app)).flatMap (GUI.decode_emit app) = s := by
    apply Libc.flatMap_map_singleton
    intro b hb
    obtain ⟨hb0, i, hi⟩ := hs b hb
    rcases GUI.gui_code_spec app b with ⟨-, -, hno⟩ | ⟨k, hk, -, hh, -⟩
    · exact absurd hi (hno i)
    · rw [hk, GUI.gui_decode_emit_of_holds app k b hh]
      simp [Libc.cstr, hb0]
  rw [this]
  rfl

/-- C10 as stated fails: with the example tables the text `1 x 2 ` decodes to `A` in both
variants, while the same text without the non-numeric token `x`, `1 2 `, decodes to `AB`;
the token `2` after `x` is not decoded. -/
theorem decode_non_numeric_counterexample :
    CLI.decode_file CLI.example_state [49, 32, 120, 32, 50, 32] = some [65] ∧
      CLI.decode_file CLI.example_state [49, 32, 50, 32] = some [65, 66] ∧
      GUI.decode_file GUI.example_app [49, 32, 120, 32, 50, 32] = .written [65] ∧
      GUI.decode_file GUI.example_app [49, 32, 50, 32] = .written [65, 66] ∧
      CLI.decode_file CLI.example_state [49, 32, 120, 32, 50, 32]
        ≠ CLI.decode_file CLI.example_state [49, 32, 50, 32] ∧
      GUI.decode_file GUI.example_app [49, 32, 120, 32, 50, 32]
        ≠ GUI.decode_file GUI.example_app [49, 32, 50, 32] := by
  decide

/-- C10, amended: in both variants the decode loop stops at the first non-numeric token.
For every table, every list of numeric tokens and every text `bad` on which a `%d`
conversion fails (a text that starts, after white space, with something that is not a
number), the output for the tokens followed by `bad` is the output for the tokens alone:
whatever follows the non-numeric token, numbers included, is not decoded. -/
theorem decode_stops_at_non_numeric (st : CLI.State) (app : GUI.AppData) (ts : List Int)
    (bad : List Nat) (hbad : Libc.scan_d bad = none) :
    CLI.decode_file st (Libc.print_tokens ts ++ bad) = CLI.decode_file st (Libc.print_tokens ts) ∧
      GUI.decode_file app (Libc.print_tokens ts ++ bad)
        = GUI.decode_file app (Libc.print_tokens ts) := by
  have hlen := Libc.length_print_tokens ts
  have key : ∀ emit : Int → List Nat,
      Libc.scan_loop emit ((Libc.print_tokens ts ++ bad).length + 1) (Libc.print_tokens ts ++ bad)
        = Libc.scan_loop emit ((Libc.print_tokens ts).length + 1) (Libc.print_tokens ts) := by
    intro emit
    rw [Libc.scan_loop_stop emit ts bad hbad _ (by simp; omega)]
    exact Libc.scan_loop_fuel emit _ _ _ (by simp; omega) (by omega)
  constructor
  · unfold CLI.decode_file
    rw [CLI.cli_decode_loop_eq, CLI.cli_decode_loop_eq]
    exact key _
  · unfold GUI.decode_file
    rw [GUI.gui_decode_loop_eq, GUI.gui_decode_loop_eq, key]

/-- Witness for C10, amended: the token `1` followed by the text `x 2 `. -/
theorem decode_stops_at_non_numeric_witness :
    Libc.scan_d [120, 32, 50, 32] = none ∧
      CLI.decode_file CLI.example_state (Libc.print_tokens [1] ++ [120, 32, 50, 32])
        = CLI.decode_file CLI.example_state (Libc.print_tokens [1]) ∧
      GUI.decode_file GUI.example_app (Libc.print_tokens [1] ++ [120, 32, 50, 32])
        = GUI.decode_file GUI.example_app (Libc.print_tokens [1]) :=
  ⟨by decide,
    decode_stops_at_non_numeric CLI.example_state GUI.example_app [1] [120, 32, 50, 32]
      (by decide)⟩

/-! ## Facts about the text of a mapping line -/

namespace Libc

theorem nat_digits_chars (f n : Nat) :
    ∀ c ∈ nat_digits f n, c ≠ 0 ∧ c ≠ 9 ∧ c ≠ 10 := by
  intro c hc
  have h := nat_digits_isdigit f n c hc
  simp only [isdigit, Bool.and_eq_true, decide_eq_true_eq] at h
  omega

/-- The text `%d` prints has no NUL, tab or newline in it. -/
theorem print_d_chars (v : Int) : ∀ c ∈ print_d v, c ≠ 0 ∧ c ≠ 9 ∧ c ≠ 10 := by
  intro c hc
  unfold print_d at hc
  split at hc
  · rcases List.mem_cons.mp hc with h | h
    · subst h; decide
    · exact nat_digits_chars _ _ c h
  · exact nat_digits_chars _ _ c hc

theorem cstr_eq_self (l : List Nat) (h : ∀ c ∈ l, c ≠ 0) : cstr l = l := by
  unfold cstr
  rw [List.takeWhile_eq_self_iff]
  intro c hc
  simpa using h c hc

theorem takeWhile_newline (l r : List Nat) (h : ∀ c ∈ l, c ≠ 10) :
    (l ++ 10 :: r).takeWhile (fun c => c != 10) = l := by
  rw [List.takeWhile_append_of_pos (fun c hc => by simpa using h c hc)]
  simp

theorem split_tab_append (pre r : List Nat) (h : ∀ c ∈ pre, c ≠ 9) :
    split_tab (pre ++ 9 :: r) = some (pre, r) := by
  induction pre with
  | nil => simp [split_tab]
  | cons c cs ih =>
    have hc : c ≠ 9 := h c (List.mem_cons_self _ _)
    rw [List.cons_append]
    unfold split_tab
    rw [if_neg hc, ih (fun x hx => h x (List.mem_cons_of_mem _ hx))]
    rfl

theorem split_tab_none (l : List Nat) (h : ∀ c ∈ l, c ≠ 9) : split_tab l = none := by
  induction l with
  | nil => rfl
  | cons c cs ih =>
    have hc : c ≠ 9 := h c (List.mem_cons_self _ _)
    unfold split_tab
    rw [if_neg hc, ih (fun x hx => h x (List.mem_cons_of_mem _ hx))]
    rfl

theorem scan_unsigned_all_digits (ds : List Nat) (hne : ds ≠ [])
    (hds : ∀ d ∈ ds, isdigit d = true) :
    scan_unsigned ds = some (digits_value ds, []) := by
  cases ds with
  | nil => exact absurd rfl hne
  | cons d ds' =>
    have hd : isdigit d = true := hds d (List.mem_cons_self _ _)
    have e1 : (d :: ds').takeWhile isdigit = d :: ds' :=
      List.takeWhile_eq_self_iff.mpr hds
    have e2 : (d :: ds').dropWhile isdigit = [] := by
      rw [List.dropWhile_eq_nil_iff]
      exact hds
    unfold scan_unsigned
    simp only [hd, if_true, e1, e2]

/-- A `%d` conversion on exactly the text `%d` printed reads the number back. -/
theorem scan_d_print_d_end (v : Int) : scan_d (print_d v) = some (v, []) := by
  rcases Int.lt_or_le v 0 with h | h
  · obtain ⟨n, hn⟩ : ∃ n : Nat, v = -(n : Int) := ⟨v.natAbs, by omega⟩
    subst hn
    have hp : print_d (-(n : Int)) = 45 :: nat_digits (n + 1) n := by
      unfold print_d
      simp [h]
    rw [hp]
    unfold scan_d
    rw [List.dropWhile_cons_of_neg (by simp [isspace])]
    simp only [if_true]
    rw [scan_unsigned_all_digits _ (nat_digits_ne_nil n n) (nat_digits_isdigit (n + 1) n),
      digits_value_nat_digits]
    rfl
  · obtain ⟨n, hn⟩ : ∃ n : Nat, v = (n : Int) := ⟨v.natAbs, by omega⟩
    subst hn
    have hp : print_d (n : Int) = nat_digits (n + 1) n := by
      unfold print_d
      simp
    rw [hp]
    have hall := nat_digits_isdigit (n + 1) n
    have hscan := scan_unsigned_all_digits _ (nat_digits_ne_nil n n) hall
    cases hds : nat_digits (n + 1) n with
    | nil => exact absurd hds (nat_digits_ne_nil n n)
    | cons d ds' =>
      rw [hds] at hscan hall
      have hd : isdigit d = true := hall d (List.mem_cons_self _ _)
      have hsp : isspace d = false := isdigit_not_isspace hd
      have h45 : d ≠ 45 := by
        intro h; subst h; simp [isdigit] at hd
      have h43 : d ≠ 43 := by
        intro h; subst h; simp [isdigit] at hd
      unfold scan_d
      rw [List.dropWhile_cons_of_neg (by simp [hsp])]
      simp only [h45, h43, if_false]
      rw [hscan, ← hds, digits_value_nat_digits]
      rfl

end Libc

/-- In the text-menu variant the line `<i><TAB><rep>` is cut into `<i>` and `<rep>`. -/
theorem cli_line_of_mapping_line (i : Int) (rep : List Nat) (h0 : ∀ c ∈ rep, c ≠ 0)
    (h10 : ∀ c ∈ rep, c ≠ 10) :
    Libc.split_tab ((Libc.cstr (mapping_line i rep)).takeWhile (fun c => c != 10))
      = some (Libc.print_d i, rep) := by
  have hp := Libc.print_d_chars i
  have hz : ∀ c ∈ mapping_line i rep, c ≠ 0 := by
    intro c hc
    simp only [mapping_line, List.mem_append, List.mem_cons, List.mem_singleton,
      List.not_mem_nil, or_false] at hc
    rcases hc with (h | h | h) | h
    · exact (hp c h).1
    · subst h; decide
    · exact h0 c h
    · subst h; decide
  rw [Libc.cstr_eq_self _ hz]
  have e : mapping_line i rep = (Libc.print_d i ++ 9 :: rep) ++ 10 :: [] := by
    simp [mapping_line]
  rw [e, Libc.takeWhile_newline _ _ (by
    intro c hc
    simp only [List.mem_append, List.mem_cons] at hc
    rcases hc with h | h | h
    · exact (hp c h).2.2
    · subst h; decide
    · exact h10 c h)]
  exact Libc.split_tab_append _ _ (fun c hc => (hp c hc).2.1)

theorem gui_strip_newline_concat (l : List Nat) : GUI.strip_newline (l ++ [10]) = l := by
  unfold GUI.strip_newline
  simp [List.getLast?_concat]

/-- In the GTK variant the line `<i><TAB><rep>` is cut into `<i>` and `<rep>`. -/
theorem gui_line_of_mapping_line (i : Int) (rep : List Nat) (h0 : ∀ c ∈ rep, c ≠ 0) :
    Libc.split_tab (GUI.strip_newline (Libc.cstr (mapping_line i rep)))
      = some (Libc.print_d i, rep) := by
  have hp := Libc.print_d_chars i
  have hz : ∀ c ∈ mapping_line i rep, c ≠ 0 := by
    intro c hc
    simp only [mapping_line, List.mem_append, List.mem_cons, List.mem_singleton,
      List.not_mem_nil, or_false] at hc
    rcases hc with (h | h | h) | h
    · exact (hp c h).1
    · subst h; decide
    · exact h0 c h
    · subst h; decide
  rw [Libc.cstr_eq_self _ hz]
  have e : mapping_line i rep = (Libc.print_d i ++ 9 :: rep) ++ [10] := by
    simp [mapping_line]
  rw [e, gui_strip_newline_concat]
  exact Libc.split_tab_append _ _ (fun c hc => (hp c hc).2.1)

/-- The branch the text-menu variant takes for the line `<i><TAB><rep>`. -/
theorem cli_parse_mapping_line (ln : Nat) (i : Int) (rep : List Nat)
    (h0 : ∀ c ∈ rep, c ≠ 0) (h10 : ∀ c ∈ rep, c ≠ 10) (hfit : Libc.fits_int i = true) :
    CLI.parse_line ln (mapping_line i rep) =
      if rep = str_Space then .assign i 32 []
      else if rep = str_Tab then .assign i 9 []
      else if rep.length = 1 then .assign i (rep.headD 0) []
      else if rep.headD 0 = 92 ∧ rep.length = 2 then
        match escape_byte (rep.getD 1 0) with
        | some b => .assign i b []
        | none => .bump i (.unknown_escape rep)
      else if rep.length > 0 then
        .assign i (rep.headD 0) [.multi_char rep (rep.headD 0)]
      else .nothing := by
  unfold CLI.parse_line
  simp only [cli_line_of_mapping_line i rep h0 h10, Libc.scan_d_print_d_end, hfit,
    Bool.not_true, Bool.false_eq_true, if_false]

/-- The branch the GTK variant takes for the line `<i><TAB><rep>`. -/
theorem gui_parse_mapping_line (ln : Nat) (i : Int) (rep : List Nat)
    (h0 : ∀ c ∈ rep, c ≠ 0) (hfit : Libc.fits_int i = true) :
    GUI.parse_line ln (mapping_line i rep) =
      if rep = str_Space then .assign i [32] []
      else if rep = str_Tab then .assign i [9] []
      else if rep = [] then .assign i [32] [.empty_note ln]
      else if rep.length = 1 then .assign i rep []
      else if rep.length = 2 ∧ rep.headD 0 = 92 then
        match escape_byte (rep.getD 1 0) with
        | some b => .assign i (Libc.cstr [b, 0]) []
        | none => .bump i (.unknown_escape rep)
      else if rep.length > 0 then
        .assign i (Libc.cstr [rep.headD 0, 0]) [.multi_char rep (rep.headD 0)]
      else .nothing := by
  unfold GUI.parse_line
  simp only [gui_line_of_mapping_line i rep h0, Libc.scan_d_print_d_end, hfit,
    Bool.not_true, Bool.false_eq_true, if_false]

/-- C11: in both variants, after loading the mapping text `1<TAB>Space`, `2<TAB>Tab`,
`3<TAB>A` (no diagnostic), encoding the bytes space, tab, `A`, `Z` writes exactly the
text `1 2 3 0 `, and decoding that text with the same table writes exactly space, tab,
`A`, `?`. -/
theorem spec_example_encode_decode :
    (CLI.load_char_map CLI.init (some spec_example_file) = some (CLI.spec_example_state, []) ∧
      CLI.encode_file CLI.spec_example_state [32, 9, 65, 90]
        = [49, 32, 50, 32, 51, 32, 48, 32] ∧
      CLI.decode_file CLI.spec_example_state [49, 32, 50, 32, 51, 32, 48, 32]
        = some [32, 9, 65, 63]) ∧
    (GUI.load_char_map GUI.init (some spec_example_file) = some (GUI.spec_example_app, []) ∧
      GUI.encode_file GUI.spec_example_app [32, 9, 65, 90]
        = .written [49, 32, 50, 32, 51, 32, 48, 32] ∧
      GUI.decode_file GUI.spec_example_app [49, 32, 50, 32, 51, 32, 48, 32]
        = .written [32, 9, 65, 63]) := by
  decide

/-- C13: in both variants, when the mapping file cannot be opened, `load_char_map`
returns with the state exactly as it was (table, size and loaded flag), reporting the
error. -/
theorem load_open_failure_keeps_state (st : CLI.State) (app : GUI.AppData) :
    CLI.load_char_map st none = some (st, [Diag.open_error]) ∧
      CLI.main_switch st (.load none) = some (st, .loaded [Diag.open_error]) ∧
      GUI.load_char_map app none = some (app, [Diag.open_error]) ∧
      GUI.callback app (.load none) = some (app, .loaded [Diag.open_error]) :=
  ⟨rfl, rfl, rfl, rfl⟩

theorem cli_load_sets_flag (st st1 : CLI.State) (bytes : List Nat) (ds : List Diag)
    (h : CLI.load_char_map st (some bytes) = some (st1, ds)) : st1.is_map_loaded = true := by
  simp only [CLI.load_char_map, Option.map_eq_some', Prod.mk.injEq, Prod.exists] at h
  obtain ⟨a, b, -, rfl, -⟩ := h
  rfl

theorem gui_load_sets_flag (app app1 : GUI.AppData) (bytes : List Nat) (ds : List Diag)
    (h : GUI.load_char_map app (some bytes) = some (app1, ds)) : app1.is_map_loaded = true := by
  simp only [GUI.load_char_map, Option.map_eq_some', Prod.mk.injEq, Prod.exists] at h
  obtain ⟨a, b, -, rfl, -⟩ := h
  rfl

/-- C14: in both variants the loaded flag is false in the initial state; while it is
false every encode or decode request is refused, producing no output and leaving the state
(table, size, flag) as it is; and a request can only make the flag true if it is a load
whose file opened (such a load, when it returns, does set the flag). -/
theorem requests_refused_until_loaded (st : CLI.State) (app : GUI.AppData) :
    (CLI.init.is_map_loaded = false ∧ GUI.init.is_map_loaded = false) ∧
    (st.is_map_loaded = false →
      (∀ data, CLI.main_switch st (.encode data) = some (st, .refused) ∧
        CLI.main_switch st (.decode data) = some (st, .refused)) ∧
      (∀ req st1 reply, CLI.main_switch st req = some (st1, reply) →
        st1.is_map_loaded = true → ∃ bytes, req = .load (some bytes)) ∧
      (∀ bytes st1 reply, CLI.main_switch st (.load (some bytes)) = some (st1, reply) →
        st1.is_map_loaded = true)) ∧
    (app.is_map_loaded = false →
      (∀ data, GUI.encode_file app data = .refused ∧ GUI.decode_file app data = .refused ∧
        GUI.callback app (.encode data) = some (app, .refused) ∧
        GUI.callback app (.decode data) = some (app, .refused)) ∧
      (∀ req app1 reply, GUI.callback app req = some (app1, reply) →
        app1.is_map_loaded = true → ∃ bytes, req = .load (some bytes)) ∧
      (∀ bytes app1 reply, GUI.callback app (.load (some bytes)) = some (app1, reply) →
        app1.is_map_loaded = true)) := by
  refine ⟨⟨rfl, rfl⟩, fun hf => ⟨fun data => ⟨by simp [CLI.main_switch, hf],
      by simp [CLI.main_switch, hf]⟩, ?_, ?_⟩, fun hf => ⟨fun data => ?_, ?_, ?_⟩⟩
  · intro req st1 reply h hl
    cases req with
    | load file =>
      cases file with
      | none =>
        simp only [CLI.main_switch, CLI.load_char_map, Option.map_some', Option.some.injEq,
          Prod.mk.injEq] at h
        rw [← h.1, hf] at hl
        exact absurd hl (by decide)
      | some bytes => exact ⟨bytes, rfl⟩
    | encode input =>
      simp only [CLI.main_switch, hf, Bool.not_false, if_true, Option.some.injEq,
        Prod.mk.injEq] at h
      rw [← h.1, hf] at hl
      exact absurd hl (by decide)
    | decode text =>
      simp only [CLI.main_switch, hf, Bool.not_false, if_true, Option.some.injEq,
        Prod.mk.injEq] at h
      rw [← h.1, hf] at hl
      exact absurd hl (by decide)
  · intro bytes st1 reply h
    simp only [CLI.main_switch, Option.map_eq_some', Prod.mk.injEq, Prod.exists] at h
    obtain ⟨a, b, hab, rfl, -⟩ := h
    exact cli_load_sets_flag st a bytes b hab
  · have e1 : GUI.encode_file app data = .refused := by simp [GUI.encode_file, hf]
    have e2 : GUI.decode_file app data = .refused := by simp [GUI.decode_file, hf]
    exact ⟨e1, e2, by simp [GUI.callback, e1, GUI.reply_of],
      by simp [GUI.callback, e2, GUI.reply_of]⟩
  · intro req app1 reply h hl
    cases req with
    | load file =>
      cases file with
      | none =>
        simp only [GUI.callback, GUI.load_char_map, Option.map_some', Option.some.injEq,
          Prod.mk.injEq] at h
        rw [← h.1, hf] at hl
        exact absurd hl (by decide)
      | some bytes => exact ⟨bytes, rfl⟩
    | encode input =>
      have e1 : GUI.encode_file app input = .refused := by simp [GUI.encode_file, hf]
      simp only [GUI.callback, e1, GUI.reply_of, Option.some.injEq, Prod.mk.injEq] at h
      rw [← h.1, hf] at hl
      exact absurd hl (by decide)
    | decode text =>
      have e2 : GUI.decode_file app text = .refused := by simp [GUI.decode_file, hf]
      simp only [GUI.callback, e2, GUI.reply_of, Option.some.injEq, Prod.mk.injEq] at h
      rw [← h.1, hf] at hl
      exact absurd hl (by decide)
  · intro bytes app1 reply h
    simp only [GUI.callback, Option.map_eq_some', Prod.mk.injEq, Prod.exists] at h
    obtain ⟨a, b, hab, rfl, -⟩ := h
    exact gui_load_sets_flag app a bytes b hab

/-- Witness for C14: the initial states of both variants, where the flag is false. -/
theorem requests_refused_until_loaded_witness :
    CLI.main_switch CLI.init (.encode [65]) = some (CLI.init, .refused) ∧
      CLI.main_switch CLI.init (.decode [49, 32]) = some (CLI.init, .refused) ∧
      GUI.callback GUI.init (.encode [65]) = some (GUI.init, .refused) ∧
      GUI.callback GUI.init (.decode [49, 32]) = some (GUI.init, .refused) :=
  ⟨(((requests_refused_until_loaded CLI.init GUI.init).2.1 rfl).1 [65]).1,
    (((requests_refused_until_loaded CLI.init GUI.init).2.1 rfl).1 [49, 32]).2,
    (((requests_refused_until_loaded CLI.init GUI.init).2.2 rfl).1 [65]).2.2.1,
    (((requests_refused_until_loaded CLI.init GUI.init).2.2 rfl).1 [49, 32]).2.2.2⟩

/-! ## Facts about whole loads -/

theorem cli_in_range_line_num (ln : Nat) (buf : List Nat) :
    (CLI.parse_line ln buf).in_range = (CLI.parse_line 0 buf).in_range := by
  unfold CLI.parse_line
  simp only
  repeat' split
  all_goals rfl

theorem gui_in_range_line_num (ln : Nat) (buf : List Nat) :
    (GUI.parse_line ln buf).in_range = (GUI.parse_line 0 buf).in_range := by
  unfold GUI.parse_line
  simp only
  repeat' split
  all_goals rfl

theorem cli_target_line_num (ln : Nat) (buf : List Nat) :
    (CLI.parse_line ln buf).target = (CLI.parse_line 0 buf).target := by
  unfold CLI.parse_line
  simp only
  repeat' split
  all_goals rfl

/-- A line whose index is in `1..256` never makes the body of the read loop undefined. -/
theorem cli_apply_effect_some (st : CLI.State) (eff : LineEffect Nat)
    (h : eff.in_range = true) : ∃ r, CLI.apply_effect st eff = some r := by
  cases eff with
  | skip d => exact ⟨_, rfl⟩
  | bump index d => exact ⟨_, rfl⟩
  | nothing => exact ⟨_, rfl⟩
  | undefined => simp [LineEffect.in_range] at h
  | assign index b ds =>
    simp only [LineEffect.in_range, decide_eq_true_eq] at h
    have h2 : 1 ≤ index ∧ index ≤ (CLI.MAX_CHAR_MAP : Int) := by
      simp only [CLI.MAX_CHAR_MAP]; exact_mod_cast h
    simp only [CLI.apply_effect, h2, and_self, if_true]
    exact ⟨_, rfl⟩

theorem gui_apply_effect_some (app : GUI.AppData) (eff : LineEffect (List Nat))
    (h : eff.in_range = true) : ∃ r, GUI.apply_effect app eff = some r := by
  cases eff with
  | skip d => exact ⟨_, rfl⟩
  | bump index d => exact ⟨_, rfl⟩
  | nothing => exact ⟨_, rfl⟩
  | undefined => simp [LineEffect.in_range] at h
  | assign index b ds =>
    simp only [LineEffect.in_range, decide_eq_true_eq] at h
    have h2 : 1 ≤ index ∧ index ≤ (GUI.MAX_CHAR_MAP : Int) := by
      simp only [GUI.MAX_CHAR_MAP]; exact_mod_cast h
    simp only [GUI.apply_effect, h2, and_self, if_true]
    exact ⟨_, rfl⟩

/-- The read loop of the text-menu variant ends with a table when every index is in
`1..256`. -/
theorem cli_load_lines_some (chunks : List (List Nat)) :
    ∀ (st : CLI.State) (ln : Nat),
      (∀ buf ∈ chunks, (CLI.parse_line 0 buf).in_range = true) →
      ∃ r, CLI.load_lines st ln chunks = some r := by
  induction chunks with
  | nil => intro st ln _; exact ⟨_, rfl⟩
  | cons buf rest ih =>
    intro st ln h
    unfold CLI.load_lines
    split
    · have hb : (CLI.parse_line (ln + 1) buf).in_range = true := by
        rw [cli_in_range_line_num]; exact h buf (List.mem_cons_self _ _)
      obtain ⟨⟨st1, ds⟩, h1⟩ := cli_apply_effect_some st _ hb
      obtain ⟨r, hr⟩ := ih st1 (ln + 1) (fun b hb => h b (List.mem_cons_of_mem _ hb))
      simp only [h1, hr, Option.map_some']
      exact ⟨_, rfl⟩
    · exact ⟨_, rfl⟩

/-- The read loop of the GTK variant ends with a table when every index is in `1..256`. -/
theorem gui_load_lines_some (chunks : List (List Nat)) :
    ∀ (app : GUI.AppData) (ln : Nat),
      (∀ buf ∈ chunks, (GUI.parse_line 0 buf).in_range = true) →
      ∃ r, GUI.load_lines app ln chunks = some r := by
  induction chunks with
  | nil => intro app ln _; exact ⟨_, rfl⟩
  | cons buf rest ih =>
    intro app ln h
    unfold GUI.load_lines
    have hb : (GUI.parse_line (ln + 1) buf).in_range = true := by
      rw [gui_in_range_line_num]; exact h buf (List.mem_cons_self _ _)
    obtain ⟨⟨app1, ds⟩, h1⟩ := gui_apply_effect_some app _ hb
    obtain ⟨r, hr⟩ := ih app1 (ln + 1) (fun b hb => h b (List.mem_cons_of_mem _ hb))
    simp only [h1, hr, Option.map_some']
    exact ⟨_, rfl⟩

theorem cli_apply_effect_flag (st : CLI.State) (b : Bool) (eff : LineEffect Nat) :
    CLI.apply_effect { st with is_map_loaded := b } eff
      = (CLI.apply_effect st eff).map (fun r => ({ r.1 with is_map_loaded := b }, r.2)) := by
  cases eff with
  | skip d => rfl
  | bump index d => rfl
  | nothing => rfl
  | undefined => rfl
  | assign index c ds =>
    simp only [CLI.apply_effect]
    split <;> rfl

theorem gui_apply_effect_flag (app : GUI.AppData) (b : Bool) (eff : LineEffect (List Nat)) :
    GUI.apply_effect { app with is_map_loaded := b } eff
      = (GUI.apply_effect app eff).map (fun r => ({ r.1 with is_map_loaded := b }, r.2)) := by
  cases eff with
  | skip d => rfl
  | bump index d => rfl
  | nothing => rfl
  | undefined => rfl
  | assign index c ds =>
    simp only [GUI.apply_effect]
    split <;> rfl

/-- The read loop of the text-menu variant does not look at the loaded flag. -/
theorem cli_load_lines_flag (b : Bool) (chunks : List (List Nat)) :
    ∀ (st : CLI.State) (ln : Nat),
      CLI.load_lines { st with is_map_loaded := b } ln chunks
        = (CLI.load_lines st ln chunks).map
            (fun r => ({ r.1 with is_map_loaded := b }, r.2)) := by
  induction chunks with
  | nil => intro st ln; rfl
  | cons buf rest ih =>
    intro st ln
    unfold CLI.load_lines
    simp only
    split
    · rw [cli_apply_effect_flag]
      cases CLI.apply_effect st (CLI.parse_line (ln + 1) buf) with
      | none => rfl
      | some p =>
        simp only [Option.map_some']
        rw [ih]
        cases CLI.load_lines p.1 (ln + 1) rest <;> rfl
    · rfl

/-- The read loop of the GTK variant does not look at the loaded flag. -/
theorem gui_load_lines_flag (b : Bool) (chunks : List (List Nat)) :
    ∀ (app : GUI.AppData) (ln : Nat),
      GUI.load_lines { app with is_map_loaded := b } ln chunks
        = (GUI.load_lines app ln chunks).map
            (fun r => ({ r.1 with is_map_loaded := b }, r.2)) := by
  induction chunks with
  | nil => intro app ln; rfl
  | cons buf rest ih =>
    intro app ln
    unfold GUI.load_lines
    rw [gui_apply_effect_flag]
    cases GUI.apply_effect app (GUI.parse_line (ln + 1) buf) with
    | none => rfl
    | some p =>
      simp only [Option.map_some']
      rw [ih]
      cases GUI.load_lines p.1 (ln + 1) rest <;> rfl

/-- In the text-menu variant a load that opens its file gives the same result from every
state: `memset` and `char_map_size = 0` discard all that the table held. -/
theorem cli_load_from_any_state (st : CLI.State) (file : List Nat) :
    CLI.load_char_map st (some file) = CLI.load_char_map CLI.init (some file) := by
  have key : ∀ b : Bool,
      (CLI.load_lines ⟨List.replicate CLI.MAX_CHAR_MAP 0, 0, b⟩ 0
          (Libc.fgets_chunks CLI.MAX_LINE_LENGTH file [])).map
        (fun r => (({ r.1 with is_map_loaded := true } : CLI.State), r.2))
      = (CLI.load_lines ⟨List.replicate CLI.MAX_CHAR_MAP 0, 0, false⟩ 0
          (Libc.fgets_chunks CLI.MAX_LINE_LENGTH file [])).map
        (fun r => (({ r.1 with is_map_loaded := true } : CLI.State), r.2)) := by
    intro b
    have := cli_load_lines_flag b (Libc.fgets_chunks CLI.MAX_LINE_LENGTH file [])
      ⟨List.replicate CLI.MAX_CHAR_MAP 0, 0, false⟩ 0
    simp only at this
    rw [this]
    cases CLI.load_lines ⟨List.replicate CLI.MAX_CHAR_MAP 0, 0, false⟩ 0
      (Libc.fgets_chunks CLI.MAX_LINE_LENGTH file []) <;> rfl
  exact key st.is_map_loaded

theorem gui_reset_of_shape (app : GUI.AppData) (h : GUI.Shape app) :
    GUI.reset app.char_map_size app.char_map = List.replicate GUI.MAX_CHAR_MAP none := by
  apply List.ext_getElem?
  intro n
  have hlen : (GUI.reset app.char_map_size app.char_map).length = GUI.MAX_CHAR_MAP := by
    rw [GUI.length_reset]; exact h.1
  have hnone := GUI.reset_getD app.char_map_size app.char_map h.2 n
  rw [List.getD_eq_getElem?_getD] at hnone
  rw [List.getElem?_replicate]
  by_cases hn : n < GUI.MAX_CHAR_MAP
  · simp only [hn, if_true]
    have hlt : n < (GUI.reset app.char_map_size app.char_map).length := by omega
    rw [List.getElem?_eq_getElem hlt] at hnone ⊢
    simpa using hnone
  · simp only [hn, if_false]
    exact List.getElem?_eq_none (by omega)

/-- In the GTK variant a load that opens its file gives the same result from every state
that satisfies `Inv` as from the initial state: the reset loop discards all that the
table held. -/
theorem gui_load_from_any_state (app : GUI.AppData) (file : List Nat) (h : GUI.Inv app) :
    GUI.load_char_map app (some file) = GUI.load_char_map GUI.init (some file) := by
  have key : ∀ b : Bool,
      (GUI.load_lines ⟨List.replicate GUI.MAX_CHAR_MAP none, 0, b⟩ 0
          (Libc.fgets_chunks GUI.MAX_LINE_LENGTH file [])).map
        (fun r => (({ r.1 with is_map_loaded := true } : GUI.AppData), r.2))
      = (GUI.load_lines ⟨List.replicate GUI.MAX_CHAR_MAP none, 0, false⟩ 0
          (Libc.fgets_chunks GUI.MAX_LINE_LENGTH file [])).map
        (fun r => (({ r.1 with is_map_loaded := true } : GUI.AppData), r.2)) := by
    intro b
    have := gui_load_lines_flag b (Libc.fgets_chunks GUI.MAX_LINE_LENGTH file [])
      ⟨List.replicate GUI.MAX_CHAR_MAP none, 0, false⟩ 0
    simp only at this
    rw [this]
    cases GUI.load_lines ⟨List.replicate GUI.MAX_CHAR_MAP none, 0, false⟩ 0
      (Libc.fgets_chunks GUI.MAX_LINE_LENGTH file []) <;> rfl
  have e0 : GUI.reset GUI.init.char_map_size GUI.init.char_map
      = List.replicate GUI.MAX_CHAR_MAP none := rfl
  simp only [GUI.load_char_map, gui_reset_of_shape app h.2, e0]
  rw [key app.is_map_loaded]
  rfl

/-- One line of the text-menu variant that does not store at slot `i` leaves slot `i` as
it is. -/
theorem cli_apply_effect_other (st st1 : CLI.State) (eff : LineEffect Nat) (ds : List Diag)
    (i : Nat) (h : CLI.apply_effect st eff = some (st1, ds))
    (ht : eff.target ≠ some ((i : Int) + 1)) :
    st1.char_map.getD i 0 = st.char_map.getD i 0 := by
  cases eff with
  | skip d => simp only [CLI.apply_effect, Option.some.injEq, Prod.mk.injEq] at h; rw [← h.1]
  | bump index d => simp only [CLI.apply_effect, Option.some.injEq, Prod.mk.injEq] at h; rw [← h.1]
  | nothing => simp only [CLI.apply_effect, Option.some.injEq, Prod.mk.injEq] at h; rw [← h.1]
  | undefined => simp [CLI.apply_effect] at h
  | assign index e es =>
    simp only [CLI.apply_effect] at h
    split at h
    · rename_i hr
      simp only [Option.some.injEq, Prod.mk.injEq] at h
      rw [← h.1]
      have hne : (index - 1).toNat ≠ i := by
        intro hc
        apply ht
        simp only [LineEffect.target, Option.some.injEq]
        omega
      show (st.char_map.set (index - 1).toNat e).getD i 0 = st.char_map.getD i 0
      rw [List.getD_eq_getElem?_getD, List.getD_eq_getElem?_getD, List.getElem?_set_ne hne]
    · simp at h

theorem cli_load_lines_other (i : Nat) (chunks : List (List Nat)) :
    ∀ (st : CLI.State) (ln : Nat) (st1 : CLI.State) (ds : List Diag),
      CLI.load_lines st ln chunks = some (st1, ds) →
      (∀ buf ∈ chunks, (CLI.parse_line 0 buf).target ≠ some ((i : Int) + 1)) →
      st1.char_map.getD i 0 = st.char_map.getD i 0 := by
  induction chunks with
  | nil =>
    intro st ln st1 ds h _
    simp only [CLI.load_lines, Option.some.injEq, Prod.mk.injEq] at h
    rw [← h.1]
  | cons buf rest ih =>
    intro st ln st1 ds h hno
    simp only [CLI.load_lines] at h
    split at h
    · cases h1 : CLI.apply_effect st (CLI.parse_line (ln + 1) buf) with
      | none => simp [h1] at h
      | some p =>
        obtain ⟨st2, ds2⟩ := p
        simp only [h1, Option.map_eq_some', Prod.mk.injEq, Prod.exists] at h
        obtain ⟨a, b, hab, rfl, -⟩ := h
        rw [ih st2 (ln + 1) a b hab (fun buf hb => hno buf (List.mem_cons_of_mem _ hb))]
        apply cli_apply_effect_other st st2 _ ds2 i h1
        rw [cli_target_line_num]
        exact hno buf (List.mem_cons_self _ _)
    · simp only [Option.some.injEq, Prod.mk.injEq] at h
      rw [← h.1]

/-- After a load of the text-menu variant, a slot that no line of the file stores to
is 0, whatever the table held before. -/
theorem cli_load_char_map_gap (st st1 : CLI.State) (file : List Nat) (ds : List Diag) (t : Nat)
    (h : CLI.load_char_map st (some file) = some (st1, ds))
    (h1 : 1 ≤ t) (hgap : ¬ CLI.assigned file (t : Int)) :
    st1.char_map.getD (t - 1) 0 = 0 := by
  simp only [CLI.load_char_map, Option.map_eq_some', Prod.mk.injEq, Prod.exists] at h
  obtain ⟨a, b, hab, rfl, -⟩ := h
  have hno : ∀ buf ∈ Libc.fgets_chunks CLI.MAX_LINE_LENGTH file [],
      (CLI.parse_line 0 buf).target ≠ some (((t - 1 : Nat) : Int) + 1) := by
    intro buf hb hc
    apply hgap
    refine ⟨buf, hb, ?_⟩
    rw [hc]
    congr 1
    omega
  have := cli_load_lines_other (t - 1) _ _ _ _ _ hab hno
  simp only at this
  rw [this]
  simp only [List.getD_eq_getElem?_getD, List.getElem?_replicate]
  split <;> rfl

/-- C12: in both variants a load that opens its file replaces the table wholesale.  For
every previous state (any state of the text-menu variant; any state of the GTK variant
that the initial state and earlier loads can give, `Inv`) and every mapping file whose
indices lie in `1..256`, the load ends, and its result (table, size, flag and
diagnostics) is the one the same file gives from the initial empty table; an index that
no line of the file assigns is unassigned afterwards, whatever it held before. -/
theorem load_replaces_table (st : CLI.State) (app : GUI.AppData) (file : List Nat) :
    (CLI.indices_in_range file →
      ∃ st1 ds, CLI.load_char_map CLI.init (some file) = some (st1, ds) ∧
        CLI.load_char_map st (some file) = some (st1, ds) ∧
        ∀ t : Nat, 1 ≤ t → ¬ CLI.assigned file (t : Int) → st1.char_map.getD (t - 1) 0 = 0) ∧
    (GUI.Inv app → GUI.indices_in_range file →
      ∃ app1 ds, GUI.load_char_map GUI.init (some file) = some (app1, ds) ∧
        GUI.load_char_map app (some file) = some (app1, ds) ∧
        ∀ t : Nat, 1 ≤ t → ¬ GUI.assigned file (t : Int) →
          app1.char_map.getD (t - 1) none = none) := by
  constructor
  · intro hr
    obtain ⟨⟨a, ds⟩, ha⟩ := cli_load_lines_some (Libc.fgets_chunks CLI.MAX_LINE_LENGTH file [])
      ⟨List.replicate CLI.MAX_CHAR_MAP 0, 0, false⟩ 0 hr
    have hinit : CLI.load_char_map CLI.init (some file)
        = some ({ a with is_map_loaded := true }, ds) := by
      simp only [CLI.load_char_map, CLI.init]
      rw [ha]
      rfl
    refine ⟨_, ds, hinit, by rw [cli_load_from_any_state, hinit], fun t h1 hgap => ?_⟩
    exact cli_load_char_map_gap CLI.init _ file ds t hinit h1 hgap
  · intro hinv hr
    obtain ⟨⟨a, ds⟩, ha⟩ := gui_load_lines_some (Libc.fgets_chunks GUI.MAX_LINE_LENGTH file [])
      ⟨List.replicate GUI.MAX_CHAR_MAP none, 0, false⟩ 0 hr
    have hinit : GUI.load_char_map GUI.init (some file)
        = some ({ a with is_map_loaded := true }, ds) := by
      simp only [GUI.load_char_map, GUI.init, GUI.reset]
      rw [ha]
      rfl
    refine ⟨_, ds, hinit, by rw [gui_load_from_any_state app file hinv, hinit],
      fun t h1 hgap => ?_⟩
    exact (GUI.load_char_map_gap GUI.init _ file ds t hinit GUI.inv_init h1 hgap).1

/-- Witness for C12: the example tables (`A`, `B`, nothing, `A`) reloaded from
`example_file_gap` (`1<TAB>A`, `3<TAB>B`): the result is the one the file gives from the
initial state, and index 2, which held `B`, is unassigned. -/
theorem load_replaces_table_witness :
    (CLI.indices_in_range example_file_gap ∧
      ∃ st1 ds, CLI.load_char_map CLI.init (some example_file_gap) = some (st1, ds) ∧
        CLI.load_char_map CLI.example_state (some example_file_gap) = some (st1, ds) ∧
        ∀ t : Nat, 1 ≤ t → ¬ CLI.assigned example_file_gap (t : Int) →
          st1.char_map.getD (t - 1) 0 = 0) ∧
    (GUI.indices_in_range example_file_gap ∧
      ∃ app1 ds, GUI.load_char_map GUI.init (some example_file_gap) = some (app1, ds) ∧
        GUI.load_char_map GUI.example_app (some example_file_gap) = some (app1, ds) ∧
        ∀ t : Nat, 1 ≤ t → ¬ GUI.assigned example_file_gap (t : Int) →
          app1.char_map.getD (t - 1) none = none) :=
  ⟨⟨by decide,
      (load_replaces_table CLI.example_state GUI.example_app example_file_gap).1 (by decide)⟩,
    ⟨by decide,
      (load_replaces_table CLI.example_state GUI.example_app example_file_gap).2
        (GUI.load_char_map_inv GUI.init GUI.example_app example_file [] (by decide)
          GUI.inv_init (by decide))
        (by decide)⟩⟩

/-! ## Facts about one line of the read loop -/

/-- The escape table of the spec and the `switch` of the code agree. -/
theorem spec_escapes_eq (x : Nat) : spec_escapes.lookup x = escape_byte x := by
  unfold escape_byte
  by_cases h1 : x = 110
  · subst h1; rfl
  by_cases h2 : x = 116
  · subst h2; rfl
  by_cases h3 : x = 114
  · subst h3; rfl
  by_cases h4 : x = 48
  · subst h4; rfl
  by_cases h5 : x = 92
  · subst h5; rfl
  by_cases h6 : x = 39
  · subst h6; rfl
  by_cases h7 : x = 34
  · subst h7; rfl
  have e : ∀ k : Nat, x ≠ k → (x == k) = false := fun k hk => by simpa using hk
  simp [spec_escapes, List.lookup, e _ h1, e _ h2, e _ h3, e _ h4, e _ h5, e _ h6, e _ h7,
    h1, h2, h3, h4, h5, h6, h7]

/-- One iteration of the read loop of the text-menu variant, for a line the loop reads
(`char_map_size < MAX_CHAR_MAP`) and whose body returns. -/
theorem cli_load_lines_cons (st st1 : CLI.State) (ln : Nat) (buf : List Nat)
    (rest : List (List Nat)) (ds : List Diag)
    (hg : st.char_map_size < CLI.MAX_CHAR_MAP)
    (h : CLI.apply_effect st (CLI.parse_line (ln + 1) buf) = some (st1, ds)) :
    CLI.load_lines st ln (buf :: rest)
      = (CLI.load_lines st1 (ln + 1) rest).map (fun r => (r.1, ds ++ r.2)) := by
  simp only [CLI.load_lines, hg, if_true, h]

/-- One iteration of the read loop of the GTK variant, for a line whose body returns. -/
theorem gui_load_lines_cons (app app1 : GUI.AppData) (ln : Nat) (buf : List Nat)
    (rest : List (List Nat)) (ds : List Diag)
    (h : GUI.apply_effect app (GUI.parse_line (ln + 1) buf) = some (app1, ds)) :
    GUI.load_lines app ln (buf :: rest)
      = (GUI.load_lines app1 (ln + 1) rest).map (fun r => (r.1, ds ++ r.2)) := by
  simp only [GUI.load_lines, h]

theorem cli_apply_assign (st : CLI.State) (i : Nat) (b : Nat) (ds : List Diag)
    (h1 : 1 ≤ i) (h2 : i ≤ 256) :
    CLI.apply_effect st (.assign (i : Int) b ds) = some (CLI.stored st (i : Int) b, ds) := by
  have h : 1 ≤ (i : Int) ∧ (i : Int) ≤ (CLI.MAX_CHAR_MAP : Int) := by
    simp only [CLI.MAX_CHAR_MAP]; omega
  simp only [CLI.apply_effect, h, and_self, if_true, CLI.stored]

theorem gui_apply_assign (app : GUI.AppData) (i : Nat) (e : List Nat) (ds : List Diag)
    (h1 : 1 ≤ i) (h2 : i ≤ 256) :
    GUI.apply_effect app (.assign (i : Int) e ds) = some (GUI.stored app (i : Int) e, ds) := by
  have h : 1 ≤ (i : Int) ∧ (i : Int) ≤ (GUI.MAX_CHAR_MAP : Int) := by
    simp only [GUI.MAX_CHAR_MAP]; omega
  simp only [GUI.apply_effect, h, and_self, if_true, GUI.stored]

/-- After a store at index `i` the index holds the byte stored. -/
theorem cli_holds_stored (st : CLI.State) (i : Nat) (b : Nat) (h1 : 1 ≤ i) (h2 : i ≤ 256)
    (hlen : st.char_map.length = CLI.MAX_CHAR_MAP) :
    CLI.holds (CLI.stored st (i : Int) b) i b := by
  have ht : ((i : Int) - 1).toNat = i - 1 := by omega
  refine ⟨h1, ?_, ?_⟩
  · simp only [CLI.stored, CLI.raise_size]
    split <;> omega
  · simp only [CLI.stored, ht, List.getD_eq_getElem?_getD]
    rw [List.getElem?_set_self (by rw [hlen]; simp only [CLI.MAX_CHAR_MAP]; omega)]
    rfl

theorem gui_holds_stored (app : GUI.AppData) (i : Nat) (b : Nat) (h1 : 1 ≤ i) (h2 : i ≤ 256)
    (hlen : app.char_map.length = GUI.MAX_CHAR_MAP) :
    GUI.holds (GUI.stored app (i : Int) (Libc.cstr [b, 0])) i b := by
  have ht : ((i : Int) - 1).toNat = i - 1 := by omega
  refine ⟨h1, ?_, ?_⟩
  · simp only [GUI.stored, GUI.raise_size]
    split <;> omega
  · simp only [GUI.stored, ht, List.getD_eq_getElem?_getD]
    rw [List.getElem?_set_self (by rw [hlen]; simp only [GUI.MAX_CHAR_MAP]; omega)]
    rfl

theorem fits_int_of_le (i : Nat) (h : i ≤ 256) : Libc.fits_int (i : Int) = true := by
  simp only [Libc.fits_int, Libc.INT_MIN, Libc.INT_MAX, Bool.and_eq_true, decide_eq_true_eq]
  omega

/-- The branch the text-menu variant takes for a line whose representation the spec
accepts without a diagnostic. -/
theorem cli_parse_spec_char (ln : Nat) (i : Int) (rep : List Nat) (b : Nat)
    (hfit : Libc.fits_int i = true) (hrep : spec_char rep = some b)
    (h0 : ∀ c ∈ rep, c ≠ 0) (h10 : ∀ c ∈ rep, c ≠ 10) :
    CLI.parse_line ln (mapping_line i rep) = .assign i b [] := by
  rw [cli_parse_mapping_line ln i rep h0 h10 hfit]
  unfold spec_char at hrep
  split at hrep
  · rename_i hs
    simp only [Option.some.injEq] at hrep
    subst hrep
    simp only [hs, if_true]
  · rename_i hs
    split at hrep
    · rename_i ht
      simp only [Option.some.injEq] at hrep
      subst hrep
      have hne : str_Tab ≠ str_Space := by decide
      simp only [ht, hne, if_true, if_false]
    · rename_i ht
      split at hrep
      · simp only [Option.some.injEq] at hrep
        subst hrep
        simp [str_Space, str_Tab]
      · rename_i x
        rw [spec_escapes_eq] at hrep
        simp [str_Space, str_Tab, hrep]
      · simp at hrep

/-- The branch the GTK variant takes for a line whose representation the spec accepts
without a diagnostic. -/
theorem gui_parse_spec_char (ln : Nat) (i : Int) (rep : List Nat) (b : Nat)
    (hfit : Libc.fits_int i = true) (hrep : spec_char rep = some b)
    (h0 : ∀ c ∈ rep, c ≠ 0) :
    GUI.parse_line ln (mapping_line i rep) = .assign i (Libc.cstr [b, 0]) [] := by
  rw [gui_parse_mapping_line ln i rep h0 hfit]
  unfold spec_char at hrep
  split at hrep
  · rename_i hs
    simp only [Option.some.injEq] at hrep
    subst hrep
    simp only [hs, if_true]
    rfl
  · rename_i hs
    split at hrep
    · rename_i ht
      simp only [Option.some.injEq] at hrep
      subst hrep
      have hne : str_Tab ≠ str_Space := by decide
      simp only [ht, hne, if_true, if_false]
      rfl
    · rename_i ht
      split at hrep
      · rename_i c
        simp only [Option.some.injEq] at hrep
        subst hrep
        have hc : c ≠ 0 := h0 c (List.mem_singleton.mpr rfl)
        simp [str_Space, str_Tab, Libc.cstr, hc]
      · rename_i x
        rw [spec_escapes_eq] at hrep
        simp [str_Space, str_Tab, hrep]
      · simp at hrep

/-- The body of the read loop on a line the spec accepts: in both variants, for every
line `<i><TAB><rep>` with `i` in `1..256` whose
representation is the word `Space`, the word `Tab`, one character, or one of the escapes
`\n`, `\t`, `\r`, `\0`, `\\`, `\'`, `\"`, the body of the read loop takes a branch that
stores at index `i` the character the spec gives for the representation (`spec_char`) and
writes no diagnostic; afterwards index `i` holds that character, and the loop goes on with
the lines that follow. -/
theorem body_assigns_spec_char (st : CLI.State) (app : GUI.AppData) (ln : Nat) (i : Nat)
    (rep : List Nat) (b : Nat) (rest : List (List Nat))
    (hi1 : 1 ≤ i) (hi2 : i ≤ 256) (hrep : spec_char rep = some b)
    (h0 : ∀ c ∈ rep, c ≠ 0) (h10 : ∀ c ∈ rep, c ≠ 10) :
    (CLI.parse_line (ln + 1) (mapping_line i rep) = .assign i b [] ∧
      CLI.apply_effect st (CLI.parse_line (ln + 1) (mapping_line i rep))
        = some (CLI.stored st i b, []) ∧
      (st.char_map.length = CLI.MAX_CHAR_MAP → CLI.holds (CLI.stored st i b) i b) ∧
      (st.char_map_size < CLI.MAX_CHAR_MAP →
        CLI.load_lines st ln (mapping_line i rep :: rest)
          = CLI.load_lines (CLI.stored st i b) (ln + 1) rest)) ∧
    (GUI.parse_line (ln + 1) (mapping_line i rep) = .assign i (Libc.cstr [b, 0]) [] ∧
      GUI.apply_effect app (GUI.parse_line (ln + 1) (mapping_line i rep))
        = some (GUI.stored app i (Libc.cstr [b, 0]), []) ∧
      (app.char_map.length = GUI.MAX_CHAR_MAP →
        GUI.holds (GUI.stored app i (Libc.cstr [b, 0])) i b) ∧
      GUI.load_lines app ln (mapping_line i rep :: rest)
        = GUI.load_lines (GUI.stored app i (Libc.cstr [b, 0])) (ln + 1) rest) := by
  have hfit := fits_int_of_le i hi2
  have hc := cli_parse_spec_char (ln + 1) i rep b hfit hrep h0 h10
  have hg := gui_parse_spec_char (ln + 1) i rep b hfit hrep h0
  have hca : CLI.apply_effect st (CLI.parse_line (ln + 1) (mapping_line i rep))
      = some (CLI.stored st i b, []) := by rw [hc]; exact cli_apply_assign st i b [] hi1 hi2
  have hga : GUI.apply_effect app (GUI.parse_line (ln + 1) (mapping_line i rep))
      = some (GUI.stored app i (Libc.cstr [b, 0]), []) := by
    rw [hg]; exact gui_apply_assign app i _ [] hi1 hi2
  refine ⟨⟨hc, hca, cli_holds_stored st i b hi1 hi2, fun hguard => ?_⟩,
    ⟨hg, hga, gui_holds_stored app i b hi1 hi2, ?_⟩⟩
  · rw [cli_load_lines_cons st _ ln _ rest [] hguard hca]
    cases CLI.load_lines (CLI.stored st i b) (ln + 1) rest <;> rfl
  · rw [gui_load_lines_cons app _ ln _ rest [] hga]
    cases GUI.load_lines (GUI.stored app i (Libc.cstr [b, 0])) (ln + 1) rest <;> rfl

/-- The body of the read loop on an unknown escape: in both variants, for a line
`<i><TAB>\X` whose `X` is not one of `n`, `t`, `r`,
`0`, `\`, `'`, `"`, the body of the read loop writes exactly one diagnostic, a warning,
and stores nothing: the table is left as it is (only `char_map_size` is raised to `i` when
`i` is larger), and the loop goes on with the lines that follow. -/
theorem body_unknown_escape (st : CLI.State) (app : GUI.AppData) (ln : Nat) (i : Int)
    (x : Nat) (rest : List (List Nat)) (hfit : Libc.fits_int i = true)
    (hx : escape_byte x = none) (hx0 : x ≠ 0) (hx10 : x ≠ 10) :
    (CLI.parse_line (ln + 1) (mapping_line i [92, x]) = .bump i (.unknown_escape [92, x]) ∧
      CLI.apply_effect st (CLI.parse_line (ln + 1) (mapping_line i [92, x]))
        = some (CLI.raised st i, [Diag.unknown_escape [92, x]]) ∧
      (CLI.raised st i).char_map = st.char_map ∧
      (st.char_map_size < CLI.MAX_CHAR_MAP →
        CLI.load_lines st ln (mapping_line i [92, x] :: rest)
          = (CLI.load_lines (CLI.raised st i) (ln + 1) rest).map
              (fun r => (r.1, Diag.unknown_escape [92, x] :: r.2)))) ∧
    (GUI.parse_line (ln + 1) (mapping_line i [92, x]) = .bump i (.unknown_escape [92, x]) ∧
      GUI.apply_effect app (GUI.parse_line (ln + 1) (mapping_line i [92, x]))
        = some (GUI.raised app i, [Diag.unknown_escape [92, x]]) ∧
      (GUI.raised app i).char_map = app.char_map ∧
      GUI.load_lines app ln (mapping_line i [92, x] :: rest)
        = (GUI.load_lines (GUI.raised app i) (ln + 1) rest).map
            (fun r => (r.1, Diag.unknown_escape [92, x] :: r.2))) ∧
    (Diag.unknown_escape [92, x]).is_warning = true := by
  have h0 : ∀ c ∈ [92, x], c ≠ 0 := by
    intro c hc
    simp only [List.mem_cons, List.mem_singleton, List.not_mem_nil, or_false] at hc
    rcases hc with rfl | rfl
    · decide
    · exact hx0
  have h10 : ∀ c ∈ [92, x], c ≠ 10 := by
    intro c hc
    simp only [List.mem_cons, List.mem_singleton, List.not_mem_nil, or_false] at hc
    rcases hc with rfl | rfl
    · decide
    · exact hx10
  have hc : CLI.parse_line (ln + 1) (mapping_line i [92, x])
      = .bump i (.unknown_escape [92, x]) := by
    rw [cli_parse_mapping_line (ln + 1) i [92, x] h0 h10 hfit]
    simp [str_Space, str_Tab, hx]
  have hg : GUI.parse_line (ln + 1) (mapping_line i [92, x])
      = .bump i (.unknown_escape [92, x]) := by
    rw [gui_parse_mapping_line (ln + 1) i [92, x] h0 hfit]
    simp [str_Space, str_Tab, hx]
  have hca : CLI.apply_effect st (CLI.parse_line (ln + 1) (mapping_line i [92, x]))
      = some (CLI.raised st i, [Diag.unknown_escape [92, x]]) := by rw [hc]; rfl
  have hga : GUI.apply_effect app (GUI.parse_line (ln + 1) (mapping_line i [92, x]))
      = some (GUI.raised app i, [Diag.unknown_escape [92, x]]) := by rw [hg]; rfl
  refine ⟨⟨hc, hca, rfl, fun hguard => ?_⟩, ⟨hg, hga, rfl, ?_⟩, rfl⟩
  · rw [cli_load_lines_cons st _ ln _ rest _ hguard hca]
    rfl
  · rw [gui_load_lines_cons app _ ln _ rest _ hga]
    rfl


/-- The body of the read loop on a representation of several characters: in both
variants, for a line `<i><TAB><rep>` with `i` in `1..256` whose
representation has more than one character, does not start with a backslash and is
neither `Space` nor `Tab`, the body of the read loop stores the first character of the
representation at index `i` and writes exactly one diagnostic, a warning. -/
theorem body_multi_char (st : CLI.State) (app : GUI.AppData) (ln : Nat) (i : Nat)
    (rep : List Nat) (rest : List (List Nat)) (hi1 : 1 ≤ i) (hi2 : i ≤ 256)
    (hlen : 1 < rep.length) (hb : rep.headD 0 ≠ 92) (hs : rep ≠ str_Space)
    (ht : rep ≠ str_Tab) (h0 : ∀ c ∈ rep, c ≠ 0) (h10 : ∀ c ∈ rep, c ≠ 10) :
    (CLI.parse_line (ln + 1) (mapping_line i rep)
        = .assign i (rep.headD 0) [.multi_char rep (rep.headD 0)] ∧
      CLI.apply_effect st (CLI.parse_line (ln + 1) (mapping_line i rep))
        = some (CLI.stored st i (rep.headD 0), [Diag.multi_char rep (rep.headD 0)]) ∧
      (st.char_map.length = CLI.MAX_CHAR_MAP →
        CLI.holds (CLI.stored st i (rep.headD 0)) i (rep.headD 0)) ∧
      (st.char_map_size < CLI.MAX_CHAR_MAP →
        CLI.load_lines st ln (mapping_line i rep :: rest)
          = (CLI.load_lines (CLI.stored st i (rep.headD 0)) (ln + 1) rest).map
              (fun r => (r.1, Diag.multi_char rep (rep.headD 0) :: r.2)))) ∧
    (GUI.parse_line (ln + 1) (mapping_line i rep)
        = .assign i [rep.headD 0] [.multi_char rep (rep.headD 0)] ∧
      GUI.apply_effect app (GUI.parse_line (ln + 1) (mapping_line i rep))
        = some (GUI.stored app i [rep.headD 0], [Diag.multi_char rep (rep.headD 0)]) ∧
      (app.char_map.length = GUI.MAX_CHAR_MAP →
        GUI.holds (GUI.stored app i [rep.headD 0]) i (rep.headD 0)) ∧
      GUI.load_lines app ln (mapping_line i rep :: rest)
        = (GUI.load_lines (GUI.stored app i [rep.headD 0]) (ln + 1) rest).map
            (fun r => (r.1, Diag.multi_char rep (rep.headD 0) :: r.2))) ∧
    (Diag.multi_char rep (rep.headD 0)).is_warning = true := by
  have hfit := fits_int_of_le i hi2
  have hl1 : rep.length ≠ 1 := by omega
  have hpos : rep.length > 0 := by omega
  have hne : rep ≠ [] := by
    intro h; rw [h] at hlen; simp at hlen
  have hhead : rep.headD 0 ≠ 0 := by
    cases rep with
    | nil => exact absurd rfl hne
    | cons c cs => exact h0 c (List.mem_cons_self _ _)
  have hcs : Libc.cstr [rep.headD 0, 0] = [rep.headD 0] := by
    have hgen : ∀ c : Nat, c ≠ 0 → Libc.cstr [c, 0] = [c] := by
      intro c hc
      simp [Libc.cstr, hc]
    exact hgen _ hhead
  have hc : CLI.parse_line (ln + 1) (mapping_line i rep)
      = .assign i (rep.headD 0) [.multi_char rep (rep.headD 0)] := by
    rw [cli_parse_mapping_line (ln + 1) i rep h0 h10 hfit]
    simp only [hs, ht, hl1, hb, false_and, if_false, hpos, if_true]
  have hg : GUI.parse_line (ln + 1) (mapping_line i rep)
      = .assign i [rep.headD 0] [.multi_char rep (rep.headD 0)] := by
    rw [gui_parse_mapping_line (ln + 1) i rep h0 hfit]
    simp only [hs, ht, hne, hl1, hb, and_false, if_false, hpos, if_true, hcs]
  have hca : CLI.apply_effect st (CLI.parse_line (ln + 1) (mapping_line i rep))
      = some (CLI.stored st i (rep.headD 0), [Diag.multi_char rep (rep.headD 0)]) := by
    rw [hc]; exact cli_apply_assign st i _ _ hi1 hi2
  have hga : GUI.apply_effect app (GUI.parse_line (ln + 1) (mapping_line i rep))
      = some (GUI.stored app i [rep.headD 0], [Diag.multi_char rep (rep.headD 0)]) := by
    rw [hg]; exact gui_apply_assign app i _ _ hi1 hi2
  refine ⟨⟨hc, hca, cli_holds_stored st i _ hi1 hi2, fun hguard => ?_⟩,
    ⟨hg, hga, ?_, ?_⟩, rfl⟩
  · rw [cli_load_lines_cons st _ ln _ rest _ hguard hca]
    rfl
  · have := gui_holds_stored app i (rep.headD 0) hi1 hi2
    rw [hcs] at this
    exact this
  · rw [gui_load_lines_cons app _ ln _ rest _ hga]
    rfl

/-- C19: in the GTK variant, for a line `<i><TAB>` with `i` in `1..256` and an empty
representation, the body of the read loop stores the space character at index `i` and
writes exactly one diagnostic, which is informational and not a warning. -/
theorem GUI.empty_rep_is_space (app : GUI.AppData) (ln : Nat) (i : Nat)
    (rest : List (List Nat)) (hi1 : 1 ≤ i) (hi2 : i ≤ 256) :
    GUI.parse_line (ln + 1) (mapping_line i []) = .assign i [32] [.empty_note (ln + 1)] ∧
      GUI.apply_effect app (GUI.parse_line (ln + 1) (mapping_line i []))
        = some (GUI.stored app i [32], [Diag.empty_note (ln + 1)]) ∧
      (app.char_map.length = GUI.MAX_CHAR_MAP → GUI.holds (GUI.stored app i [32]) i 32) ∧
      GUI.load_lines app ln (mapping_line i [] :: rest)
        = (GUI.load_lines (GUI.stored app i [32]) (ln + 1) rest).map
            (fun r => (r.1, Diag.empty_note (ln + 1) :: r.2)) ∧
      (Diag.empty_note (ln + 1)).is_note = true ∧
      (Diag.empty_note (ln + 1)).is_warning = false := by
  have hfit := fits_int_of_le i hi2
  have hg : GUI.parse_line (ln + 1) (mapping_line i [])
      = .assign i [32] [.empty_note (ln + 1)] := by
    rw [gui_parse_mapping_line (ln + 1) i [] (by simp) hfit]
    simp [str_Space, str_Tab]
  have hga : GUI.apply_effect app (GUI.parse_line (ln + 1) (mapping_line i []))
      = some (GUI.stored app i [32], [Diag.empty_note (ln + 1)]) := by
    rw [hg]; exact gui_apply_assign app i _ _ hi1 hi2
  refine ⟨hg, hga, gui_holds_stored app i 32 hi1 hi2, ?_, rfl, rfl⟩
  rw [gui_load_lines_cons app _ ln _ rest _ hga]
  rfl

/-- Witness for C19: the line `1<TAB>` read as first line from the initial state; the
whole load of the one-line file gives the table with a space at index 1 and one note. -/
theorem GUI.empty_rep_is_space_witness :
    GUI.parse_line 1 (mapping_line 1 []) = .assign 1 [32] [.empty_note 1] ∧
      GUI.apply_effect GUI.init (GUI.parse_line 1 (mapping_line 1 []))
        = some (GUI.stored GUI.init 1 [32], [Diag.empty_note 1]) ∧
      GUI.load_char_map GUI.init (some example_file_empty_rep)
        = some (GUI.example_app_empty_rep, [Diag.empty_note 1]) :=
  have h := GUI.empty_rep_is_space GUI.init 0 1 [] (by decide) (by decide)
  ⟨h.1, h.2.1, by decide⟩

/-- In the text-menu variant a line with an empty representation takes no branch. -/
theorem cli_empty_rep_nothing (ln : Nat) (i : Int) (hfit : Libc.fits_int i = true) :
    CLI.parse_line ln (mapping_line i []) = .nothing := by
  rw [cli_parse_mapping_line ln i [] (by simp) (by simp) hfit]
  simp [str_Space, str_Tab]

/-- C20, the behaviour of the code: the text-menu variant has no branch for an empty
representation.  Loading the single line `1<TAB>` assigns nothing, leaves `char_map_size`
at 0 and writes no diagnostic; a later encode of a space writes the token `0` and a later
decode of the token `1` writes nothing.  (The GTK variant stores a space at index 1 and
writes one note for the same file.) -/
theorem CLI.empty_rep_ignored :
    CLI.parse_line 1 example_file_empty_rep = .nothing ∧
      CLI.load_char_map CLI.init (some example_file_empty_rep)
        = some (CLI.example_state_empty_rep, []) ∧
      CLI.example_state_empty_rep.char_map_size = 0 ∧
      CLI.encode_file CLI.example_state_empty_rep [32] = [48, 32] ∧
      CLI.decode_file CLI.example_state_empty_rep [49, 32] = some [] ∧
      GUI.load_char_map GUI.init (some example_file_empty_rep)
        = some (GUI.example_app_empty_rep, [Diag.empty_note 1]) := by
  decide

theorem cli_parse_no_tab (ln : Nat) (buf : List Nat) (h : ∀ c ∈ buf, c ≠ 9) :
    CLI.parse_line ln buf = .skip (.bad_format ln) := by
  have hline : ∀ c ∈ (Libc.cstr buf).takeWhile (fun c => c != 10), c ≠ 9 := by
    intro c hc
    exact h c (List.takeWhile_subset _ (List.takeWhile_subset _ hc))
  unfold CLI.parse_line
  simp only [Libc.split_tab_none _ hline]

theorem gui_parse_no_tab (ln : Nat) (buf : List Nat) (h : ∀ c ∈ buf, c ≠ 9) :
    GUI.parse_line ln buf = .skip (.bad_format ln) := by
  have hline : ∀ c ∈ GUI.strip_newline (Libc.cstr buf), c ≠ 9 := by
    intro c hc
    unfold GUI.strip_newline at hc
    split at hc
    · exact h c (List.takeWhile_subset _ (List.dropLast_subset _ hc))
    · exact h c (List.takeWhile_subset _ hc)
  unfold GUI.parse_line
  simp only [Libc.split_tab_none _ hline]

theorem gui_strip_newline_tab (pre y : List Nat) :
    ∃ y1, GUI.strip_newline (pre ++ 9 :: y) = pre ++ 9 :: y1 := by
  unfold GUI.strip_newline
  split
  · rename_i hc
    cases y with
    | nil =>
      rw [List.getLast?_concat] at hc
      simp at hc
    | cons a ys =>
      refine ⟨(a :: ys).dropLast, ?_⟩
      rw [List.dropLast_append_cons]
      rfl
  · exact ⟨y, rfl⟩

theorem cli_parse_bad_index (ln : Nat) (pre more : List Nat)
    (hpre : ∀ c ∈ pre, c ≠ 9 ∧ c ≠ 0 ∧ c ≠ 10) (hscan : Libc.scan_d pre = none) :
    CLI.parse_line ln (pre ++ 9 :: more) = .skip (.bad_index ln) := by
  have e1 : Libc.cstr (pre ++ 9 :: more) = pre ++ 9 :: Libc.cstr more := by
    unfold Libc.cstr
    rw [List.takeWhile_append_of_pos (fun c hc => by simpa using (hpre c hc).2.1)]
    simp
  have e2 : (pre ++ 9 :: Libc.cstr more).takeWhile (fun c => c != 10)
      = pre ++ 9 :: (Libc.cstr more).takeWhile (fun c => c != 10) := by
    rw [List.takeWhile_append_of_pos (fun c hc => by simpa using (hpre c hc).2.2)]
    simp
  unfold CLI.parse_line
  simp only [e1, e2, Libc.split_tab_append _ _ (fun c hc => (hpre c hc).1), hscan]

theorem gui_parse_bad_index (ln : Nat) (pre more : List Nat)
    (hpre : ∀ c ∈ pre, c ≠ 9 ∧ c ≠ 0 ∧ c ≠ 10) (hscan : Libc.scan_d pre = none) :
    GUI.parse_line ln (pre ++ 9 :: more) = .skip (.bad_index ln) := by
  have e1 : Libc.cstr (pre ++ 9 :: more) = pre ++ 9 :: Libc.cstr more := by
    unfold Libc.cstr
    rw [List.takeWhile_append_of_pos (fun c hc => by simpa using (hpre c hc).2.1)]
    simp
  obtain ⟨y1, e2⟩ := gui_strip_newline_tab pre (Libc.cstr more)
  unfold GUI.parse_line
  simp only [e1, e2, Libc.split_tab_append _ _ (fun c hc => (hpre c hc).1), hscan]

/-- The body of the read loop on a malformed line: in both variants, for a line that
contains no tab, and for a line whose text
before the first tab does not parse as an integer, the body of the read loop writes
exactly one diagnostic, a warning, and leaves the table and the size exactly as they
were; the loop then goes on with the lines that follow, from the unchanged state. -/
theorem body_malformed_line (st : CLI.State) (app : GUI.AppData) (ln : Nat)
    (buf : List Nat) (rest : List (List Nat)) :
    ((∀ c ∈ buf, c ≠ 9) →
      CLI.apply_effect st (CLI.parse_line (ln + 1) buf) = some (st, [Diag.bad_format (ln + 1)]) ∧
      (st.char_map_size < CLI.MAX_CHAR_MAP →
        CLI.load_lines st ln (buf :: rest)
          = (CLI.load_lines st (ln + 1) rest).map
              (fun r => (r.1, Diag.bad_format (ln + 1) :: r.2))) ∧
      GUI.apply_effect app (GUI.parse_line (ln + 1) buf)
        = some (app, [Diag.bad_format (ln + 1)]) ∧
      GUI.load_lines app ln (buf :: rest)
        = (GUI.load_lines app (ln + 1) rest).map
            (fun r => (r.1, Diag.bad_format (ln + 1) :: r.2))) ∧
    (∀ pre more, buf = pre ++ 9 :: more → (∀ c ∈ pre, c ≠ 9 ∧ c ≠ 0 ∧ c ≠ 10) →
      Libc.scan_d pre = none →
      CLI.apply_effect st (CLI.parse_line (ln + 1) buf) = some (st, [Diag.bad_index (ln + 1)]) ∧
      (st.char_map_size < CLI.MAX_CHAR_MAP →
        CLI.load_lines st ln (buf :: rest)
          = (CLI.load_lines st (ln + 1) rest).map
              (fun r => (r.1, Diag.bad_index (ln + 1) :: r.2))) ∧
      GUI.apply_effect app (GUI.parse_line (ln + 1) buf)
        = some (app, [Diag.bad_index (ln + 1)]) ∧
      GUI.load_lines app ln (buf :: rest)
        = (GUI.load_lines app (ln + 1) rest).map
            (fun r => (r.1, Diag.bad_index (ln + 1) :: r.2))) ∧
    (Diag.bad_format (ln + 1)).is_warning = true ∧
    (Diag.bad_index (ln + 1)).is_warning = true := by
  refine ⟨fun h => ?_, fun pre more hbuf hpre hscan => ?_, rfl, rfl⟩
  · have hc : CLI.apply_effect st (CLI.parse_line (ln + 1) buf)
        = some (st, [Diag.bad_format (ln + 1)]) := by
      rw [cli_parse_no_tab (ln + 1) buf h]; rfl
    have hg : GUI.apply_effect app (GUI.parse_line (ln + 1) buf)
        = some (app, [Diag.bad_format (ln + 1)]) := by
      rw [gui_parse_no_tab (ln + 1) buf h]; rfl
    refine ⟨hc, fun hguard => ?_, hg, ?_⟩
    · rw [cli_load_lines_cons st _ ln _ rest _ hguard hc]
      rfl
    · rw [gui_load_lines_cons app _ ln _ rest _ hg]
      rfl
  · subst hbuf
    have hc : CLI.apply_effect st (CLI.parse_line (ln + 1) (pre ++ 9 :: more))
        = some (st, [Diag.bad_index (ln + 1)]) := by
      rw [cli_parse_bad_index (ln + 1) pre more hpre hscan]; rfl
    have hg : GUI.apply_effect app (GUI.parse_line (ln + 1) (pre ++ 9 :: more))
        = some (app, [Diag.bad_index (ln + 1)]) := by
      rw [gui_parse_bad_index (ln + 1) pre more hpre hscan]; rfl
    refine ⟨hc, fun hguard => ?_, hg, ?_⟩
    · rw [cli_load_lines_cons st _ ln _ rest _ hguard hc]
      rfl
    · rw [gui_load_lines_cons app _ ln _ rest _ hg]
      rfl


/-! ## Lines of a file and the buffers `fgets` returns -/

namespace Libc

theorem fgets_chunks_line_aux (n : Nat) (l : List Nat) :
    ∀ (cur more : List Nat), (∀ c ∈ l, c ≠ 10) → cur.length + l.length + 1 ≤ n - 1 →
      fgets_chunks n (l ++ 10 :: more) cur
        = (cur.reverse ++ l ++ [10]) :: fgets_chunks n more [] := by
  induction l with
  | nil =>
    intro cur more _ _
    simp [fgets_chunks]
  | cons c cs ih =>
    intro cur more h hlen
    have hc : c ≠ 10 := h c (List.mem_cons_self _ _)
    simp only [List.length_cons] at hlen
    have hfull : ¬ (cur.length + 1 = n - 1) := by omega
    rw [List.cons_append]
    conv_lhs => rw [fgets_chunks]
    rw [if_neg (by simp [hc, hfull])]
    rw [ih (c :: cur) more (fun x hx => h x (List.mem_cons_of_mem _ hx))
      (by simp only [List.length_cons]; omega)]
    simp

/-- A line of a file that, with its newline, fits the line buffer is read by one `fgets`
call, and the next call starts right after it. -/
theorem fgets_chunks_line (n : Nat) (l more : List Nat) (h : ∀ c ∈ l, c ≠ 10)
    (hlen : l.length + 1 ≤ n - 1) :
    fgets_chunks n (l ++ 10 :: more) [] = (l ++ [10]) :: fgets_chunks n more [] := by
  have := fgets_chunks_line_aux n l [] more h (by simpa using hlen)
  simpa using this

end Libc

/-- A mapping line that fits the line buffer is one buffer of the read loop of either
variant (`MAX_LINE_LENGTH` is 1024 in both). -/
theorem fgets_chunks_mapping_line (i : Int) (rep more : List Nat) (h10 : ∀ c ∈ rep, c ≠ 10)
    (hlen : (mapping_line i rep).length ≤ 1023) :
    Libc.fgets_chunks 1024 (mapping_line i rep ++ more) []
      = mapping_line i rep :: Libc.fgets_chunks 1024 more [] := by
  have e : mapping_line i rep ++ more = (Libc.print_d i ++ 9 :: rep) ++ 10 :: more := by
    simp [mapping_line]
  have e2 : mapping_line i rep = (Libc.print_d i ++ 9 :: rep) ++ [10] := by
    simp [mapping_line]
  rw [e, e2]
  apply Libc.fgets_chunks_line
  · intro c hc
    simp only [List.mem_append, List.mem_cons] at hc
    rcases hc with h | h | h
    · exact (Libc.print_d_chars i c h).2.2
    · subst h; decide
    · exact h10 c h
  · rw [e2] at hlen
    simp only [List.length_append, List.length_cons, List.length_nil] at hlen ⊢
    omega

theorem cli_code_range (st : CLI.State) (hwf : CLI.WF st) (c : Nat) :
    0 ≤ CLI.code st c ∧ CLI.code st c ≤ 256 := by
  rcases CLI.cli_code_spec st c with ⟨h, -, -⟩ | ⟨k, h, -, ⟨-, hk, -⟩, -⟩
  · rw [h]; decide
  · rw [h]
    have : k ≤ 256 := le_trans hk hwf.2
    omega

theorem gui_code_range (app : GUI.AppData) (hwf : GUI.WF app) (c : Nat) :
    0 ≤ GUI.code app c ∧ GUI.code app c ≤ 256 := by
  rcases GUI.gui_code_spec app c with ⟨h, -, -⟩ | ⟨k, h, -, ⟨-, hk, -⟩, -⟩
  · rw [h]; decide
  · rw [h]
    have : k ≤ 256 := le_trans hk hwf.2
    omega

/-- C29: in both variants the encoded text format round-trips through the decode scanner.
For every table and every input, the text that `encode_file` writes is, for the tokens
`t1..tn` it finds (each between 0 and 256), each `ti` in decimal followed by one space;
and for every list of tokens between 0 and 256, the repeated `%d` scan of the decode loop
reads from such a text exactly that list, with no token merged, split or lost.  So the
scan of what `encode_file` writes yields the tokens it wrote, and the decode loop of
either variant writes, for that text, what its body writes for each token in turn. -/
theorem token_text_scans_back (st : CLI.State) (app : GUI.AppData) (s : List Nat)
    (ts : List Int) (hwf : CLI.WF st) (hwfg : GUI.WF app)
    (hts : ∀ t ∈ ts, 0 ≤ t ∧ t ≤ 256) :
    (CLI.encode_file st s = Libc.print_tokens (s.map (CLI.code st)) ∧
      (∀ t ∈ s.map (CLI.code st), 0 ≤ t ∧ t ≤ 256) ∧
      Libc.tokens (CLI.encode_file st s) = s.map (CLI.code st) ∧
      CLI.decode_file st (CLI.encode_file st s)
        = some ((s.map (CLI.code st)).flatMap (CLI.decode_emit st))) ∧
    (GUI.encode_loop app s = Libc.print_tokens (s.map (GUI.code app)) ∧
      (app.is_map_loaded = true → GUI.encode_file app s = .written (GUI.encode_loop app s)) ∧
      (∀ t ∈ s.map (GUI.code app), 0 ≤ t ∧ t ≤ 256) ∧
      Libc.tokens (GUI.encode_loop app s) = s.map (GUI.code app) ∧
      GUI.decode_loop app ((GUI.encode_loop app s).length + 1) (GUI.encode_loop app s)
        = some ((s.map (GUI.code app)).flatMap (GUI.decode_emit app))) ∧
    (Libc.tokens (Libc.print_tokens ts) = ts ∧
      (Libc.tokens (Libc.print_tokens ts)).length = ts.length ∧
      CLI.decode_file st (Libc.print_tokens ts) = some (ts.flatMap (CLI.decode_emit st)) ∧
      GUI.decode_loop app ((Libc.print_tokens ts).length + 1) (Libc.print_tokens ts)
        = some (ts.flatMap (GUI.decode_emit app))) := by
  have hfit : ∀ t ∈ ts, Libc.fits_int t = true := by
    intro t ht
    have := hts t ht
    simp only [Libc.fits_int, Libc.INT_MIN, Libc.INT_MAX, Bool.and_eq_true, decide_eq_true_eq]
    omega
  have hcr : ∀ t ∈ s.map (CLI.code st), 0 ≤ t ∧ t ≤ 256 := by
    intro t ht
    obtain ⟨c, -, rfl⟩ := List.mem_map.1 ht
    exact cli_code_range st hwf c
  have hgr : ∀ t ∈ s.map (GUI.code app), 0 ≤ t ∧ t ≤ 256 := by
    intro t ht
    obtain ⟨c, -, rfl⟩ := List.mem_map.1 ht
    exact gui_code_range app hwfg c
  have hcf : ∀ t ∈ s.map (CLI.code st), Libc.fits_int t = true := by
    intro t ht
    obtain ⟨c, -, rfl⟩ := List.mem_map.1 ht
    exact CLI.cli_code_fits st hwf c
  have hgf : ∀ t ∈ s.map (GUI.code app), Libc.fits_int t = true := by
    intro t ht
    obtain ⟨c, -, rfl⟩ := List.mem_map.1 ht
    exact GUI.gui_code_fits app hwfg c
  refine ⟨⟨CLI.encode_file_eq st s, hcr, ?_, ?_⟩, ⟨GUI.encode_loop_eq app s, ?_, hgr, ?_, ?_⟩,
    ⟨Libc.tokens_print_tokens ts, by rw [Libc.tokens_print_tokens], ?_, ?_⟩⟩
  · rw [CLI.encode_file_eq]; exact Libc.tokens_print_tokens _
  · rw [CLI.encode_file_eq]; exact CLI.decode_file_print_tokens st _ hcf
  · intro hl
    simp [GUI.encode_file, hl]
  · rw [GUI.encode_loop_eq]; exact Libc.tokens_print_tokens _
  · rw [GUI.encode_loop_eq]; exact GUI.decode_loop_print_tokens app _ hgf
  · exact CLI.decode_file_print_tokens st ts hfit
  · exact GUI.decode_loop_print_tokens app ts hfit

/-- Witness for C29: the input `A Z B A` with the example tables, whose tokens are
1, 0, 2, 1, and the tokens 0, 256, 10, 7. -/
theorem token_text_scans_back_witness :
    CLI.encode_file CLI.example_state [65, 90, 66, 65] = [49, 32, 48, 32, 50, 32, 49, 32] ∧
      Libc.tokens (CLI.encode_file CLI.example_state [65, 90, 66, 65])
        = [65, 90, 66, 65].map (CLI.code CLI.example_state) ∧
      Libc.tokens (GUI.encode_loop GUI.example_app [65, 90, 66, 65])
        = [65, 90, 66, 65].map (GUI.code GUI.example_app) ∧
      Libc.print_tokens [0, 256, 10, 7] = [48, 32, 50, 53, 54, 32, 49, 48, 32, 55, 32] ∧
      Libc.tokens (Libc.print_tokens [0, 256, 10, 7]) = [0, 256, 10, 7] :=
  have h := token_text_scans_back CLI.example_state GUI.example_app [65, 90, 66, 65]
    [0, 256, 10, 7] (by decide) (by decide) (by decide)
  ⟨by decide, h.1.2.2.1, h.2.1.2.2.2.1, by decide, h.2.2.1⟩

theorem flatMap_idem (r : Nat → List Nat) (h : ∀ b, ∀ c ∈ r b, r c = [c]) :
    ∀ s : List Nat, (s.flatMap r).flatMap r = s.flatMap r := by
  have hone : ∀ l : List Nat, (∀ c ∈ l, r c = [c]) → l.flatMap r = l := by
    intro l
    induction l with
    | nil => intro _; rfl
    | cons c cs ih =>
      intro hl
      simp only [List.flatMap_cons]
      rw [hl c (List.mem_cons_self _ _), ih (fun x hx => hl x (List.mem_cons_of_mem _ hx))]
      rfl
  intro s
  induction s with
  | nil => rfl
  | cons b bs ih =>
    simp only [List.flatMap_cons, List.flatMap_append]
    rw [ih, hone (r b) (h b)]

/-- What the round trip of the text-menu variant is: each byte an index holds is given
back, every other byte becomes `?`. -/
theorem cli_round_trip_eq (st : CLI.State) (hwf : CLI.WF st) (s : List Nat) :
    CLI.round_trip st s = some (s.flatMap (fun b => CLI.decode_emit st (CLI.code st b))) := by
  unfold CLI.round_trip
  rw [CLI.encode_file_eq, CLI.decode_file_print_tokens st _ (by
    intro t ht
    obtain ⟨c, -, rfl⟩ := List.mem_map.mp ht
    exact CLI.cli_code_fits st hwf c)]
  congr 1
  induction s with
  | nil => rfl
  | cons c cs ih => simp only [List.map_cons, List.flatMap_cons, ih]

/-- What the round trip of the GTK variant is. -/
theorem gui_round_trip_eq (app : GUI.AppData) (hwf : GUI.WF app)
    (hl : app.is_map_loaded = true) (s : List Nat) :
    GUI.round_trip app s
      = .written (s.flatMap (fun b => GUI.decode_emit app (GUI.code app b))) := by
  unfold GUI.round_trip
  simp only [GUI.encode_file, hl, Bool.not_true, Bool.false_eq_true, if_false, GUI.decode_file]
  rw [GUI.encode_loop_eq, GUI.decode_loop_print_tokens app _ (by
    intro t ht
    obtain ⟨c, -, rfl⟩ := List.mem_map.mp ht
    exact GUI.gui_code_fits app hwf c)]
  simp only
  congr 1
  induction s with
  | nil => rfl
  | cons c cs ih => simp only [List.map_cons, List.flatMap_cons, ih]

theorem cli_emit_code_stable (st : CLI.State) (b : Nat) :
    ∀ c ∈ CLI.decode_emit st (CLI.code st b), CLI.decode_emit st (CLI.code st c) = [c] := by
  have hheld : ∀ c k : Nat, CLI.holds st k c → CLI.decode_emit st (CLI.code st c) = [c] := by
    intro c k hk
    rcases CLI.cli_code_spec st c with ⟨-, -, hno⟩ | ⟨k1, hk1, -, hh, -⟩
    · exact absurd hk (hno k)
    · rw [hk1]; exact CLI.cli_decode_emit_of_holds st k1 c hh
  intro c hc
  rcases CLI.cli_code_spec st b with ⟨h0, -, -⟩ | ⟨k, hk, -, hh, -⟩
  · rw [h0] at hc
    have : c = 63 := by simpa [CLI.decode_emit] using hc
    subst this
    rcases CLI.cli_code_spec st 63 with ⟨h1, -, -⟩ | ⟨k1, hk1, -, hh1, -⟩
    · rw [h1]; rfl
    · exact hheld 63 k1 hh1
  · rw [hk, CLI.cli_decode_emit_of_holds st k b hh] at hc
    have : c = b := by simpa using hc
    subst this
    exact hheld c k hh

theorem gui_emit_code_stable (app : GUI.AppData) (b : Nat) :
    ∀ c ∈ GUI.decode_emit app (GUI.code app b), GUI.decode_emit app (GUI.code app c) = [c] := by
  have hheld : ∀ c k : Nat, c ≠ 0 → GUI.holds app k c →
      GUI.decode_emit app (GUI.code app c) = [c] := by
    intro c k hc0 hk
    rcases GUI.gui_code_spec app c with ⟨-, -, hno⟩ | ⟨k1, hk1, -, hh, -⟩
    · exact absurd hk (hno k)
    · rw [hk1, GUI.gui_decode_emit_of_holds app k1 c hh]
      simp [Libc.cstr, hc0]
  intro c hc
  rcases GUI.gui_code_spec app b with ⟨h0, -, -⟩ | ⟨k, hk, -, hh, -⟩
  · rw [h0] at hc
    have : c = 63 := by simpa [GUI.decode_emit] using hc
    subst this
    rcases GUI.gui_code_spec app 63 with ⟨h1, -, -⟩ | ⟨k1, hk1, -, hh1, -⟩
    · rw [h1]; rfl
    · exact hheld 63 k1 (by decide) hh1
  · rw [hk, GUI.gui_decode_emit_of_holds app k b hh] at hc
    by_cases hb : b = 0
    · subst hb
      simp [Libc.cstr] at hc
    · have : c = b := by simpa [Libc.cstr, hb] using hc
      subst this
      exact hheld c k hb hh

/-- C30: in both variants the lossy round trip `R` (decode applied to encode, under a
fixed table) is idempotent: for every table and every byte sequence `s`, `R s` is an
output and `R (R s) = R s`, whether or not `?` is itself in the table. -/
theorem round_trip_idempotent (st : CLI.State) (app : GUI.AppData) (s : List Nat) :
    (CLI.WF st →
      ∃ r, CLI.round_trip st s = some r ∧ CLI.round_trip st r = some r) ∧
    (GUI.WF app → app.is_map_loaded = true →
      ∃ r, GUI.round_trip app s = .written r ∧ GUI.round_trip app r = .written r) := by
  constructor
  · intro hwf
    refine ⟨_, cli_round_trip_eq st hwf s, ?_⟩
    rw [cli_round_trip_eq st hwf]
    congr 1
    exact flatMap_idem _ (cli_emit_code_stable st) s
  · intro hwf hl
    refine ⟨_, gui_round_trip_eq app hwf hl s, ?_⟩
    rw [gui_round_trip_eq app hwf hl]
    congr 1
    exact flatMap_idem _ (gui_emit_code_stable app) s

/-- Witness for C30: the bytes `A`, `Z`, `?`, NUL, `B` with the example tables, which do
not hold `?`: the first pass gives `A ? ? NUL B` in the text-menu variant (NUL is what the
empty slot 3 holds) and `A ? ? ? B` in the GTK variant, and a second pass changes
nothing. -/
theorem round_trip_idempotent_witness :
    (CLI.round_trip CLI.example_state [65, 90, 63, 0, 66] = some [65, 63, 63, 0, 66] ∧
      CLI.round_trip CLI.example_state [65, 63, 63, 0, 66] = some [65, 63, 63, 0, 66]) ∧
    (GUI.round_trip GUI.example_app [65, 90, 63, 0, 66] = .written [65, 63, 63, 63, 66] ∧
      GUI.round_trip GUI.example_app [65, 63, 63, 63, 66] = .written [65, 63, 63, 63, 66]) ∧
    (∃ r, CLI.round_trip CLI.example_state [65, 90, 63, 0, 66] = some r ∧
      CLI.round_trip CLI.example_state r = some r) ∧
    (∃ r, GUI.round_trip GUI.example_app [65, 90, 63, 0, 66] = .written r ∧
      GUI.round_trip GUI.example_app r = .written r) :=
  ⟨by decide, by decide,
    (round_trip_idempotent CLI.example_state GUI.example_app [65, 90, 63, 0, 66]).1
      (by decide),
    (round_trip_idempotent CLI.example_state GUI.example_app [65, 90, 63, 0, 66]).2
      (by decide) rfl⟩

/-- C25, the behaviour of the code: after the text-menu variant loads `example_file`
(`1<TAB>A`, `2<TAB>B`, `4<TAB>A`), no line has assigned anything to index 3, and yet
`encode_file` writes the token `3` for a NUL input byte: `find_char_index` matches the NUL
byte against the 0 that `memset` left in the empty slot. -/
theorem CLI.nul_encodes_to_gap :
    CLI.load_char_map CLI.init (some example_file) = some (CLI.example_state, []) ∧
      ¬ CLI.assigned example_file 3 ∧
      CLI.find_char_index CLI.example_state 0 = 3 ∧
      CLI.encode_file CLI.example_state [0] = [51, 32] ∧
      Libc.tokens (CLI.encode_file CLI.example_state [0]) = [3] := by
  decide

/-- C26, the behaviour of the code: neither variant checks the index of a line against
the table.  The lines `0<TAB>A`, `300<TAB>A` and `-1<TAB>A` each take the branch that
stores `A` at `char_map[index - 1]`, that is at position -1, 299 and -2, outside the 256
slots (the model gives `none` for such a store). -/
theorem index_not_checked :
    (CLI.parse_line 1 example_file_index_0 = .assign 0 65 [] ∧
      CLI.parse_line 1 example_file_index_300 = .assign 300 65 [] ∧
      CLI.parse_line 1 example_file_index_neg = .assign (-1) 65 [] ∧
      CLI.load_char_map CLI.init (some example_file_index_0) = none ∧
      CLI.load_char_map CLI.init (some example_file_index_300) = none ∧
      CLI.load_char_map CLI.init (some example_file_index_neg) = none) ∧
    (GUI.parse_line 1 example_file_index_0 = .assign 0 [65] [] ∧
      GUI.parse_line 1 example_file_index_300 = .assign 300 [65] [] ∧
      GUI.parse_line 1 example_file_index_neg = .assign (-1) [65] [] ∧
      GUI.load_char_map GUI.init (some example_file_index_0) = none ∧
      GUI.load_char_map GUI.init (some example_file_index_300) = none ∧
      GUI.load_char_map GUI.init (some example_file_index_neg) = none) := by
  decide

/-! ## Facts about the size and the shape of the table after a load -/

theorem cli_index_line_num (ln : Nat) (buf : List Nat) :
    (CLI.parse_line ln buf).index = (CLI.parse_line 0 buf).index := by
  unfold CLI.parse_line
  simp only
  repeat' split
  all_goals rfl

theorem gui_index_line_num (ln : Nat) (buf : List Nat) :
    (GUI.parse_line ln buf).index = (GUI.parse_line 0 buf).index := by
  unfold GUI.parse_line
  simp only
  repeat' split
  all_goals rfl

theorem in_range_index {α : Type} (eff : LineEffect α) (j : Int)
    (h : eff.in_range = true) (hj : eff.index = some j) : 1 ≤ j ∧ j ≤ 256 := by
  cases eff with
  | skip d => simp [LineEffect.index] at hj
  | nothing => simp [LineEffect.index] at hj
  | undefined => simp [LineEffect.index] at hj
  | bump index d =>
    simp only [LineEffect.index, Option.some.injEq] at hj
    subst hj
    simpa [LineEffect.in_range] using h
  | assign index e ds =>
    simp only [LineEffect.index, Option.some.injEq] at hj
    subst hj
    simpa [LineEffect.in_range] using h

/-- One line of the text-menu variant leaves `char_map_size` at least what it was and
at most the larger of what it was and the index of the line. -/
theorem cli_apply_effect_size (st st1 : CLI.State) (eff : LineEffect Nat) (ds : List Diag)
    (h : CLI.apply_effect st eff = some (st1, ds)) :
    st.char_map_size ≤ st1.char_map_size ∧
      (st1.char_map_size = st.char_map_size ∨
        eff.index = some (st1.char_map_size : Int)) := by
  have hr : ∀ index : Int, st.char_map_size ≤ CLI.raise_size st.char_map_size index ∧
      (CLI.raise_size st.char_map_size index = st.char_map_size ∨
        index = (CLI.raise_size st.char_map_size index : Int)) := by
    intro index
    unfold CLI.raise_size
    split
    · exact ⟨by omega, Or.inr (by omega)⟩
    · exact ⟨le_refl _, Or.inl rfl⟩
  cases eff with
  | skip d =>
    simp only [CLI.apply_effect, Option.some.injEq, Prod.mk.injEq] at h
    rw [← h.1]; exact ⟨le_refl _, Or.inl rfl⟩
  | nothing =>
    simp only [CLI.apply_effect, Option.some.injEq, Prod.mk.injEq] at h
    rw [← h.1]; exact ⟨le_refl _, Or.inl rfl⟩
  | undefined => simp [CLI.apply_effect] at h
  | bump index d =>
    simp only [CLI.apply_effect, Option.some.injEq, Prod.mk.injEq] at h
    rw [← h.1]
    rcases hr index with ⟨h1, h2 | h2⟩
    · exact ⟨h1, Or.inl h2⟩
    · exact ⟨h1, Or.inr (by simp only [LineEffect.index]; rw [← h2])⟩
  | assign index e es =>
    simp only [CLI.apply_effect] at h
    split at h
    · simp only [Option.some.injEq, Prod.mk.injEq] at h
      rw [← h.1]
      rcases hr index with ⟨h1, h2 | h2⟩
      · exact ⟨h1, Or.inl h2⟩
      · exact ⟨h1, Or.inr (by simp only [LineEffect.index]; rw [← h2])⟩
    · simp at h

theorem gui_apply_effect_size (app app1 : GUI.AppData) (eff : LineEffect (List Nat))
    (ds : List Diag) (h : GUI.apply_effect app eff = some (app1, ds)) :
    app.char_map_size ≤ app1.char_map_size ∧
      (app1.char_map_size = app.char_map_size ∨
        eff.index = some (app1.char_map_size : Int)) := by
  have hr : ∀ index : Int, app.char_map_size ≤ GUI.raise_size app.char_map_size index ∧
      (GUI.raise_size app.char_map_size index = app.char_map_size ∨
        index = (GUI.raise_size app.char_map_size index : Int)) := by
    intro index
    unfold GUI.raise_size
    split
    · exact ⟨by omega, Or.inr (by omega)⟩
    · exact ⟨le_refl _, Or.inl rfl⟩
  cases eff with
  | skip d =>
    simp only [GUI.apply_effect, Option.some.injEq, Prod.mk.injEq] at h
    rw [← h.1]; exact ⟨le_refl _, Or.inl rfl⟩
  | nothing =>
    simp only [GUI.apply_effect, Option.some.injEq, Prod.mk.injEq] at h
    rw [← h.1]; exact ⟨le_refl _, Or.inl rfl⟩
  | undefined => simp [GUI.apply_effect] at h
  | bump index d =>
    simp only [GUI.apply_effect, Option.some.injEq, Prod.mk.injEq] at h
    rw [← h.1]
    rcases hr index with ⟨h1, h2 | h2⟩
    · exact ⟨h1, Or.inl h2⟩
    · exact ⟨h1, Or.inr (by simp only [LineEffect.index]; rw [← h2])⟩
  | assign index e es =>
    simp only [GUI.apply_effect] at h
    split at h
    · simp only [Option.some.injEq, Prod.mk.injEq] at h
      rw [← h.1]
      rcases hr index with ⟨h1, h2 | h2⟩
      · exact ⟨h1, Or.inl h2⟩
      · exact ⟨h1, Or.inr (by simp only [LineEffect.index]; rw [← h2])⟩
    · simp at h

/-- The read loop of the text-menu variant never lowers `char_map_size`, and leaves it
within any bound that the size before and the indices of the lines respect. -/
theorem cli_load_lines_size (m : Nat) (chunks : List (List Nat)) :
    ∀ (st : CLI.State) (ln : Nat) (st1 : CLI.State) (ds : List Diag),
      CLI.load_lines st ln chunks = some (st1, ds) →
      st.char_map_size ≤ st1.char_map_size ∧
        (st.char_map_size ≤ m →
          (∀ buf ∈ chunks, ∀ j, (CLI.parse_line 0 buf).index = some j → j ≤ (m : Int)) →
          st1.char_map_size ≤ m) := by
  induction chunks with
  | nil =>
    intro st ln st1 ds h
    simp only [CLI.load_lines, Option.some.injEq, Prod.mk.injEq] at h
    rw [← h.1]
    exact ⟨le_refl _, fun hm _ => hm⟩
  | cons buf rest ih =>
    intro st ln st1 ds h
    simp only [CLI.load_lines] at h
    split at h
    · cases h1 : CLI.apply_effect st (CLI.parse_line (ln + 1) buf) with
      | none => simp [h1] at h
      | some p =>
        obtain ⟨st2, ds2⟩ := p
        simp only [h1, Option.map_eq_some', Prod.mk.injEq, Prod.exists] at h
        obtain ⟨a, b, hab, rfl, -⟩ := h
        have hs := cli_apply_effect_size st st2 _ ds2 h1
        have hi := ih st2 (ln + 1) a b hab
        refine ⟨le_trans hs.1 hi.1, fun hm hall => ?_⟩
        apply hi.2
        · rcases hs.2 with h2 | h2
          · rw [h2]; exact hm
          · rw [cli_index_line_num] at h2
            have := hall buf (List.mem_cons_self _ _) _ h2
            exact_mod_cast this
        · exact fun b hb => hall b (List.mem_cons_of_mem _ hb)
    · simp only [Option.some.injEq, Prod.mk.injEq] at h
      rw [← h.1]
      exact ⟨le_refl _, fun hm _ => hm⟩

theorem gui_load_lines_size (m : Nat) (chunks : List (List Nat)) :
    ∀ (app : GUI.AppData) (ln : Nat) (app1 : GUI.AppData) (ds : List Diag),
      GUI.load_lines app ln chunks = some (app1, ds) →
      app.char_map_size ≤ app1.char_map_size ∧
        (app.char_map_size ≤ m →
          (∀ buf ∈ chunks, ∀ j, (GUI.parse_line 0 buf).index = some j → j ≤ (m : Int)) →
          app1.char_map_size ≤ m) := by
  induction chunks with
  | nil =>
    intro app ln app1 ds h
    simp only [GUI.load_lines, Option.some.injEq, Prod.mk.injEq] at h
    rw [← h.1]
    exact ⟨le_refl _, fun hm _ => hm⟩
  | cons buf rest ih =>
    intro app ln app1 ds h
    simp only [GUI.load_lines] at h
    cases h1 : GUI.apply_effect app (GUI.parse_line (ln + 1) buf) with
    | none => simp [h1] at h
    | some p =>
      obtain ⟨app2, ds2⟩ := p
      simp only [h1, Option.map_eq_some', Prod.mk.injEq, Prod.exists] at h
      obtain ⟨a, b, hab, rfl, -⟩ := h
      have hs := gui_apply_effect_size app app2 _ ds2 h1
      have hi := ih app2 (ln + 1) a b hab
      refine ⟨le_trans hs.1 hi.1, fun hm hall => ?_⟩
      apply hi.2
      · rcases hs.2 with h2 | h2
        · rw [h2]; exact hm
        · rw [gui_index_line_num] at h2
          have := hall buf (List.mem_cons_self _ _) _ h2
          exact_mod_cast this
      · exact fun b hb => hall b (List.mem_cons_of_mem _ hb)

/-- One line of the text-menu variant keeps the shape of the table: 256 slots, 0 from
`char_map_size` on. -/
theorem cli_apply_effect_shape (st st1 : CLI.State) (eff : LineEffect Nat) (ds : List Diag)
    (h : CLI.apply_effect st eff = some (st1, ds)) (hs : CLI.Shape st) : CLI.Shape st1 := by
  obtain ⟨hlen, hnull⟩ := hs
  cases eff with
  | skip d =>
    simp only [CLI.apply_effect, Option.some.injEq, Prod.mk.injEq] at h
    rw [← h.1]; exact ⟨hlen, hnull⟩
  | nothing =>
    simp only [CLI.apply_effect, Option.some.injEq, Prod.mk.injEq] at h
    rw [← h.1]; exact ⟨hlen, hnull⟩
  | undefined => simp [CLI.apply_effect] at h
  | bump index d =>
    simp only [CLI.apply_effect, Option.some.injEq, Prod.mk.injEq] at h
    rw [← h.1]
    refine ⟨hlen, fun i hi => hnull i ?_⟩
    have : st.char_map_size ≤ CLI.raise_size st.char_map_size index := by
      unfold CLI.raise_size; split <;> omega
    exact le_trans this hi
  | assign index e es =>
    simp only [CLI.apply_effect] at h
    split at h
    · rename_i hr
      simp only [Option.some.injEq, Prod.mk.injEq] at h
      rw [← h.1]
      refine ⟨by simpa using hlen, fun i hi => ?_⟩
      have hge : st.char_map_size ≤ CLI.raise_size st.char_map_size index ∧
          index ≤ (CLI.raise_size st.char_map_size index : Int) := by
        unfold CLI.raise_size; split <;> constructor <;> omega
      simp only at hi
      have hne : (index - 1).toNat ≠ i := by omega
      have := hnull i (le_trans hge.1 hi)
      show (st.char_map.set (index - 1).toNat e).getD i 0 = 0
      rw [List.getD_eq_getElem?_getD, List.getElem?_set_ne hne, ← List.getD_eq_getElem?_getD]
      exact this
    · simp at h

theorem cli_load_lines_shape (chunks : List (List Nat)) :
    ∀ (st : CLI.State) (ln : Nat) (st1 : CLI.State) (ds : List Diag),
      CLI.load_lines st ln chunks = some (st1, ds) → CLI.Shape st → CLI.Shape st1 := by
  induction chunks with
  | nil =>
    intro st ln st1 ds h hs
    simp only [CLI.load_lines, Option.some.injEq, Prod.mk.injEq] at h
    rw [← h.1]; exact hs
  | cons buf rest ih =>
    intro st ln st1 ds h hs
    simp only [CLI.load_lines] at h
    split at h
    · cases h1 : CLI.apply_effect st (CLI.parse_line (ln + 1) buf) with
      | none => simp [h1] at h
      | some p =>
        obtain ⟨st2, ds2⟩ := p
        simp only [h1, Option.map_eq_some', Prod.mk.injEq, Prod.exists] at h
        obtain ⟨a, b, hab, rfl, -⟩ := h
        exact ih st2 (ln + 1) a b hab (cli_apply_effect_shape st st2 _ ds2 h1 hs)
    · simp only [Option.some.injEq, Prod.mk.injEq] at h
      rw [← h.1]; exact hs

theorem cli_shape_reset (b : Bool) :
    CLI.Shape ⟨List.replicate CLI.MAX_CHAR_MAP 0, 0, b⟩ := by
  refine ⟨by simp, fun i _ => ?_⟩
  simp only [List.getD_eq_getElem?_getD, List.getElem?_replicate]
  split <;> rfl

/-- A load of the text-menu variant that opens its file leaves the shape `Shape`. -/
theorem cli_load_char_map_shape (st st1 : CLI.State) (file : List Nat) (ds : List Diag)
    (h : CLI.load_char_map st (some file) = some (st1, ds)) : CLI.Shape st1 := by
  simp only [CLI.load_char_map, Option.map_eq_some', Prod.mk.injEq, Prod.exists] at h
  obtain ⟨a, b, hab, rfl, -⟩ := h
  have ha := cli_load_lines_shape _ _ _ _ _ hab (cli_shape_reset st.is_map_loaded)
  exact ⟨ha.1, ha.2⟩

/-- A load of the text-menu variant of a file whose indices lie in `1..256` leaves
`char_map_size` at most 256. -/
theorem cli_load_char_map_size (st st1 : CLI.State) (file : List Nat) (ds : List Diag)
    (h : CLI.load_char_map st (some file) = some (st1, ds))
    (hr : CLI.indices_in_range file) : st1.char_map_size ≤ 256 := by
  simp only [CLI.load_char_map, Option.map_eq_some', Prod.mk.injEq, Prod.exists] at h
  obtain ⟨a, b, hab, rfl, -⟩ := h
  exact (cli_load_lines_size 256 _ _ _ _ _ hab).2 (Nat.zero_le _)
    (fun buf hb j hj => (in_range_index _ j (hr buf hb) hj).2)

theorem gui_load_char_map_size (app app1 : GUI.AppData) (file : List Nat) (ds : List Diag)
    (h : GUI.load_char_map app (some file) = some (app1, ds))
    (hr : GUI.indices_in_range file) : app1.char_map_size ≤ 256 := by
  simp only [GUI.load_char_map, Option.map_eq_some', Prod.mk.injEq, Prod.exists] at h
  obtain ⟨a, b, hab, rfl, -⟩ := h
  exact (gui_load_lines_size 256 _ _ _ _ _ hab).2 (Nat.zero_le _)
    (fun buf hb j hj => (in_range_index _ j (hr buf hb) hj).2)

/-- C27: in both variants, after every load of a mapping file whose indices lie in
`1..256` (from any state of the text-menu variant; from any state of the GTK variant
that satisfies `Inv`), the load ends with a table of 256 slots whose `char_map_size` is
at most 256 and in which every slot at or beyond `char_map_size` is empty: no assigned
entry lies beyond the size.  So the range check `t <= char_map_size` of decode hides no
assigned entry, and the reset loop of the next GTK load clears the whole table. -/
theorem assigned_entries_within_size (st : CLI.State) (app : GUI.AppData) (file : List Nat) :
    (CLI.indices_in_range file →
      ∃ st1 ds, CLI.load_char_map st (some file) = some (st1, ds) ∧ CLI.WF st1 ∧
        (∀ i, st1.char_map_size ≤ i → st1.char_map.getD i 0 = 0) ∧
        (∀ t : Int, t > st1.char_map_size → CLI.decode_emit st1 t = [])) ∧
    (GUI.Inv app → GUI.indices_in_range file →
      ∃ app1 ds, GUI.load_char_map app (some file) = some (app1, ds) ∧ GUI.WF app1 ∧
        (∀ i, app1.char_map_size ≤ i → app1.char_map.getD i none = none) ∧
        (∀ t : Int, t > app1.char_map_size → GUI.decode_emit app1 t = []) ∧
        GUI.reset app1.char_map_size app1.char_map = List.replicate GUI.MAX_CHAR_MAP none) := by
  constructor
  · intro hr
    obtain ⟨⟨a, ds⟩, ha⟩ := cli_load_lines_some (Libc.fgets_chunks CLI.MAX_LINE_LENGTH file [])
      ⟨List.replicate CLI.MAX_CHAR_MAP 0, 0, st.is_map_loaded⟩ 0 hr
    have hload : CLI.load_char_map st (some file)
        = some ({ a with is_map_loaded := true }, ds) := by
      simp only [CLI.load_char_map]
      rw [ha]
      rfl
    have hshape := cli_load_char_map_shape st _ file ds hload
    have hsize := cli_load_char_map_size st _ file ds hload hr
    refine ⟨_, ds, hload, ⟨hshape.1, hsize⟩, hshape.2, fun t ht => ?_⟩
    unfold CLI.decode_emit
    have h1 : ¬ (t > 0 ∧ t ≤ ((a.char_map_size : Nat) : Int)) := by
      intro hc
      have : t > (a.char_map_size : Int) := ht
      omega
    have h2 : t ≠ 0 := by
      have : t > (a.char_map_size : Int) := ht
      omega
    simp only [h1, h2, if_false]
  · intro hinv hr
    obtain ⟨⟨a, ds⟩, ha⟩ := gui_load_lines_some (Libc.fgets_chunks GUI.MAX_LINE_LENGTH file [])
      ⟨GUI.reset app.char_map_size app.char_map, 0, app.is_map_loaded⟩ 0 hr
    have hload : GUI.load_char_map app (some file)
        = some ({ a with is_map_loaded := true }, ds) := by
      simp only [GUI.load_char_map]
      rw [ha]
      rfl
    have hshape := GUI.load_char_map_shape app _ file ds hload hinv.2
    have hsize := gui_load_char_map_size app _ file ds hload hr
    refine ⟨_, ds, hload, ⟨hshape.1, hsize⟩, hshape.2, fun t ht => ?_,
      gui_reset_of_shape _ hshape⟩
    unfold GUI.decode_emit
    have h1 : ¬ (t > 0 ∧ t ≤ ((a.char_map_size : Nat) : Int) ∧
        a.char_map.getD (t - 1).toNat none ≠ none) := by
      intro hc
      have : t > (a.char_map_size : Int) := ht
      omega
    have h2 : t ≠ 0 := by
      have : t > (a.char_map_size : Int) := ht
      omega
    simp only [h1, h2, if_false]

/-- Witness for C27: `example_file` loaded over the tables that `example_file_gap` left
(`A`, nothing, `B`; size 3): the new table has `A`, `B`, nothing, `A` and size 4. -/
theorem assigned_entries_within_size_witness :
    (CLI.indices_in_range example_file ∧
      ∃ st1 ds, CLI.load_char_map CLI.example_state (some example_file) = some (st1, ds) ∧
        CLI.WF st1 ∧ (∀ i, st1.char_map_size ≤ i → st1.char_map.getD i 0 = 0) ∧
        (∀ t : Int, t > st1.char_map_size → CLI.decode_emit st1 t = [])) ∧
    (GUI.indices_in_range example_file ∧
      ∃ app1 ds, GUI.load_char_map GUI.example_app_gap (some example_file) = some (app1, ds) ∧
        GUI.WF app1 ∧ (∀ i, app1.char_map_size ≤ i → app1.char_map.getD i none = none) ∧
        (∀ t : Int, t > app1.char_map_size → GUI.decode_emit app1 t = []) ∧
        GUI.reset app1.char_map_size app1.char_map
          = List.replicate GUI.MAX_CHAR_MAP none) :=
  ⟨⟨by decide,
      (assigned_entries_within_size CLI.example_state GUI.example_app_gap example_file).1
        (by decide)⟩,
    ⟨by decide,
      (assigned_entries_within_size CLI.example_state GUI.example_app_gap example_file).2
        (GUI.load_char_map_inv GUI.init GUI.example_app_gap example_file_gap [] (by decide)
          GUI.inv_init (by decide))
        (by decide)⟩⟩

/-! ## The read loop over a file cut in two -/

theorem cli_store_line_num (ln : Nat) (buf : List Nat) :
    (CLI.parse_line ln buf).store = (CLI.parse_line 0 buf).store := by
  unfold CLI.parse_line
  simp only
  repeat' split
  all_goals rfl

theorem gui_store_line_num (ln : Nat) (buf : List Nat) :
    (GUI.parse_line ln buf).store = (GUI.parse_line 0 buf).store := by
  unfold GUI.parse_line
  simp only
  repeat' split
  all_goals rfl

theorem store_eq_some {α : Type} (eff : LineEffect α) (i : Int) (c : α)
    (h : eff.store = some (i, c)) : ∃ ds, eff = .assign i c ds := by
  cases eff with
  | assign index e ds =>
    simp only [LineEffect.store, Option.some.injEq, Prod.mk.injEq] at h
    exact ⟨ds, by rw [h.1, h.2]⟩
  | skip d => simp [LineEffect.store] at h
  | bump index d => simp [LineEffect.store] at h
  | nothing => simp [LineEffect.store] at h
  | undefined => simp [LineEffect.store] at h

theorem index_of_target {α : Type} (eff : LineEffect α) (i : Int)
    (h : eff.target = some i) : eff.index = some i := by
  cases eff with
  | assign index e ds => simpa [LineEffect.target, LineEffect.index] using h
  | skip d => simp [LineEffect.target] at h
  | bump index d => simp [LineEffect.target] at h
  | nothing => simp [LineEffect.target] at h
  | undefined => simp [LineEffect.target] at h

theorem index_below_lt {α : Type} (eff : LineEffect α) (m j : Int)
    (h : eff.index_below m = true) (hj : eff.index = some j) : j < m := by
  unfold LineEffect.index_below at h
  rw [hj] at h
  simpa using h

/-- Once `char_map_size` has reached 256 the read loop of the text-menu variant reads no
further line. -/
theorem cli_load_lines_full (st : CLI.State) (ln : Nat) (chunks : List (List Nat))
    (h : CLI.MAX_CHAR_MAP ≤ st.char_map_size) : CLI.load_lines st ln chunks = some (st, []) := by
  cases chunks with
  | nil => rfl
  | cons buf rest =>
    have hg : ¬ st.char_map_size < CLI.MAX_CHAR_MAP := by omega
    simp only [CLI.load_lines, hg, if_false]

/-- The read loop of the text-menu variant over `pre ++ rest` is the loop over `pre`
followed by the loop over `rest`. -/
theorem cli_load_lines_append (pre : List (List Nat)) :
    ∀ (st : CLI.State) (ln : Nat) (rest : List (List Nat)) (st1 : CLI.State) (ds : List Diag),
      CLI.load_lines st ln (pre ++ rest) = some (st1, ds) →
      ∃ mid ds1 ds2, CLI.load_lines st ln pre = some (mid, ds1) ∧
        CLI.load_lines mid (ln + pre.length) rest = some (st1, ds2) ∧ ds = ds1 ++ ds2 := by
  induction pre with
  | nil =>
    intro st ln rest st1 ds h
    exact ⟨st, [], ds, rfl, by simpa using h, rfl⟩
  | cons buf pre ih =>
    intro st ln rest st1 ds h
    rw [List.cons_append] at h
    by_cases hg : st.char_map_size < CLI.MAX_CHAR_MAP
    · simp only [CLI.load_lines, hg, if_true] at h ⊢
      cases h1 : CLI.apply_effect st (CLI.parse_line (ln + 1) buf) with
      | none => simp [h1] at h
      | some p =>
        obtain ⟨st2, d0⟩ := p
        simp only [h1, Option.map_eq_some', Prod.mk.injEq, Prod.exists] at h
        obtain ⟨a, b, hab, rfl, rfl⟩ := h
        obtain ⟨mid, ds1, ds2, hp, hr, hd⟩ := ih st2 (ln + 1) rest a b hab
        refine ⟨mid, d0 ++ ds1, ds2, ?_, ?_, ?_⟩
        · simp only [hp]; rfl
        · have e : ln + (buf :: pre).length = ln + 1 + pre.length := by
            simp only [List.length_cons]; omega
          rw [e]; exact hr
        · rw [hd, List.append_assoc]
    · have hfull : CLI.MAX_CHAR_MAP ≤ st.char_map_size := by omega
      rw [cli_load_lines_full st ln _ hfull] at h
      simp only [Option.some.injEq, Prod.mk.injEq] at h
      obtain ⟨rfl, rfl⟩ := h
      exact ⟨st, [], [], cli_load_lines_full st ln _ hfull,
        cli_load_lines_full st _ _ hfull, rfl⟩

/-- The read loop of the GTK variant over `pre ++ rest` is the loop over `pre` followed
by the loop over `rest`. -/
theorem gui_load_lines_append (pre : List (List Nat)) :
    ∀ (app : GUI.AppData) (ln : Nat) (rest : List (List Nat)) (app1 : GUI.AppData)
      (ds : List Diag),
      GUI.load_lines app ln (pre ++ rest) = some (app1, ds) →
      ∃ mid ds1 ds2, GUI.load_lines app ln pre = some (mid, ds1) ∧
        GUI.load_lines mid (ln + pre.length) rest = some (app1, ds2) ∧ ds = ds1 ++ ds2 := by
  induction pre with
  | nil =>
    intro app ln rest app1 ds h
    exact ⟨app, [], ds, rfl, by simpa using h, rfl⟩
  | cons buf pre ih =>
    intro app ln rest app1 ds h
    rw [List.cons_append] at h
    simp only [GUI.load_lines] at h ⊢
    cases h1 : GUI.apply_effect app (GUI.parse_line (ln + 1) buf) with
    | none => simp [h1] at h
    | some p =>
      obtain ⟨app2, d0⟩ := p
      simp only [h1, Option.map_eq_some', Prod.mk.injEq, Prod.exists] at h
      obtain ⟨a, b, hab, rfl, rfl⟩ := h
      obtain ⟨mid, ds1, ds2, hp, hr, hd⟩ := ih app2 (ln + 1) rest a b hab
      refine ⟨mid, d0 ++ ds1, ds2, ?_, ?_, ?_⟩
      · simp only [hp]; rfl
      · have e : ln + (buf :: pre).length = ln + 1 + pre.length := by
          simp only [List.length_cons]; omega
        rw [e]; exact hr
      · rw [hd, List.append_assoc]

/-- In the text-menu variant, a line that stores `c` at index `i`, read after lines
whose indices are all below 256 and followed by no line that stores at `i`, leaves `c`
at index `i` at the end of the read loop. -/
theorem cli_last_store (st : CLI.State) (hs : CLI.Shape st) (hsz : st.char_map_size ≤ 255)
    (pre post : List (List Nat)) (buf : List Nat) (i c ln : Nat) (st1 : CLI.State)
    (ds : List Diag) (hi1 : 1 ≤ i) (hi2 : i ≤ 256)
    (hstore : (CLI.parse_line 0 buf).store = some ((i : Int), c))
    (hpre : ∀ b ∈ pre, (CLI.parse_line 0 b).index_below 256 = true)
    (hpost : ∀ b ∈ post, (CLI.parse_line 0 b).target ≠ some (i : Int))
    (hload : CLI.load_lines st ln (pre ++ buf :: post) = some (st1, ds)) :
    CLI.holds st1 i c := by
  obtain ⟨mid, ds1, ds2, hp, hr, -⟩ := cli_load_lines_append pre st ln _ st1 ds hload
  have hmid := cli_load_lines_shape pre st ln mid ds1 hp hs
  have hmsz : mid.char_map_size ≤ 255 :=
    (cli_load_lines_size 255 pre st ln mid ds1 hp).2 hsz (fun b hb j hj => by
      have := index_below_lt _ 256 j (hpre b hb) hj
      omega)
  have hg : mid.char_map_size < CLI.MAX_CHAR_MAP := by
    simp only [CLI.MAX_CHAR_MAP]; omega
  obtain ⟨es, hes⟩ := store_eq_some _ _ _
    ((cli_store_line_num (ln + pre.length + 1) buf).trans hstore)
  have hap : CLI.apply_effect mid (CLI.parse_line (ln + pre.length + 1) buf)
      = some (CLI.stored mid (i : Int) c, es) := by
    rw [hes]; exact cli_apply_assign mid i c es hi1 hi2
  rw [cli_load_lines_cons mid _ _ buf post es hg hap] at hr
  simp only [Option.map_eq_some', Prod.mk.injEq, Prod.exists] at hr
  obtain ⟨a, b, hab, rfl, -⟩ := hr
  have hh := cli_holds_stored mid i c hi1 hi2 hmid.1
  have hno : ∀ b ∈ post, (CLI.parse_line 0 b).target ≠ some (((i - 1 : Nat) : Int) + 1) := by
    intro b hb hc
    apply hpost b hb
    rw [hc]
    congr 1
    omega
  have hother := cli_load_lines_other (i - 1) post _ _ _ _ hab hno
  have hsize := (cli_load_lines_size 256 post _ _ _ _ hab).1
  exact ⟨hi1, le_trans hh.2.1 hsize, by rw [hother]; exact hh.2.2⟩

/-- In the GTK variant, a line that stores the string `e` at index `i`, followed by no
line that stores at `i`, leaves `e` at index `i` at the end of the read loop. -/
theorem gui_last_store (app : GUI.AppData) (hs : GUI.Shape app)
    (pre post : List (List Nat)) (buf : List Nat) (i : Nat) (e : List Nat) (ln : Nat)
    (app1 : GUI.AppData) (ds : List Diag) (hi1 : 1 ≤ i) (hi2 : i ≤ 256)
    (hstore : (GUI.parse_line 0 buf).store = some ((i : Int), e))
    (hpost : ∀ b ∈ post, (GUI.parse_line 0 b).target ≠ some (i : Int))
    (hload : GUI.load_lines app ln (pre ++ buf :: post) = some (app1, ds)) :
    i ≤ app1.char_map_size ∧ app1.char_map.getD (i - 1) none = some e := by
  obtain ⟨mid, ds1, ds2, hp, hr, -⟩ := gui_load_lines_append pre app ln _ app1 ds hload
  have hmid := GUI.load_lines_shape pre app ln mid ds1 hp hs
  obtain ⟨es, hes⟩ := store_eq_some _ _ _
    ((gui_store_line_num (ln + pre.length + 1) buf).trans hstore)
  have hap : GUI.apply_effect mid (GUI.parse_line (ln + pre.length + 1) buf)
      = some (GUI.stored mid (i : Int) e, es) := by
    rw [hes]; exact gui_apply_assign mid i e es hi1 hi2
  rw [gui_load_lines_cons mid _ _ buf post es hap] at hr
  simp only [Option.map_eq_some', Prod.mk.injEq, Prod.exists] at hr
  obtain ⟨a, b, hab, rfl, -⟩ := hr
  have hno : ∀ b ∈ post, (GUI.parse_line 0 b).target ≠ some (((i - 1 : Nat) : Int) + 1) := by
    intro b hb hc
    apply hpost b hb
    rw [hc]
    congr 1
    omega
  have hother := GUI.load_lines_other (i - 1) post _ _ _ _ hab hno
  have hsize := (gui_load_lines_size 256 post _ _ _ _ hab).1
  have hsz : i ≤ (GUI.stored mid (i : Int) e).char_map_size := by
    simp only [GUI.stored, GUI.raise_size]
    split <;> omega
  have hget : (GUI.stored mid (i : Int) e).char_map.getD (i - 1) none = some e := by
    have hlt : i - 1 < mid.char_map.length := by
      rw [hmid.1]; simp only [GUI.MAX_CHAR_MAP]; omega
    have e1 : ((i : Int) - 1).toNat = i - 1 := by omega
    show (mid.char_map.set ((i : Int) - 1).toNat (some e)).getD (i - 1) none = some e
    rw [e1, List.getD_eq_getElem?_getD, List.getElem?_set_self hlt]
    rfl
  exact ⟨le_trans hsz hsize, by rw [hother]; exact hget⟩

/-! ## Several lines for one index, and the guard of the read loop of the text-menu variant -/

/-- C21 (the claim as stated fails): the file `256<TAB>A`, `256<TAB>B` has two well-formed
lines for the index 256.  The text-menu variant stops reading once `char_map_size` is 256,
so the table holds `A`, the character of the first line, at index 256, and not `B`; the
GTK variant holds `B`. -/
theorem last_write_counterexample :
    Libc.fgets_chunks 1024 example_file_twice_256 []
        = [[50, 53, 54, 9, 65, 10], [50, 53, 54, 9, 66, 10]] ∧
      (CLI.parse_line 1 [50, 53, 54, 9, 65, 10]).store = some (256, 65) ∧
      (CLI.parse_line 2 [50, 53, 54, 9, 66, 10]).store = some (256, 66) ∧
      CLI.load_char_map CLI.init (some example_file_twice_256)
        = some (⟨List.replicate 255 0 ++ [65], 256, true⟩, []) ∧
      CLI.holds ⟨List.replicate 255 0 ++ [65], 256, true⟩ 256 65 ∧
      ¬ CLI.holds ⟨List.replicate 255 0 ++ [65], 256, true⟩ 256 66 ∧
      GUI.load_char_map GUI.init (some example_file_twice_256)
        = some (⟨List.replicate 255 none ++ [some [66]], 256, true⟩, []) := by
  decide

/-- C21 (amended): last write per index wins among the lines that are read.  Let the
buffers of the mapping file be `pre ++ buf :: post`, where `buf` stores at the index `i`
in `1..256` and no buffer of `post` stores at `i` (so `buf` is the last line for `i`,
whatever lines for `i` there are in `pre`).  In the GTK variant, after a load from a
state that satisfies `Inv`, index `i` holds the entry of `buf`.  In the text-menu variant
index `i` holds the byte of `buf` provided every line before `buf` has an index below
256: the read loop of that variant ends once `char_map_size` has reached 256. -/
theorem last_write_wins (st : CLI.State) (app : GUI.AppData) (file : List Nat)
    (pre post : List (List Nat)) (buf : List Nat) (i : Nat) (hi : 1 ≤ i ∧ i ≤ 256)
    (hfile : Libc.fgets_chunks 1024 file [] = pre ++ buf :: post) :
    (∀ c st1 ds, (CLI.parse_line 0 buf).store = some ((i : Int), c) →
      (∀ b ∈ post, (CLI.parse_line 0 b).target ≠ some (i : Int)) →
      (∀ b ∈ pre, (CLI.parse_line 0 b).index_below 256 = true) →
      CLI.load_char_map st (some file) = some (st1, ds) → CLI.holds st1 i c) ∧
    (∀ e app1 ds, (GUI.parse_line 0 buf).store = some ((i : Int), e) →
      (∀ b ∈ post, (GUI.parse_line 0 b).target ≠ some (i : Int)) →
      GUI.Inv app → GUI.load_char_map app (some file) = some (app1, ds) →
      i ≤ app1.char_map_size ∧ app1.char_map.getD (i - 1) none = some e) := by
  constructor
  · intro c st1 ds hstore hpost hpre hload
    simp only [CLI.load_char_map, Option.map_eq_some', Prod.mk.injEq, Prod.exists] at hload
    obtain ⟨a, b, hab, rfl, -⟩ := hload
    rw [show Libc.fgets_chunks CLI.MAX_LINE_LENGTH file [] = pre ++ buf :: post from hfile]
      at hab
    have h := cli_last_store _ (cli_shape_reset st.is_map_loaded) (Nat.zero_le _) pre post buf
      i c 0 a b hi.1 hi.2 hstore hpre hpost hab
    exact ⟨h.1, h.2.1, h.2.2⟩
  · intro e app1 ds hstore hpost hinv hload
    simp only [GUI.load_char_map, Option.map_eq_some', Prod.mk.injEq, Prod.exists] at hload
    obtain ⟨a, b, hab, rfl, -⟩ := hload
    rw [show Libc.fgets_chunks GUI.MAX_LINE_LENGTH file [] = pre ++ buf :: post from hfile]
      at hab
    have h0 : GUI.Shape { app with char_map := GUI.reset app.char_map_size app.char_map,
                                   char_map_size := 0 } :=
      ⟨by simpa [GUI.length_reset] using hinv.2.1, fun j _ => GUI.reset_getD _ _ hinv.2.2 j⟩
    have h := gui_last_store _ h0 pre post buf i e 0 a b hi.1 hi.2 hstore hpost hab
    exact ⟨h.1, h.2⟩

/-- Witness for C21: the file `1<TAB>A`, `1<TAB>B` leaves `B` at index 1 in both
variants. -/
theorem last_write_wins_witness :
    (1 ≤ 1 ∧ 1 ≤ 256) ∧
      Libc.fgets_chunks 1024 example_file_twice_1 []
        = [[49, 9, 65, 10]] ++ [49, 9, 66, 10] :: [] ∧
      CLI.load_char_map CLI.init (some example_file_twice_1)
        = some (⟨66 :: List.replicate 255 0, 1, true⟩, []) ∧
      CLI.holds ⟨66 :: List.replicate 255 0, 1, true⟩ 1 66 ∧
      GUI.load_char_map GUI.init (some example_file_twice_1)
        = some (⟨some [66] :: List.replicate 255 none, 1, true⟩, []) ∧
      (1 ≤ (⟨some [66] :: List.replicate 255 none, 1, true⟩ : GUI.AppData).char_map_size ∧
        (⟨some [66] :: List.replicate 255 none, 1, true⟩ : GUI.AppData).char_map.getD (1 - 1)
          none = some [66]) :=
  ⟨by decide, by decide, by decide,
    (last_write_wins CLI.init GUI.init example_file_twice_1 [[49, 9, 65, 10]] []
      [49, 9, 66, 10] 1 (by decide) (by decide)).1 66 _ [] (by decide) (by decide)
      (by decide) (by decide),
    by decide,
    (last_write_wins CLI.init GUI.init example_file_twice_1 [[49, 9, 65, 10]] []
      [49, 9, 66, 10] 1 (by decide) (by decide)).2 [66] _ [] (by decide) (by decide)
      GUI.inv_init (by decide)⟩

/-- C22 (the claim as stated fails): in the file `256<TAB>A`, `1<TAB>B` the well-formed
line `1<TAB>B` is preceded by a line with the index 256.  The text-menu variant does not
read it: the read loop `while (fgets(...) && char_map_size < MAX_CHAR_MAP)` ends after the
first line, index 1 stays empty, although no later line stores at index 1. -/
theorem CLI.line_after_256_not_read :
    Libc.fgets_chunks 1024 example_file_256_first []
        = [[50, 53, 54, 9, 65, 10], mapping_line 1 [66]] ∧
      spec_char [66] = some 66 ∧
      CLI.load_char_map CLI.init (some example_file_256_first)
        = some (⟨List.replicate 255 0 ++ [65], 256, true⟩, []) ∧
      ¬ CLI.holds ⟨List.replicate 255 0 ++ [65], 256, true⟩ 1 66 ∧
      (⟨List.replicate 255 0 ++ [65], 256, true⟩ : CLI.State).char_map.getD 0 0 = 0 := by
  decide

/-- C22 (amended): in the text-menu variant a well-formed line `<i><TAB><c>` with `i` in
`1..256` takes effect when every line before it has an index below 256.  Let the buffers
of the mapping file be `pre ++ <i><TAB><rep> :: post` with `rep` standing for the byte `b`
and every line of `pre` using no index or one below 256.  Then after a load from any
state `char_map_size` is at least `i`, and index `i` holds `b` unless a line of `post`
stores at `i`. -/
theorem CLI.line_takes_effect (st st1 : CLI.State) (file : List Nat)
    (pre post : List (List Nat)) (i b : Nat) (rep : List Nat) (ds : List Diag)
    (hi : 1 ≤ i ∧ i ≤ 256) (hrep : spec_char rep = some b)
    (h0 : ∀ c ∈ rep, c ≠ 0) (h10 : ∀ c ∈ rep, c ≠ 10)
    (hfile : Libc.fgets_chunks 1024 file [] = pre ++ mapping_line i rep :: post)
    (hpre : ∀ buf ∈ pre, (CLI.parse_line 0 buf).index_below 256 = true)
    (hload : CLI.load_char_map st (some file) = some (st1, ds)) :
    i ≤ st1.char_map_size ∧
      ((∀ buf ∈ post, (CLI.parse_line 0 buf).target ≠ some (i : Int)) → CLI.holds st1 i b) := by
  simp only [CLI.load_char_map, Option.map_eq_some', Prod.mk.injEq, Prod.exists] at hload
  obtain ⟨a, d, hab, rfl, -⟩ := hload
  rw [show Libc.fgets_chunks CLI.MAX_LINE_LENGTH file [] = pre ++ mapping_line i rep :: post
    from hfile] at hab
  have hstore : (CLI.parse_line 0 (mapping_line i rep)).store = some ((i : Int), b) := by
    rw [cli_parse_spec_char 0 i rep b (fits_int_of_le i hi.2) hrep h0 h10]
    rfl
  constructor
  · obtain ⟨mid, ds1, ds2, hp, hr, -⟩ := cli_load_lines_append pre _ 0 _ a d hab
    have hmsz : mid.char_map_size ≤ 255 :=
      (cli_load_lines_size 255 pre _ 0 mid ds1 hp).2 (Nat.zero_le _) (fun buf hb j hj => by
        have := index_below_lt _ 256 j (hpre buf hb) hj
        omega)
    have hg : mid.char_map_size < CLI.MAX_CHAR_MAP := by
      simp only [CLI.MAX_CHAR_MAP]; omega
    have hap : CLI.apply_effect mid (CLI.parse_line (0 + pre.length + 1) (mapping_line i rep))
        = some (CLI.stored mid (i : Int) b, []) := by
      rw [cli_parse_spec_char _ i rep b (fits_int_of_le i hi.2) hrep h0 h10]
      exact cli_apply_assign mid i b [] hi.1 hi.2
    rw [cli_load_lines_cons mid _ _ _ post [] hg hap] at hr
    simp only [Option.map_eq_some', Prod.mk.injEq, Prod.exists] at hr
    obtain ⟨a2, b2, hab2, rfl, -⟩ := hr
    have hsize := (cli_load_lines_size 256 post _ _ _ _ hab2).1
    have hsz : i ≤ (CLI.stored mid (i : Int) b).char_map_size := by
      simp only [CLI.stored, CLI.raise_size]
      split <;> omega
    exact le_trans hsz hsize
  · intro hpost
    have h := cli_last_store _ (cli_shape_reset st.is_map_loaded) (Nat.zero_le _) pre post _
      i b 0 a d hi.1 hi.2 hstore hpre hpost hab
    exact ⟨h.1, h.2.1, h.2.2⟩

/-- Witness for C22: the line `2<TAB>B` of the file `1<TAB>A`, `2<TAB>B`, `4<TAB>A`. -/
theorem CLI.line_takes_effect_witness :
    (1 ≤ 2 ∧ 2 ≤ 256) ∧ spec_char [66] = some 66 ∧
      Libc.fgets_chunks 1024 example_file []
        = [[49, 9, 65, 10]] ++ mapping_line 2 [66] :: [[52, 9, 65, 10]] ∧
      CLI.load_char_map CLI.init (some example_file) = some (CLI.example_state, []) ∧
      2 ≤ CLI.example_state.char_map_size ∧ CLI.holds CLI.example_state 2 66 :=
  have h := CLI.line_takes_effect CLI.init CLI.example_state example_file [[49, 9, 65, 10]]
    [[52, 9, 65, 10]] 2 66 [66] [] (by decide) (by decide) (by decide) (by decide) (by decide)
    (by decide) (by decide)
  ⟨by decide, by decide, by decide, by decide, h.1, h.2 (by decide)⟩

/-! ## The size after a line with an unknown escape -/

theorem cli_parse_unknown_escape (ln : Nat) (k : Int) (x : Nat) (hfit : Libc.fits_int k = true)
    (hx : escape_byte x = none) (hx0 : x ≠ 0) (hx10 : x ≠ 10) :
    CLI.parse_line ln (mapping_line k [92, x]) = .bump k (.unknown_escape [92, x]) := by
  have h0 : ∀ c ∈ [92, x], c ≠ 0 := by
    intro c hc
    simp only [List.mem_cons, List.mem_singleton, List.not_mem_nil, or_false] at hc
    rcases hc with rfl | rfl
    · decide
    · exact hx0
  have h10 : ∀ c ∈ [92, x], c ≠ 10 := by
    intro c hc
    simp only [List.mem_cons, List.mem_singleton, List.not_mem_nil, or_false] at hc
    rcases hc with rfl | rfl
    · decide
    · exact hx10
  rw [cli_parse_mapping_line ln k [92, x] h0 h10 hfit]
  simp [str_Space, str_Tab, hx]

theorem gui_parse_unknown_escape (ln : Nat) (k : Int) (x : Nat) (hfit : Libc.fits_int k = true)
    (hx : escape_byte x = none) (hx0 : x ≠ 0) :
    GUI.parse_line ln (mapping_line k [92, x]) = .bump k (.unknown_escape [92, x]) := by
  have h0 : ∀ c ∈ [92, x], c ≠ 0 := by
    intro c hc
    simp only [List.mem_cons, List.mem_singleton, List.not_mem_nil, or_false] at hc
    rcases hc with rfl | rfl
    · decide
    · exact hx0
  rw [gui_parse_mapping_line ln k [92, x] h0 hfit]
  simp [str_Space, str_Tab, hx]

/-- The read loop of the text-menu variant over a file whose line with the largest index
`k` has an unknown escape ends with `char_map_size = k`. -/
theorem cli_size_top_escape (st : CLI.State) (hsz : st.char_map_size = 0)
    (pre post : List (List Nat)) (k x ln : Nat) (st1 : CLI.State) (ds : List Diag)
    (hk1 : 1 ≤ k) (hk2 : k ≤ 256) (hx : escape_byte x = none) (hx0 : x ≠ 0) (hx10 : x ≠ 10)
    (hothers : ∀ b ∈ pre ++ post, (CLI.parse_line 0 b).index_below k = true)
    (hload : CLI.load_lines st ln (pre ++ mapping_line k [92, x] :: post) = some (st1, ds)) :
    st1.char_map_size = k := by
  obtain ⟨mid, ds1, ds2, hp, hr, -⟩ := cli_load_lines_append pre st ln _ st1 ds hload
  have hmsz : mid.char_map_size ≤ k - 1 :=
    (cli_load_lines_size (k - 1) pre st ln mid ds1 hp).2 (by omega) (fun b hb j hj => by
      have := index_below_lt _ k j (hothers b (List.mem_append_left _ hb)) hj
      omega)
  have hg : mid.char_map_size < CLI.MAX_CHAR_MAP := by
    simp only [CLI.MAX_CHAR_MAP]; omega
  have hap : CLI.apply_effect mid (CLI.parse_line (ln + pre.length + 1) (mapping_line k [92, x]))
      = some (CLI.raised mid (k : Int), [Diag.unknown_escape [92, x]]) := by
    rw [cli_parse_unknown_escape _ k x (fits_int_of_le k hk2) hx hx0 hx10]
    rfl
  rw [cli_load_lines_cons mid _ _ _ post _ hg hap] at hr
  simp only [Option.map_eq_some', Prod.mk.injEq, Prod.exists] at hr
  obtain ⟨a, b, hab, rfl, -⟩ := hr
  have hraise : (CLI.raised mid (k : Int)).char_map_size = k := by
    simp only [CLI.raised, CLI.raise_size]
    split <;> omega
  have hsize := cli_load_lines_size k post _ _ _ _ hab
  have h1 := hsize.1
  have h2 := hsize.2 (by omega) (fun b hb j hj => by
    have := index_below_lt _ k j (hothers b (List.mem_append_right _ hb)) hj
    omega)
  omega

/-- The read loop of the GTK variant over a file whose line with the largest index `k`
has an unknown escape ends with `char_map_size = k`. -/
theorem gui_size_top_escape (app : GUI.AppData) (hsz : app.char_map_size = 0)
    (pre post : List (List Nat)) (k x ln : Nat) (app1 : GUI.AppData) (ds : List Diag)
    (hk2 : k ≤ 256) (hx : escape_byte x = none) (hx0 : x ≠ 0)
    (hothers : ∀ b ∈ pre ++ post, (GUI.parse_line 0 b).index_below k = true)
    (hload : GUI.load_lines app ln (pre ++ mapping_line k [92, x] :: post) = some (app1, ds)) :
    app1.char_map_size = k := by
  obtain ⟨mid, ds1, ds2, hp, hr, -⟩ := gui_load_lines_append pre app ln _ app1 ds hload
  have hmsz : mid.char_map_size ≤ k :=
    (gui_load_lines_size k pre app ln mid ds1 hp).2 (by omega) (fun b hb j hj => by
      have := index_below_lt _ k j (hothers b (List.mem_append_left _ hb)) hj
      omega)
  have hap : GUI.apply_effect mid (GUI.parse_line (ln + pre.length + 1) (mapping_line k [92, x]))
      = some (GUI.raised mid (k : Int), [Diag.unknown_escape [92, x]]) := by
    rw [gui_parse_unknown_escape _ k x (fits_int_of_le k hk2) hx hx0]
    rfl
  rw [gui_load_lines_cons mid _ _ _ post _ hap] at hr
  simp only [Option.map_eq_some', Prod.mk.injEq, Prod.exists] at hr
  obtain ⟨a, b, hab, rfl, -⟩ := hr
  have hraise : (GUI.raised mid (k : Int)).char_map_size = k := by
    simp only [GUI.raised, GUI.raise_size]
    split <;> omega
  have hsize := gui_load_lines_size k post _ _ _ _ hab
  have h1 := hsize.1
  have h2 := hsize.2 (by omega) (fun b hb j hj => by
    have := index_below_lt _ k j (hothers b (List.mem_append_right _ hb)) hj
    omega)
  omega

/-- C24: in both variants `char_map_size` is advanced before the escape is validated.
Let the buffers of the mapping file be `pre ++ <k><TAB>\X :: post` with `k` in `1..256`,
`X` an unknown escape, and every other line using no index or one below `k`.  Then after
a load (from any state of the text-menu variant; from a state of the GTK variant that
satisfies `Inv`) `char_map_size` is `k`, although no line of the file stores at index `k`
and the slot of index `k` is empty (0, respectively `NULL`). -/
theorem size_raised_before_escape_check (st : CLI.State) (app : GUI.AppData) (file : List Nat)
    (pre post : List (List Nat)) (k x : Nat) (hk : 1 ≤ k ∧ k ≤ 256)
    (hx : escape_byte x = none) (hx0 : x ≠ 0) (hx10 : x ≠ 10)
    (hfile : Libc.fgets_chunks 1024 file [] = pre ++ mapping_line k [92, x] :: post) :
    (∀ st1 ds, (∀ b ∈ pre ++ post, (CLI.parse_line 0 b).index_below k = true) →
      CLI.load_char_map st (some file) = some (st1, ds) →
      st1.char_map_size = k ∧ ¬ CLI.assigned file k ∧ st1.char_map.getD (k - 1) 0 = 0) ∧
    (∀ app1 ds, (∀ b ∈ pre ++ post, (GUI.parse_line 0 b).index_below k = true) →
      GUI.Inv app → GUI.load_char_map app (some file) = some (app1, ds) →
      app1.char_map_size = k ∧ ¬ GUI.assigned file k ∧
        app1.char_map.getD (k - 1) none = none) := by
  constructor
  · intro st1 ds hothers hload
    have hna : ¬ CLI.assigned file k := by
      rintro ⟨buf, hb, ht⟩
      rw [show Libc.fgets_chunks CLI.MAX_LINE_LENGTH file []
        = pre ++ mapping_line k [92, x] :: post from hfile] at hb
      simp only [List.mem_append, List.mem_cons] at hb
      have hlt : ∀ b, b ∈ pre ++ post → (CLI.parse_line 0 b).target ≠ some (k : Int) := by
        intro b hb hc
        have := index_below_lt _ k k (hothers b hb) (index_of_target _ _ hc)
        omega
      rcases hb with h | h | h
      · exact hlt buf (List.mem_append_left _ h) ht
      · rw [h, cli_parse_unknown_escape 0 k x (fits_int_of_le k hk.2) hx hx0 hx10] at ht
        simp [LineEffect.target] at ht
      · exact hlt buf (List.mem_append_right _ h) ht
    refine ⟨?_, hna, cli_load_char_map_gap st st1 file ds k hload hk.1 hna⟩
    simp only [CLI.load_char_map, Option.map_eq_some', Prod.mk.injEq, Prod.exists] at hload
    obtain ⟨a, b, hab, rfl, -⟩ := hload
    rw [show Libc.fgets_chunks CLI.MAX_LINE_LENGTH file []
      = pre ++ mapping_line k [92, x] :: post from hfile] at hab
    exact cli_size_top_escape _ rfl pre post k x 0 a b hk.1 hk.2 hx hx0 hx10 hothers hab
  · intro app1 ds hothers hinv hload
    have hna : ¬ GUI.assigned file k := by
      rintro ⟨buf, hb, ht⟩
      rw [show Libc.fgets_chunks GUI.MAX_LINE_LENGTH file []
        = pre ++ mapping_line k [92, x] :: post from hfile] at hb
      simp only [List.mem_append, List.mem_cons] at hb
      have hlt : ∀ b, b ∈ pre ++ post → (GUI.parse_line 0 b).target ≠ some (k : Int) := by
        intro b hb hc
        have := index_below_lt _ k k (hothers b hb) (index_of_target _ _ hc)
        omega
      rcases hb with h | h | h
      · exact hlt buf (List.mem_append_left _ h) ht
      · rw [h, gui_parse_unknown_escape 0 k x (fits_int_of_le k hk.2) hx hx0] at ht
        simp [LineEffect.target] at ht
      · exact hlt buf (List.mem_append_right _ h) ht
    refine ⟨?_, hna, (GUI.load_char_map_gap app app1 file ds k hload hinv hk.1 hna).1⟩
    simp only [GUI.load_char_map, Option.map_eq_some', Prod.mk.injEq, Prod.exists] at hload
    obtain ⟨a, b, hab, rfl, -⟩ := hload
    rw [show Libc.fgets_chunks GUI.MAX_LINE_LENGTH file []
      = pre ++ mapping_line k [92, x] :: post from hfile] at hab
    exact gui_size_top_escape _ rfl pre post k x 0 a b hk.2 hx hx0 hothers hab

/-- Witness for C24: the file `1<TAB>A`, `3<TAB>\q`, `2<TAB>B` leaves `char_map_size = 3`
and index 3 empty in both variants. -/
theorem size_raised_before_escape_check_witness :
    (1 ≤ 3 ∧ 3 ≤ 256) ∧ escape_byte 113 = none ∧
      Libc.fgets_chunks 1024 example_file_escape_top []
        = [[49, 9, 65, 10]] ++ mapping_line 3 [92, 113] :: [[50, 9, 66, 10]] ∧
      CLI.load_char_map CLI.init (some example_file_escape_top)
        = some (⟨[65, 66] ++ List.replicate 254 0, 3, true⟩,
            [Diag.unknown_escape [92, 113]]) ∧
      ((⟨[65, 66] ++ List.replicate 254 0, 3, true⟩ : CLI.State).char_map_size = 3 ∧
        ¬ CLI.assigned example_file_escape_top ((3 : Nat) : Int) ∧
        (⟨[65, 66] ++ List.replicate 254 0, 3, true⟩ : CLI.State).char_map.getD (3 - 1) 0
          = 0) ∧
      GUI.load_char_map GUI.init (some example_file_escape_top)
        = some (⟨[some [65], some [66]] ++ List.replicate 254 none, 3, true⟩,
            [Diag.unknown_escape [92, 113]]) ∧
      ((⟨[some [65], some [66]] ++ List.replicate 254 none, 3, true⟩ :
          GUI.AppData).char_map_size = 3 ∧
        ¬ GUI.assigned example_file_escape_top ((3 : Nat) : Int) ∧
        (⟨[some [65], some [66]] ++ List.replicate 254 none, 3, true⟩ :
          GUI.AppData).char_map.getD (3 - 1) none = none) :=
  ⟨by decide, by decide, by decide, by decide,
    (size_raised_before_escape_check CLI.init GUI.init example_file_escape_top
      [[49, 9, 65, 10]] [[50, 9, 66, 10]] 3 113 (by decide) (by decide) (by decide)
      (by decide) (by decide)).1 _ [Diag.unknown_escape [92, 113]] (by decide) (by decide),
    by decide,
    (size_raised_before_escape_check CLI.init GUI.init example_file_escape_top
      [[49, 9, 65, 10]] [[50, 9, 66, 10]] 3 113 (by decide) (by decide) (by decide)
      (by decide) (by decide)).2 _ [Diag.unknown_escape [92, 113]] (by decide) GUI.inv_init (by decide)⟩

/-! ## Line endings -/

/-- C23 (the claim as stated fails): the file `1<TAB>Space` with an LF ending assigns the
space to index 1 without a diagnostic in both variants; the same file with the LF replaced
by CR LF assigns `S` to index 1 with a multi-character warning in both variants: the CR
stays at the end of the representation, which is then `Space\r` and not the word `Space`. -/
theorem crlf_counterexample :
    example_file_crlf = to_crlf example_file_lf ∧
      CLI.load_char_map CLI.init (some example_file_lf)
        = some (⟨32 :: List.replicate 255 0, 1, true⟩, []) ∧
      CLI.load_char_map CLI.init (some example_file_crlf)
        = some (⟨83 :: List.replicate 255 0, 1, true⟩,
            [Diag.multi_char [83, 112, 97, 99, 101, 13] 83]) ∧
      GUI.load_char_map GUI.init (some example_file_lf)
        = some (⟨some [32] :: List.replicate 255 none, 1, true⟩, []) ∧
      GUI.load_char_map GUI.init (some example_file_crlf)
        = some (⟨some [83] :: List.replicate 255 none, 1, true⟩,
            [Diag.multi_char [83, 112, 97, 99, 101, 13] 83]) := by
  decide

theorem cstr_cons (c : Nat) (cs : List Nat) (hc : c ≠ 0) :
    Libc.cstr (c :: cs) = c :: Libc.cstr cs := by
  have hb : (c != 0) = true := by simpa using hc
  simp only [Libc.cstr, List.takeWhile_cons, hb, if_true]

theorem cstr_zero (cs : List Nat) : Libc.cstr (0 :: cs) = [] := by
  simp [Libc.cstr, List.takeWhile_cons]

theorem cstr_concat (l : List Nat) (x : Nat) (hx : x ≠ 0) :
    Libc.cstr (l ++ [x]) = if (∀ c ∈ l, c ≠ 0) then l ++ [x] else Libc.cstr l := by
  induction l with
  | nil =>
    have := cstr_cons x [] hx
    simpa [Libc.cstr] using this
  | cons c cs ih =>
    by_cases hc : c = 0
    · subst hc
      rw [List.cons_append, cstr_zero, cstr_zero]
      simp
    · rw [List.cons_append, cstr_cons c _ hc, ih, cstr_cons c _ hc]
      by_cases hall : ∀ c ∈ cs, c ≠ 0
      · have : ∀ d ∈ c :: cs, d ≠ 0 := by
          intro d hd
          rcases List.mem_cons.1 hd with rfl | h
          · exact hc
          · exact hall d h
        rw [if_pos hall, if_pos this]
      · have : ¬ ∀ d ∈ c :: cs, d ≠ 0 := fun h =>
          hall (fun d hd => h d (List.mem_cons_of_mem _ hd))
        rw [if_neg hall, if_neg this]

theorem gui_strip_newline_cr (l : List Nat) : GUI.strip_newline (l ++ [13]) = l := by
  unfold GUI.strip_newline
  simp [List.getLast?_concat]

/-- The GTK variant reads a buffer that ends in CR as the same buffer ending in LF. -/
theorem gui_parse_cr_lf (ln : Nat) (l : List Nat) :
    GUI.parse_line ln (l ++ [13]) = GUI.parse_line ln (l ++ [10]) := by
  have e : GUI.strip_newline (Libc.cstr (l ++ [13]))
      = GUI.strip_newline (Libc.cstr (l ++ [10])) := by
    rw [cstr_concat l 13 (by decide), cstr_concat l 10 (by decide)]
    split
    · rw [gui_strip_newline_cr, gui_strip_newline_concat]
    · rfl
  unfold GUI.parse_line
  simp only [e]

/-- The GTK variant reads a buffer without NUL that ends in a byte that is neither CR
nor LF as it is. -/
theorem gui_strip_newline_plain (l : List Nat)
    (hl : l.getLast? ≠ some 13 ∧ l.getLast? ≠ some 10) : GUI.strip_newline l = l := by
  unfold GUI.strip_newline
  rw [if_neg]
  intro h
  rcases h with h | h
  · exact hl.2 h
  · exact hl.1 h

/-- C23 (amended): what is read of a line ending.  In the text-menu variant a line ends
at LF only and a CR is never removed: the line `<i><TAB><rep>` with a CR LF ending is the
line `<i><TAB><rep>\r` with an LF ending, so an empty `rep` assigns the CR itself, a lone
backslash gives the unknown-escape warning, and any other `rep` (the words `Space` and
`Tab` and single characters included) assigns its first character with the
multi-character warning.  In the GTK variant a buffer that ends in one LF, or in one CR,
after a text `l` whose last byte is neither CR nor LF, is read as `l`. -/
theorem line_endings_stripped (ln : Nat) (i : Int) (rep l : List Nat)
    (hfit : Libc.fits_int i = true) (h0 : ∀ c ∈ rep, c ≠ 0) (h10 : ∀ c ∈ rep, c ≠ 10)
    (hl : l.getLast? ≠ some 13 ∧ l.getLast? ≠ some 10) (hl0 : ∀ c ∈ l, c ≠ 0) :
    (Libc.print_d i ++ 9 :: rep ++ [13, 10] = mapping_line i (rep ++ [13]) ∧
      CLI.parse_line ln (mapping_line i (rep ++ [13])) =
        (if rep = [] then .assign i 13 []
         else if rep = [92] then .bump i (.unknown_escape [92, 13])
         else .assign i (rep.headD 0) [.multi_char (rep ++ [13]) (rep.headD 0)])) ∧
    (GUI.strip_newline (Libc.cstr (l ++ [10])) = l ∧
      GUI.strip_newline (Libc.cstr (l ++ [13])) = l ∧
      GUI.strip_newline (Libc.cstr l) = l ∧
      GUI.parse_line ln (l ++ [10]) = GUI.parse_line ln l ∧
      GUI.parse_line ln (l ++ [13]) = GUI.parse_line ln l) := by
  have g1 : GUI.strip_newline (Libc.cstr (l ++ [10])) = l := by
    rw [cstr_concat l 10 (by decide), if_pos hl0, gui_strip_newline_concat]
  have g2 : GUI.strip_newline (Libc.cstr (l ++ [13])) = l := by
    rw [cstr_concat l 13 (by decide), if_pos hl0, gui_strip_newline_cr]
  have g3 : GUI.strip_newline (Libc.cstr l) = l := by
    rw [Libc.cstr_eq_self l hl0, gui_strip_newline_plain l hl]
  have p1 : GUI.parse_line ln (l ++ [10]) = GUI.parse_line ln l := by
    unfold GUI.parse_line
    simp only [g1, g3]
  have p2 : GUI.parse_line ln (l ++ [13]) = GUI.parse_line ln l := by
    unfold GUI.parse_line
    simp only [g2, g3]
  refine ⟨⟨by simp [mapping_line], ?_⟩, g1, g2, g3, p1, p2⟩
  have h0r : ∀ c ∈ rep ++ [13], c ≠ 0 := by
    intro c hc
    rcases List.mem_append.1 hc with h | h
    · exact h0 c h
    · simp only [List.mem_singleton] at h; subst h; decide
  have h10r : ∀ c ∈ rep ++ [13], c ≠ 10 := by
    intro c hc
    rcases List.mem_append.1 hc with h | h
    · exact h10 c h
    · simp only [List.mem_singleton] at h; subst h; decide
  rw [cli_parse_mapping_line ln i (rep ++ [13]) h0r h10r hfit]
  have hS : rep ++ [13] ≠ str_Space := by
    intro h
    have := congrArg List.getLast? h
    simp [str_Space] at this
  have hT : rep ++ [13] ≠ str_Tab := by
    intro h
    have := congrArg List.getLast? h
    simp [str_Tab] at this
  simp only [hS, hT, if_false]
  rcases rep with _ | ⟨a, _ | ⟨b, t⟩⟩
  · simp
  · by_cases ha : a = 92
    · subst ha
      simp [escape_byte]
    · simp [ha]
  · simp

/-- Witness for C23: the line `1<TAB>Space` with a CR LF ending in the text-menu variant,
and the buffer `1<TAB>A` with an LF and with a CR ending in the GTK variant. -/
theorem line_endings_stripped_witness :
    Libc.fits_int 1 = true ∧
      Libc.print_d 1 ++ 9 :: str_Space ++ [13, 10] = example_file_crlf ∧
      CLI.parse_line 1 example_file_crlf
        = .assign 1 83 [.multi_char [83, 112, 97, 99, 101, 13] 83] ∧
      GUI.strip_newline (Libc.cstr [49, 9, 65, 10]) = [49, 9, 65] ∧
      GUI.strip_newline (Libc.cstr [49, 9, 65, 13]) = [49, 9, 65] ∧
      GUI.parse_line 1 [49, 9, 65, 10] = .assign 1 [65] [] ∧
      GUI.parse_line 1 [49, 9, 65, 13] = .assign 1 [65] [] :=
  have h := line_endings_stripped 1 1 str_Space [49, 9, 65] (by decide) (by decide)
    (by decide) (by decide) (by decide)
  ⟨by decide, by decide, (congrArg (CLI.parse_line 1) h.1.1).trans h.1.2,
    h.2.1, h.2.2.1, h.2.2.2.2.1.trans (by decide), h.2.2.2.2.2.trans (by decide)⟩

/-! ## The two loaders on the same file -/

/-- Every byte of a buffer that `fgets` returns comes from the file (or from what the
buffer held already). -/
theorem fgets_chunks_mem (n : Nat) :
    ∀ (file cur buf : List Nat), buf ∈ Libc.fgets_chunks n file cur →
      ∀ c ∈ buf, c ∈ file ∨ c ∈ cur := by
  intro file
  induction file with
  | nil =>
    intro cur buf hb c hc
    unfold Libc.fgets_chunks at hb
    split at hb
    · simp at hb
    · simp only [List.mem_singleton] at hb
      subst hb
      right
      simpa using hc
  | cons x xs ih =>
    intro cur buf hb c hc
    unfold Libc.fgets_chunks at hb
    split at hb
    · rcases List.mem_cons.1 hb with h | h
      · subst h
        simp only [List.reverse_cons, List.mem_append, List.mem_reverse,
          List.mem_singleton] at hc
        rcases hc with h | h
        · right; exact h
        · left; rw [h]; exact List.mem_cons_self _ _
      · rcases ih [] buf h c hc with h | h
        · left; exact List.mem_cons_of_mem _ h
        · simp at h
    · rcases ih (x :: cur) buf hb c hc with h | h
      · left; exact List.mem_cons_of_mem _ h
      · rcases List.mem_cons.1 h with h | h
        · left; rw [h]; exact List.mem_cons_self _ _
        · right; exact h

/-- A newline is the last byte of the buffer that `fgets` returns, if it is in it. -/
theorem fgets_chunks_newline (n : Nat) :
    ∀ (file cur buf : List Nat), buf ∈ Libc.fgets_chunks n file cur →
      (∀ c ∈ cur, c ≠ 10) → ∀ c ∈ buf.dropLast, c ≠ 10 := by
  intro file
  induction file with
  | nil =>
    intro cur buf hb hcur c hc
    unfold Libc.fgets_chunks at hb
    split at hb
    · simp at hb
    · simp only [List.mem_singleton] at hb
      subst hb
      exact hcur c (by simpa using List.mem_of_mem_dropLast hc)
  | cons x xs ih =>
    intro cur buf hb hcur c hc
    unfold Libc.fgets_chunks at hb
    split at hb
    · rcases List.mem_cons.1 hb with h | h
      · subst h
        rw [List.reverse_cons, List.dropLast_concat] at hc
        exact hcur c (by simpa using hc)
      · exact ih [] buf h (by simp) c hc
    · rename_i hx
      have hx10 : x ≠ 10 := fun h => hx (Or.inl h)
      refine ih (x :: cur) buf hb ?_ c hc
      intro d hd
      rcases List.mem_cons.1 hd with h | h
      · rw [h]; exact hx10
      · exact hcur d h

theorem cstr_ne_zero (l : List Nat) : ∀ c ∈ Libc.cstr l, c ≠ 0 := by
  intro c hc
  have := List.mem_takeWhile_imp hc
  simpa using this

theorem gui_strip_newline_cons (c : Nat) (m : List Nat) (h10 : c ≠ 10) (h13 : c ≠ 13) :
    GUI.strip_newline (c :: m) = c :: GUI.strip_newline m := by
  cases m with
  | nil => simp [GUI.strip_newline, h10, h13]
  | cons d t =>
    unfold GUI.strip_newline
    rw [List.getLast?_cons_cons, List.dropLast_cons₂]
    split <;> rfl

/-- For a buffer without CR whose only newline, if any, is its last byte, the two
variants cut the same line out of the buffer. -/
theorem line_eq_of_no_cr (buf : List Nat) :
    (∀ c ∈ buf, c ≠ 13) → (∀ c ∈ buf.dropLast, c ≠ 10) →
      (Libc.cstr buf).takeWhile (fun c => c != 10) = GUI.strip_newline (Libc.cstr buf) := by
  induction buf with
  | nil => intro _ _; rfl
  | cons c cs ih =>
    intro h13 h10
    by_cases hc : c = 0
    · subst hc
      rw [cstr_zero]
      rfl
    · rw [cstr_cons c cs hc]
      have hc13 : c ≠ 13 := h13 c (List.mem_cons_self _ _)
      cases cs with
      | nil =>
        by_cases hc10 : c = 10
        · subst hc10
          decide
        · have hb : (c != 10) = true := by simpa using hc10
          have e : Libc.cstr [] = [] := rfl
          rw [e, gui_strip_newline_cons c [] hc10 hc13]
          simp only [List.takeWhile_cons, hb, if_true]
          rfl
      | cons d t =>
        have hc10 : c ≠ 10 := h10 c (by rw [List.dropLast_cons₂]; exact List.mem_cons_self _ _)
        have hb : (c != 10) = true := by simpa using hc10
        rw [gui_strip_newline_cons c _ hc10 hc13, List.takeWhile_cons]
        simp only [hb, if_true]
        rw [ih (fun x hx => h13 x (List.mem_cons_of_mem _ hx))
          (fun x hx => h10 x (by rw [List.dropLast_cons₂]; exact List.mem_cons_of_mem _ hx))]

/-- In a mapping file without CR the two variants cut the same line out of every buffer. -/
theorem line_eq_of_chunk (file buf : List Nat) (hcr : ∀ c ∈ file, c ≠ 13)
    (hb : buf ∈ Libc.fgets_chunks 1024 file []) :
    (Libc.cstr buf).takeWhile (fun c => c != 10) = GUI.strip_newline (Libc.cstr buf) := by
  apply line_eq_of_no_cr
  · intro c hc
    rcases fgets_chunks_mem 1024 file [] buf hb c hc with h | h
    · exact hcr c h
    · simp at h
  · exact fgets_chunks_newline 1024 file [] buf hb (by simp)

theorem split_tab_mem (l : List Nat) :
    ∀ p r, Libc.split_tab l = some (p, r) → ∀ c ∈ r, c ∈ l := by
  induction l with
  | nil => intro p r h; simp [Libc.split_tab] at h
  | cons x xs ih =>
    intro p r h c hc
    unfold Libc.split_tab at h
    split at h
    · simp only [Option.some.injEq, Prod.mk.injEq] at h
      rw [← h.2] at hc
      exact List.mem_cons_of_mem _ hc
    · simp only [Option.map_eq_some', Prod.mk.injEq, Prod.exists] at h
      obtain ⟨a, b, hab, -, rfl⟩ := h
      exact List.mem_cons_of_mem _ (ih a b hab c hc)

theorem cli_agreeable_line_num (ln : Nat) (buf : List Nat) :
    (CLI.parse_line ln buf).agreeable = (CLI.parse_line 0 buf).agreeable := by
  unfold CLI.parse_line
  simp only
  repeat' split
  all_goals rfl

/-- When the two variants cut the same line out of a buffer and the representation is
not empty, the branch the GTK variant takes is the one the text-menu variant takes, with
the byte stored replaced by its one-character string. -/
theorem gui_parse_eq_to_gui (ln : Nat) (buf : List Nat)
    (hline : (Libc.cstr buf).takeWhile (fun c => c != 10) = GUI.strip_newline (Libc.cstr buf))
    (hag : (CLI.parse_line ln buf).agreeable = true) :
    GUI.parse_line ln buf = (CLI.parse_line ln buf).to_gui := by
  unfold CLI.parse_line at hag ⊢
  unfold GUI.parse_line
  simp only [hline] at hag ⊢
  cases hst : Libc.split_tab (GUI.strip_newline (Libc.cstr buf)) with
  | none => rfl
  | some pc =>
    obtain ⟨pre, cp⟩ := pc
    have hz : ∀ c ∈ cp, c ≠ 0 := by
      intro c hc
      have h1 := split_tab_mem _ pre cp hst c hc
      rw [← hline] at h1
      exact cstr_ne_zero buf c ((List.takeWhile_prefix _).subset h1)
    simp only [hst] at hag ⊢
    cases hsc : Libc.scan_d pre with
    | none => rfl
    | some ir =>
      obtain ⟨index, r⟩ := ir
      simp only [hsc] at hag ⊢
      by_cases hfit : Libc.fits_int index = true
      · simp only [hfit, Bool.not_true, Bool.false_eq_true, if_false] at hag ⊢
        by_cases hS : cp = str_Space
        · simp only [hS, if_true]
          rfl
        · by_cases hT : cp = str_Tab
          · simp only [hS, hT, if_true, if_false]
            rfl
          · simp only [hS, hT, if_false] at hag ⊢
            rcases cp with _ | ⟨a, _ | ⟨b, t⟩⟩
            · simp [LineEffect.agreeable] at hag
            · have ha : a ≠ 0 := hz a (List.mem_cons_self _ _)
              simp [LineEffect.to_gui, cstr_cons a [0] ha, cstr_zero]
            · cases t with
              | nil =>
                by_cases ha : a = 92
                · subst ha
                  simp only [List.length_cons, List.length_nil]
                  cases escape_byte ([92, b].getD 1 0) <;> simp [LineEffect.to_gui]
                · simp [ha, LineEffect.to_gui]
              | cons c t => simp [LineEffect.to_gui]
      · simp only [hfit, Bool.not_false, if_true]
        rfl

theorem getD_set_self {α : Type} (l : List α) (k : Nat) (v d : α) (h : k < l.length) :
    (l.set k v).getD k d = v := by
  rw [List.getD_eq_getElem?_getD, List.getElem?_set_self h]
  rfl

theorem getD_set_ne {α : Type} (l : List α) (k j : Nat) (v d : α) (h : k ≠ j) :
    (l.set k v).getD j d = l.getD j d := by
  rw [List.getD_eq_getElem?_getD, List.getElem?_set_ne h, ← List.getD_eq_getElem?_getD]

/-- One line whose branch is the same in the two variants keeps the two tables alike. -/
theorem sim_apply_effect (st : CLI.State) (app : GUI.AppData) (eff : LineEffect Nat)
    (hsim : Sim st app) (hsz : st.char_map_size ≤ 255) (hag : eff.agreeable = true) :
    ∃ st1 app1 ds, CLI.apply_effect st eff = some (st1, ds) ∧
      GUI.apply_effect app eff.to_gui = some (app1, ds) ∧ Sim st1 app1 ∧
      st1.char_map_size ≤ 255 := by
  obtain ⟨hsize, hl1, hl2, hslot⟩ := hsim
  have hraise : ∀ index : Int, CLI.raise_size st.char_map_size index
      = GUI.raise_size app.char_map_size index := by
    intro index
    simp only [CLI.raise_size, GUI.raise_size, hsize]
  have hbound : ∀ index : Int, index ≤ 255 → CLI.raise_size st.char_map_size index ≤ 255 := by
    intro index hi
    simp only [CLI.raise_size]
    split <;> omega
  cases eff with
  | skip d => exact ⟨st, app, [d], rfl, rfl, ⟨hsize, hl1, hl2, hslot⟩, hsz⟩
  | nothing => simp [LineEffect.agreeable] at hag
  | undefined => simp [LineEffect.agreeable] at hag
  | bump index d =>
    simp only [LineEffect.agreeable, decide_eq_true_eq] at hag
    exact ⟨_, _, [d], rfl, rfl, ⟨hraise index, hl1, hl2, hslot⟩, hbound index hag.2⟩
  | assign index b ds =>
    simp only [LineEffect.agreeable, decide_eq_true_eq] at hag
    have hc : 1 ≤ index ∧ index ≤ (CLI.MAX_CHAR_MAP : Int) := by
      simp only [CLI.MAX_CHAR_MAP]; omega
    have hg : 1 ≤ index ∧ index ≤ (GUI.MAX_CHAR_MAP : Int) := by
      simp only [GUI.MAX_CHAR_MAP]; omega
    refine ⟨CLI.stored st index b, GUI.stored app index (Libc.cstr [b, 0]), ds,
      by simp only [CLI.apply_effect, hc, and_self, if_true, CLI.stored],
      by simp only [LineEffect.to_gui, GUI.apply_effect, hg, and_self, if_true, GUI.stored],
      ⟨hraise index, by simpa [CLI.stored] using hl1, by simpa [GUI.stored] using hl2,
        fun j => ?_⟩, hbound index hag.2⟩
    by_cases hj : (index - 1).toNat = j
    · right
      subst hj
      show (app.char_map.set (index - 1).toNat (some (Libc.cstr [b, 0]))).getD
          (index - 1).toNat none
        = some (Libc.cstr [(st.char_map.set (index - 1).toNat b).getD (index - 1).toNat 0, 0])
      rw [getD_set_self _ _ _ _ (by omega), getD_set_self _ _ _ _ (by omega)]
    · show ((app.char_map.set (index - 1).toNat (some (Libc.cstr [b, 0]))).getD j none = none ∧
          (st.char_map.set (index - 1).toNat b).getD j 0 = 0) ∨
        (app.char_map.set (index - 1).toNat (some (Libc.cstr [b, 0]))).getD j none
          = some (Libc.cstr [(st.char_map.set (index - 1).toNat b).getD j 0, 0])
      rw [getD_set_ne _ _ _ _ _ hj, getD_set_ne _ _ _ _ _ hj]
      exact hslot j

/-- The read loops of the two variants over buffers whose branches are the same keep the
two tables alike and write the same diagnostics. -/
theorem sim_load_lines (chunks : List (List Nat)) :
    ∀ (st : CLI.State) (app : GUI.AppData) (ln : Nat), Sim st app → st.char_map_size ≤ 255 →
      (∀ buf ∈ chunks, (CLI.parse_line 0 buf).agreeable = true ∧
        (Libc.cstr buf).takeWhile (fun c => c != 10) = GUI.strip_newline (Libc.cstr buf)) →
      ∃ st1 app1 ds, CLI.load_lines st ln chunks = some (st1, ds) ∧
        GUI.load_lines app ln chunks = some (app1, ds) ∧ Sim st1 app1 := by
  induction chunks with
  | nil =>
    intro st app ln hsim _ _
    exact ⟨st, app, [], rfl, rfl, hsim⟩
  | cons buf rest ih =>
    intro st app ln hsim hsz hall
    obtain ⟨hag0, hline⟩ := hall buf (List.mem_cons_self _ _)
    have hag : (CLI.parse_line (ln + 1) buf).agreeable = true := by
      rw [cli_agreeable_line_num]; exact hag0
    obtain ⟨st2, app2, d0, hc, hg, hsim2, hsz2⟩ := sim_apply_effect st app _ hsim hsz hag
    rw [← gui_parse_eq_to_gui (ln + 1) buf hline hag] at hg
    obtain ⟨st1, app1, ds, h1, h2, h3⟩ := ih st2 app2 (ln + 1) hsim2 hsz2
      (fun b hb => hall b (List.mem_cons_of_mem _ hb))
    have hguard : st.char_map_size < CLI.MAX_CHAR_MAP := by
      simp only [CLI.MAX_CHAR_MAP]; omega
    refine ⟨st1, app1, d0 ++ ds, ?_, ?_, h3⟩
    · rw [cli_load_lines_cons st st2 ln buf rest d0 hguard hc, h1]
      rfl
    · rw [gui_load_lines_cons app app2 ln buf rest d0 hg, h2]
      rfl

theorem first_index_congr (p q : Nat → Bool) (h : ∀ j, p j = q j) (n : Nat) :
    ∀ i, Libc.first_index p n i = Libc.first_index q n i := by
  induction n with
  | zero => intro i; rfl
  | succ n ih =>
    intro i
    unfold Libc.first_index
    rw [h i, ih (i + 1)]

/-- On tables that are alike, `find_char_index` returns the same index in the two
variants for every byte but NUL. -/
theorem sim_find_char_index (st : CLI.State) (app : GUI.AppData) (hsim : Sim st app)
    (c : Nat) (hc : c ≠ 0) : GUI.find_char_index app c = CLI.find_char_index st c := by
  unfold GUI.find_char_index CLI.find_char_index
  rw [GUI.gui_find_char_index_loop_eq, CLI.cli_find_char_index_loop_eq, hsim.1]
  apply first_index_congr
  intro j
  have hcc : Libc.cstr [c, 0] = [c] := by rw [cstr_cons c [0] hc, cstr_zero]
  rcases hsim.2.2.2 j with ⟨h1, h2⟩ | h
  · rw [h1, h2]
    have : ¬ (0 = c) := fun h => hc h.symm
    simp [this]
  · rw [h, hcc]
    by_cases hv : st.char_map.getD j 0 = 0
    · rw [hv, cstr_zero]
      have : ¬ (0 = c) := fun h => hc h.symm
      simp [this]
    · rw [cstr_cons _ [0] hv, cstr_zero]
      simp

/-- On tables that are alike, the encode loops of the two variants write the same text
for an input without NUL. -/
theorem sim_encode (st : CLI.State) (app : GUI.AppData) (hsim : Sim st app) (s : List Nat)
    (hs : ∀ c ∈ s, c ≠ 0) : GUI.encode_loop app s = CLI.encode_file st s := by
  induction s with
  | nil => rfl
  | cons c cs ih =>
    unfold GUI.encode_loop CLI.encode_file
    rw [ih (fun x hx => hs x (List.mem_cons_of_mem _ hx))]
    unfold GUI.encode_byte CLI.encode_byte
    rw [sim_find_char_index st app hsim c (hs c (List.mem_cons_self _ _))]

/-- C28: the encoders of the two variants agree.  For every mapping file without a CR
byte, each line of which, as the text-menu variant reads it, has an index in `1..255` if
it has one and does not have an empty representation, and for every input without a NUL
byte: the loads (from any state of the text-menu variant, from any state of the GTK
variant that satisfies `Inv`) both return, with the same diagnostics, and encoding the
input with the tables loaded writes the same text in the two variants. -/
theorem encoders_agree (st : CLI.State) (app : GUI.AppData) (file s : List Nat)
    (hinv : GUI.Inv app) (hcr : ∀ c ∈ file, c ≠ 13)
    (hlines : ∀ buf ∈ Libc.fgets_chunks 1024 file [], (CLI.parse_line 0 buf).agreeable = true)
    (hs : ∀ c ∈ s, c ≠ 0) :
    ∃ st1 app1 ds, CLI.load_char_map st (some file) = some (st1, ds) ∧
      GUI.load_char_map app (some file) = some (app1, ds) ∧
      GUI.encode_file app1 s = .written (CLI.encode_file st1 s) := by
  have hsim0 : Sim ⟨List.replicate CLI.MAX_CHAR_MAP 0, 0, st.is_map_loaded⟩
      ⟨GUI.reset app.char_map_size app.char_map, 0, app.is_map_loaded⟩ := by
    rw [gui_reset_of_shape app hinv.2]
    refine ⟨rfl, by simp [CLI.MAX_CHAR_MAP], by simp [GUI.MAX_CHAR_MAP], fun j => Or.inl ?_⟩
    simp only [List.getD_eq_getElem?_getD, List.getElem?_replicate]
    constructor <;> split <;> rfl
  obtain ⟨st1, app1, ds, h1, h2, h3⟩ := sim_load_lines (Libc.fgets_chunks 1024 file []) _ _ 0
    hsim0 (Nat.zero_le _) (fun buf hb => ⟨hlines buf hb, line_eq_of_chunk file buf hcr hb⟩)
  have h1c : CLI.load_lines ⟨List.replicate CLI.MAX_CHAR_MAP 0, 0, st.is_map_loaded⟩ 0
      (Libc.fgets_chunks CLI.MAX_LINE_LENGTH file []) = some (st1, ds) := h1
  have h2c : GUI.load_lines ⟨GUI.reset app.char_map_size app.char_map, 0, app.is_map_loaded⟩ 0
      (Libc.fgets_chunks GUI.MAX_LINE_LENGTH file []) = some (app1, ds) := h2
  refine ⟨{ st1 with is_map_loaded := true }, { app1 with is_map_loaded := true }, ds, ?_, ?_, ?_⟩
  · simp only [CLI.load_char_map]
    rw [h1c]
    rfl
  · simp only [GUI.load_char_map]
    rw [h2c]
    rfl
  · have hsim1 : Sim { st1 with is_map_loaded := true } { app1 with is_map_loaded := true } :=
      ⟨h3.1, h3.2.1, h3.2.2.1, h3.2.2.2⟩
    simp only [GUI.encode_file, Bool.not_true, Bool.false_eq_true, if_false]
    rw [sim_encode _ _ hsim1 s hs]

/-- Witness for C28: the mapping file `1<TAB>Space`, `2<TAB>Tab`, `3<TAB>A` and the
input `A`, space, tab, `B`: both variants write `3 1 2 0 `. -/
theorem encoders_agree_witness :
    (∀ c ∈ spec_example_file, c ≠ 13) ∧
      (∀ buf ∈ Libc.fgets_chunks 1024 spec_example_file [],
        (CLI.parse_line 0 buf).agreeable = true) ∧
      CLI.encode_file CLI.spec_example_state [65, 32, 9, 66]
        = [51, 32, 49, 32, 50, 32, 48, 32] ∧
      ∃ st1 app1 ds, CLI.load_char_map CLI.init (some spec_example_file) = some (st1, ds) ∧
        GUI.load_char_map GUI.init (some spec_example_file) = some (app1, ds) ∧
        GUI.encode_file app1 [65, 32, 9, 66] = .written (CLI.encode_file st1 [65, 32, 9, 66]) :=
  ⟨by decide, by decide, by decide,
    encoders_agree CLI.init GUI.init spec_example_file [65, 32, 9, 66] GUI.inv_init (by decide)
      (by decide) (by decide)⟩

/-! ## A line of a file, and the read loop at that line -/

theorem fgets_chunks_cons_pos (n c : Nat) (cs cur : List Nat)
    (h : c = 10 ∨ cur.length + 1 = n - 1) :
    Libc.fgets_chunks n (c :: cs) cur = (c :: cur).reverse :: Libc.fgets_chunks n cs [] := by
  conv_lhs => rw [Libc.fgets_chunks]
  rw [if_pos h]

theorem fgets_chunks_cons_neg (n c : Nat) (cs cur : List Nat)
    (h : ¬ (c = 10 ∨ cur.length + 1 = n - 1)) :
    Libc.fgets_chunks n (c :: cs) cur = Libc.fgets_chunks n cs (c :: cur) := by
  conv_lhs => rw [Libc.fgets_chunks]
  rw [if_neg h]

theorem fgets_chunks_append_aux (n : Nat) (h rest : List Nat) :
    ∀ cur, Libc.fgets_chunks n (h ++ 10 :: rest) cur
      = Libc.fgets_chunks n (h ++ [10]) cur ++ Libc.fgets_chunks n rest [] := by
  induction h with
  | nil =>
    intro cur
    rw [List.nil_append, List.nil_append, fgets_chunks_cons_pos n 10 rest cur (Or.inl rfl),
      fgets_chunks_cons_pos n 10 [] cur (Or.inl rfl)]
    simp [Libc.fgets_chunks]
  | cons c cs ih =>
    intro cur
    rw [List.cons_append, List.cons_append]
    by_cases hc : c = 10 ∨ cur.length + 1 = n - 1
    · rw [fgets_chunks_cons_pos n c _ cur hc, fgets_chunks_cons_pos n c _ cur hc, ih []]
      rfl
    · rw [fgets_chunks_cons_neg n c _ cur hc, fgets_chunks_cons_neg n c _ cur hc, ih (c :: cur)]

/-- The buffers `fgets` returns for a file whose first part is empty or ends with a
newline are the buffers of that part followed by the buffers of the rest. -/
theorem fgets_chunks_append (n : Nat) (head rest : List Nat)
    (h : head = [] ∨ head.getLast? = some 10) :
    Libc.fgets_chunks n (head ++ rest) []
      = Libc.fgets_chunks n head [] ++ Libc.fgets_chunks n rest [] := by
  rcases h with h | h
  · subst h
    simp [Libc.fgets_chunks]
  · have e : head.dropLast ++ [10] = head := List.dropLast_append_getLast? 10 (by simp [h])
    rw [← e, List.append_assoc, List.singleton_append, fgets_chunks_append_aux]

/-- A line of at most 1023 bytes, newline included, that starts the file or follows a
newline is one buffer of the read loop: the buffers of the file are those of the lines
before it, the line, and those of the lines after it. -/
theorem chunks_of_file_line (head l tail : List Nat)
    (hhead : head = [] ∨ head.getLast? = some 10) (hl : ∀ c ∈ l, c ≠ 10)
    (hlen : (l ++ [10]).length ≤ 1023) :
    Libc.fgets_chunks 1024 (head ++ (l ++ [10]) ++ tail) []
      = Libc.fgets_chunks 1024 head [] ++ (l ++ [10]) :: Libc.fgets_chunks 1024 tail [] := by
  rw [List.append_assoc, fgets_chunks_append 1024 head _ hhead]
  congr 1
  rw [List.append_assoc, List.singleton_append]
  exact Libc.fgets_chunks_line 1024 l tail hl (by simpa using hlen)

theorem mapping_line_eq (i : Int) (rep : List Nat) :
    mapping_line i rep = (Libc.print_d i ++ 9 :: rep) ++ [10] := by
  simp [mapping_line]

/-- The buffers of a file around a mapping line of at most 1023 bytes. -/
theorem chunks_of_mapping_line (head tail : List Nat) (i : Int) (rep : List Nat)
    (hhead : head = [] ∨ head.getLast? = some 10) (h10 : ∀ c ∈ rep, c ≠ 10)
    (hlen : (mapping_line i rep).length ≤ 1023) :
    Libc.fgets_chunks 1024 (head ++ mapping_line i rep ++ tail) []
      = Libc.fgets_chunks 1024 head [] ++ mapping_line i rep :: Libc.fgets_chunks 1024 tail [] := by
  rw [mapping_line_eq] at hlen ⊢
  apply chunks_of_file_line head _ tail hhead _ hlen
  intro c hc
  simp only [List.mem_append, List.mem_cons] at hc
  rcases hc with h | h | h
  · exact (Libc.print_d_chars i c h).2.2
  · subst h; decide
  · exact h10 c h

/-- The read loop of the text-menu variant at one buffer of a file whose indices lie in
`1..256`, when the buffers before it use indices below 256: the loop reaches the buffer
in a state `mid` with `char_map_size < 256`, so the buffer is read; the body returns a
state `mid2` and diagnostics `d`; and the loop goes on from `mid2` with the buffers
after. -/
theorem cli_load_at_line (st : CLI.State) (file : List Nat) (pre post : List (List Nat))
    (buf : List Nat) (hchunks : Libc.fgets_chunks 1024 file [] = pre ++ buf :: post)
    (hr : CLI.indices_in_range file)
    (hpre : ∀ b ∈ pre, (CLI.parse_line 0 b).index_below 256 = true) :
    ∃ mid ds1 mid2 d st2 ds2,
      CLI.load_lines (CLI.cleared st) 0 pre = some (mid, ds1) ∧
      CLI.Shape mid ∧ mid.char_map_size < CLI.MAX_CHAR_MAP ∧
      CLI.apply_effect mid (CLI.parse_line (pre.length + 1) buf) = some (mid2, d) ∧
      CLI.load_lines mid2 (pre.length + 1) post = some (st2, ds2) ∧
      CLI.load_lines (CLI.cleared st) 0 (pre ++ buf :: post) = some (st2, ds1 ++ d ++ ds2) ∧
      CLI.load_char_map st (some file)
        = some ({ st2 with is_map_loaded := true }, ds1 ++ d ++ ds2) := by
  have hr2 : ∀ b ∈ pre ++ buf :: post, (CLI.parse_line 0 b).in_range = true := by
    intro b hb
    apply hr
    show b ∈ Libc.fgets_chunks 1024 file []
    rw [hchunks]
    exact hb
  obtain ⟨⟨a, ds⟩, ha⟩ := cli_load_lines_some (pre ++ buf :: post) (CLI.cleared st) 0 hr2
  obtain ⟨mid, ds1, ds2, hp, hrst, hd⟩ := cli_load_lines_append pre _ 0 _ a ds ha
  have hshape : CLI.Shape mid :=
    cli_load_lines_shape pre _ 0 mid ds1 hp (cli_shape_reset st.is_map_loaded)
  have hmsz : mid.char_map_size ≤ 255 :=
    (cli_load_lines_size 255 pre _ 0 mid ds1 hp).2 (Nat.zero_le _) (fun b hb j hj => by
      have := index_below_lt _ 256 j (hpre b hb) hj
      omega)
  have hg : mid.char_map_size < CLI.MAX_CHAR_MAP := by
    simp only [CLI.MAX_CHAR_MAP]; omega
  rw [Nat.zero_add] at hrst
  simp only [CLI.load_lines, hg, if_true] at hrst
  cases h1 : CLI.apply_effect mid (CLI.parse_line (pre.length + 1) buf) with
  | none => simp [h1] at hrst
  | some p =>
    obtain ⟨mid2, d⟩ := p
    simp only [h1, Option.map_eq_some', Prod.mk.injEq, Prod.exists] at hrst
    obtain ⟨st2, ds3, hab, rfl, rfl⟩ := hrst
    have hall : CLI.load_lines (CLI.cleared st) 0 (pre ++ buf :: post)
        = some (st2, ds1 ++ d ++ ds3) := by
      rw [ha, hd, List.append_assoc]
    refine ⟨mid, ds1, mid2, d, st2, ds3, hp, hshape, hg, h1, hab, hall, ?_⟩
    have e : CLI.load_char_map st (some file)
        = (CLI.load_lines (CLI.cleared st) 0 (Libc.fgets_chunks 1024 file [])).map
            (fun r => ({ r.1 with is_map_loaded := true }, r.2)) := rfl
    rw [e, hchunks, hall]
    rfl

/-- The read loop of the GTK variant at one buffer of a file whose indices lie in
`1..256`: the loop reaches the buffer in a state `mid`; the body returns a state `mid2`
and diagnostics `d`; and the loop goes on from `mid2` with the buffers after. -/
theorem gui_load_at_line (app : GUI.AppData) (file : List Nat) (pre post : List (List Nat))
    (buf : List Nat) (hchunks : Libc.fgets_chunks 1024 file [] = pre ++ buf :: post)
    (hinv : GUI.Inv app) (hr : GUI.indices_in_range file) :
    ∃ mid ds1 mid2 d app2 ds2,
      GUI.load_lines (GUI.cleared app) 0 pre = some (mid, ds1) ∧
      GUI.Shape mid ∧
      GUI.apply_effect mid (GUI.parse_line (pre.length + 1) buf) = some (mid2, d) ∧
      GUI.load_lines mid2 (pre.length + 1) post = some (app2, ds2) ∧
      GUI.load_lines (GUI.cleared app) 0 (pre ++ buf :: post) = some (app2, ds1 ++ d ++ ds2) ∧
      GUI.load_char_map app (some file)
        = some ({ app2 with is_map_loaded := true }, ds1 ++ d ++ ds2) := by
  have hr2 : ∀ b ∈ pre ++ buf :: post, (GUI.parse_line 0 b).in_range = true := by
    intro b hb
    apply hr
    show b ∈ Libc.fgets_chunks 1024 file []
    rw [hchunks]
    exact hb
  obtain ⟨⟨a, ds⟩, ha⟩ := gui_load_lines_some (pre ++ buf :: post) (GUI.cleared app) 0 hr2
  obtain ⟨mid, ds1, ds2, hp, hrst, hd⟩ := gui_load_lines_append pre _ 0 _ a ds ha
  have h0 : GUI.Shape (GUI.cleared app) :=
    ⟨by simpa [GUI.cleared, GUI.length_reset] using hinv.2.1,
      fun j _ => GUI.reset_getD _ _ hinv.2.2 j⟩
  have hshape : GUI.Shape mid := GUI.load_lines_shape pre _ 0 mid ds1 hp h0
  rw [Nat.zero_add] at hrst
  simp only [GUI.load_lines] at hrst
  cases h1 : GUI.apply_effect mid (GUI.parse_line (pre.length + 1) buf) with
  | none => simp [h1] at hrst
  | some p =>
    obtain ⟨mid2, d⟩ := p
    simp only [h1, Option.map_eq_some', Prod.mk.injEq, Prod.exists] at hrst
    obtain ⟨app2, ds3, hab, rfl, rfl⟩ := hrst
    have hall : GUI.load_lines (GUI.cleared app) 0 (pre ++ buf :: post)
        = some (app2, ds1 ++ d ++ ds3) := by
      rw [ha, hd, List.append_assoc]
    refine ⟨mid, ds1, mid2, d, app2, ds3, hp, hshape, h1, hab, hall, ?_⟩
    have e : GUI.load_char_map app (some file)
        = (GUI.load_lines (GUI.cleared app) 0 (Libc.fgets_chunks 1024 file [])).map
            (fun r => ({ r.1 with is_map_loaded := true }, r.2)) := rfl
    rw [e, hchunks, hall]
    rfl

/-! ## The lines of a mapping file, one by one -/

/-- A line of the text-menu variant whose branch stores `c` at index `i`, in a file whose
indices lie in `1..256` and whose lines before it use indices below 256. -/
theorem cli_line_assign (st : CLI.State) (head tail buf : List Nat) (i c : Nat)
    (dl : List Diag) (hi : 1 ≤ i ∧ i ≤ 256)
    (hchunks : Libc.fgets_chunks 1024 (head ++ buf ++ tail) []
      = Libc.fgets_chunks 1024 head [] ++ buf :: Libc.fgets_chunks 1024 tail [])
    (hparse : ∀ ln, CLI.parse_line ln buf = .assign (i : Int) c dl)
    (hr : CLI.indices_in_range (head ++ buf ++ tail))
    (hpre : ∀ b ∈ Libc.fgets_chunks 1024 head [], (CLI.parse_line 0 b).index_below 256 = true) :
    ∃ mid ds1 st2 ds2,
      CLI.load_lines (CLI.cleared st) 0 (Libc.fgets_chunks 1024 head []) = some (mid, ds1) ∧
      mid.char_map_size < CLI.MAX_CHAR_MAP ∧
      CLI.apply_effect mid (CLI.parse_line ((Libc.fgets_chunks 1024 head []).length + 1) buf)
        = some (CLI.stored mid i c, dl) ∧
      CLI.holds (CLI.stored mid i c) i c ∧
      CLI.load_lines (CLI.stored mid i c) ((Libc.fgets_chunks 1024 head []).length + 1)
        (Libc.fgets_chunks 1024 tail []) = some (st2, ds2) ∧
      CLI.load_char_map st (some (head ++ buf ++ tail))
        = some ({ st2 with is_map_loaded := true }, ds1 ++ dl ++ ds2) ∧
      ((∀ b ∈ Libc.fgets_chunks 1024 tail [], (CLI.parse_line 0 b).target ≠ some (i : Int)) →
        CLI.holds st2 i c) := by
  obtain ⟨mid, ds1, mid2, d, st2, ds2, hp, hshape, hg, h1, hab, hall, hload⟩ :=
    cli_load_at_line st _ _ _ buf hchunks hr hpre
  have hap : CLI.apply_effect mid (CLI.parse_line ((Libc.fgets_chunks 1024 head []).length + 1) buf)
      = some (CLI.stored mid i c, dl) := by
    rw [hparse]; exact cli_apply_assign mid i c dl hi.1 hi.2
  rw [hap] at h1
  simp only [Option.some.injEq, Prod.mk.injEq] at h1
  obtain ⟨rfl, rfl⟩ := h1
  refine ⟨mid, ds1, st2, ds2, hp, hg, hap, cli_holds_stored mid i c hi.1 hi.2 hshape.1, hab,
    hload, fun hpost => ?_⟩
  have hstore : (CLI.parse_line 0 buf).store = some ((i : Int), c) := by
    rw [hparse]; rfl
  exact cli_last_store (CLI.cleared st) (cli_shape_reset st.is_map_loaded) (Nat.zero_le _)
    _ _ buf i c 0 st2 _ hi.1 hi.2 hstore hpre hpost hall

/-- A line of the GTK variant whose branch stores the string `e` at index `i`, in a file
whose indices lie in `1..256`. -/
theorem gui_line_assign (app : GUI.AppData) (head tail buf : List Nat) (i : Nat)
    (e : List Nat) (dl : List Diag) (hi : 1 ≤ i ∧ i ≤ 256)
    (hchunks : Libc.fgets_chunks 1024 (head ++ buf ++ tail) []
      = Libc.fgets_chunks 1024 head [] ++ buf :: Libc.fgets_chunks 1024 tail [])
    (hparse : ∀ ln, GUI.parse_line ln buf = .assign (i : Int) e dl)
    (hinv : GUI.Inv app) (hr : GUI.indices_in_range (head ++ buf ++ tail)) :
    ∃ mid ds1 app2 ds2,
      GUI.load_lines (GUI.cleared app) 0 (Libc.fgets_chunks 1024 head []) = some (mid, ds1) ∧
      GUI.apply_effect mid (GUI.parse_line ((Libc.fgets_chunks 1024 head []).length + 1) buf)
        = some (GUI.stored mid i e, dl) ∧
      (i ≤ (GUI.stored mid i e).char_map_size ∧
        (GUI.stored mid i e).char_map.getD (i - 1) none = some e) ∧
      GUI.load_lines (GUI.stored mid i e) ((Libc.fgets_chunks 1024 head []).length + 1)
        (Libc.fgets_chunks 1024 tail []) = some (app2, ds2) ∧
      GUI.load_char_map app (some (head ++ buf ++ tail))
        = some ({ app2 with is_map_loaded := true }, ds1 ++ dl ++ ds2) ∧
      ((∀ b ∈ Libc.fgets_chunks 1024 tail [], (GUI.parse_line 0 b).target ≠ some (i : Int)) →
        i ≤ app2.char_map_size ∧ app2.char_map.getD (i - 1) none = some e) := by
  obtain ⟨mid, ds1, mid2, d, app2, ds2, hp, hshape, h1, hab, hall, hload⟩ :=
    gui_load_at_line app _ _ _ buf hchunks hinv hr
  have hap : GUI.apply_effect mid (GUI.parse_line ((Libc.fgets_chunks 1024 head []).length + 1) buf)
      = some (GUI.stored mid i e, dl) := by
    rw [hparse]; exact gui_apply_assign mid i e dl hi.1 hi.2
  rw [hap] at h1
  simp only [Option.some.injEq, Prod.mk.injEq] at h1
  obtain ⟨rfl, rfl⟩ := h1
  have hsz : i ≤ (GUI.stored mid (i : Int) e).char_map_size := by
    simp only [GUI.stored, GUI.raise_size]
    split <;> omega
  have hget : (GUI.stored mid (i : Int) e).char_map.getD (i - 1) none = some e := by
    have hlt : i - 1 < mid.char_map.length := by
      rw [hshape.1]; simp only [GUI.MAX_CHAR_MAP]; omega
    have e1 : ((i : Int) - 1).toNat = i - 1 := by omega
    show (mid.char_map.set ((i : Int) - 1).toNat (some e)).getD (i - 1) none = some e
    rw [e1]
    exact getD_set_self _ _ _ _ hlt
  refine ⟨mid, ds1, app2, ds2, hp, hap, ⟨hsz, hget⟩, hab, hload, fun hpost => ?_⟩
  have hstore : (GUI.parse_line 0 buf).store = some ((i : Int), e) := by
    rw [hparse]; rfl
  have h0 : GUI.Shape (GUI.cleared app) :=
    ⟨by simpa [GUI.cleared, GUI.length_reset] using hinv.2.1,
      fun j _ => GUI.reset_getD _ _ hinv.2.2 j⟩
  exact gui_last_store (GUI.cleared app) h0 _ _ buf i e 0 app2 _ hi.1 hi.2 hstore hpost hall

/-- A line of the text-menu variant that is skipped with the diagnostic `mk line_num`
before any index is used. -/
theorem cli_line_skip (st : CLI.State) (head tail buf : List Nat) (mk : Nat → Diag)
    (hchunks : Libc.fgets_chunks 1024 (head ++ buf ++ tail) []
      = Libc.fgets_chunks 1024 head [] ++ buf :: Libc.fgets_chunks 1024 tail [])
    (hparse : ∀ ln, CLI.parse_line ln buf = .skip (mk ln))
    (hr : CLI.indices_in_range (head ++ buf ++ tail))
    (hpre : ∀ b ∈ Libc.fgets_chunks 1024 head [], (CLI.parse_line 0 b).index_below 256 = true) :
    ∃ mid ds1 st2 ds2,
      CLI.load_lines (CLI.cleared st) 0 (Libc.fgets_chunks 1024 head []) = some (mid, ds1) ∧
      mid.char_map_size < CLI.MAX_CHAR_MAP ∧
      CLI.apply_effect mid (CLI.parse_line ((Libc.fgets_chunks 1024 head []).length + 1) buf)
        = some (mid, [mk ((Libc.fgets_chunks 1024 head []).length + 1)]) ∧
      CLI.load_lines mid ((Libc.fgets_chunks 1024 head []).length + 1)
        (Libc.fgets_chunks 1024 tail []) = some (st2, ds2) ∧
      CLI.load_char_map st (some (head ++ buf ++ tail))
        = some ({ st2 with is_map_loaded := true },
            ds1 ++ [mk ((Libc.fgets_chunks 1024 head []).length + 1)] ++ ds2) := by
  obtain ⟨mid, ds1, mid2, d, st2, ds2, hp, -, hg, h1, hab, -, hload⟩ :=
    cli_load_at_line st _ _ _ buf hchunks hr hpre
  have hap : CLI.apply_effect mid (CLI.parse_line ((Libc.fgets_chunks 1024 head []).length + 1) buf)
      = some (mid, [mk ((Libc.fgets_chunks 1024 head []).length + 1)]) := by
    rw [hparse]; rfl
  rw [hap] at h1
  simp only [Option.some.injEq, Prod.mk.injEq] at h1
  obtain ⟨rfl, rfl⟩ := h1
  exact ⟨mid, ds1, st2, ds2, hp, hg, hap, hab, hload⟩

/-- A line of the GTK variant that is skipped with the diagnostic `mk line_num` before
any index is used. -/
theorem gui_line_skip (app : GUI.AppData) (head tail buf : List Nat) (mk : Nat → Diag)
    (hchunks : Libc.fgets_chunks 1024 (head ++ buf ++ tail) []
      = Libc.fgets_chunks 1024 head [] ++ buf :: Libc.fgets_chunks 1024 tail [])
    (hparse : ∀ ln, GUI.parse_line ln buf = .skip (mk ln))
    (hinv : GUI.Inv app) (hr : GUI.indices_in_range (head ++ buf ++ tail)) :
    ∃ mid ds1 app2 ds2,
      GUI.load_lines (GUI.cleared app) 0 (Libc.fgets_chunks 1024 head []) = some (mid, ds1) ∧
      GUI.apply_effect mid (GUI.parse_line ((Libc.fgets_chunks 1024 head []).length + 1) buf)
        = some (mid, [mk ((Libc.fgets_chunks 1024 head []).length + 1)]) ∧
      GUI.load_lines mid ((Libc.fgets_chunks 1024 head []).length + 1)
        (Libc.fgets_chunks 1024 tail []) = some (app2, ds2) ∧
      GUI.load_char_map app (some (head ++ buf ++ tail))
        = some ({ app2 with is_map_loaded := true },
            ds1 ++ [mk ((Libc.fgets_chunks 1024 head []).length + 1)] ++ ds2) := by
  obtain ⟨mid, ds1, mid2, d, app2, ds2, hp, -, h1, hab, -, hload⟩ :=
    gui_load_at_line app _ _ _ buf hchunks hinv hr
  have hap : GUI.apply_effect mid (GUI.parse_line ((Libc.fgets_chunks 1024 head []).length + 1) buf)
      = some (mid, [mk ((Libc.fgets_chunks 1024 head []).length + 1)]) := by
    rw [hparse]; rfl
  rw [hap] at h1
  simp only [Option.some.injEq, Prod.mk.injEq] at h1
  obtain ⟨rfl, rfl⟩ := h1
  exact ⟨mid, ds1, app2, ds2, hp, hap, hab, hload⟩

theorem cli_parse_multi_char (ln : Nat) (i : Int) (rep : List Nat)
    (hfit : Libc.fits_int i = true) (hlen : 1 < rep.length) (hb : rep.headD 0 ≠ 92)
    (hs : rep ≠ str_Space) (ht : rep ≠ str_Tab) (h0 : ∀ c ∈ rep, c ≠ 0)
    (h10 : ∀ c ∈ rep, c ≠ 10) :
    CLI.parse_line ln (mapping_line i rep)
      = .assign i (rep.headD 0) [.multi_char rep (rep.headD 0)] := by
  have hl1 : rep.length ≠ 1 := by omega
  have hpos : rep.length > 0 := by omega
  rw [cli_parse_mapping_line ln i rep h0 h10 hfit]
  simp only [hs, ht, hl1, hb, false_and, if_false, hpos, if_true]

theorem gui_parse_multi_char (ln : Nat) (i : Int) (rep : List Nat)
    (hfit : Libc.fits_int i = true) (hlen : 1 < rep.length) (hb : rep.headD 0 ≠ 92)
    (hs : rep ≠ str_Space) (ht : rep ≠ str_Tab) (h0 : ∀ c ∈ rep, c ≠ 0) :
    GUI.parse_line ln (mapping_line i rep)
      = .assign i [rep.headD 0] [.multi_char rep (rep.headD 0)] := by
  have hl1 : rep.length ≠ 1 := by omega
  have hpos : rep.length > 0 := by omega
  have hne : rep ≠ [] := by
    intro h; rw [h] at hlen; simp at hlen
  have hhead : rep.headD 0 ≠ 0 := by
    cases rep with
    | nil => exact absurd rfl hne
    | cons c cs => exact h0 c (List.mem_cons_self _ _)
  have hcs : Libc.cstr [rep.headD 0, 0] = [rep.headD 0] := by
    rw [cstr_cons _ [0] hhead, cstr_zero]
  rw [gui_parse_mapping_line ln i rep h0 hfit]
  simp only [hs, ht, hne, hl1, hb, and_false, if_false, hpos, if_true, hcs]

/-- C15 (the claim as stated fails): in the file `256<TAB>Z`, `2<TAB>Tab` the second line
is a line `<i><TAB><rep>` with `i = 2` and the word `Tab`, for which the spec gives the tab
character.  The text-menu variant ends its read loop after the first line, because
`char_map_size` has reached 256, and never assigns index 2; the GTK variant assigns it. -/
theorem spec_char_line_counterexample :
    example_file_256_then_tab = mapping_line 256 [90] ++ mapping_line 2 str_Tab ∧
      spec_char str_Tab = some 9 ∧
      CLI.load_char_map CLI.init (some example_file_256_then_tab)
        = some (⟨List.replicate 255 0 ++ [90], 256, true⟩, []) ∧
      ¬ CLI.holds ⟨List.replicate 255 0 ++ [90], 256, true⟩ 2 9 ∧
      (⟨List.replicate 255 0 ++ [90], 256, true⟩ : CLI.State).char_map.getD 1 0 = 0 ∧
      GUI.load_char_map GUI.init (some example_file_256_then_tab)
        = some (⟨[none, some [9]] ++ List.replicate 253 none ++ [some [90]], 256, true⟩,
            []) := by
  decide

/-- C15 (amended): a line `<i><TAB><rep>` of a mapping file, with `i` in `1..256`, at most
1023 bytes long with its newline, and `rep` the word `Space`, the word `Tab`, one
character or one of the seven escapes, assigns to index `i` the character the spec gives
for `rep` and produces no diagnostic, in the GTK variant always and in the text-menu
variant when every line before it uses an index below 256.  The file is `head ++ line ++
tail` with `head` empty or ending in a newline, and its indices lie in `1..256`.  Then
the load returns; the read loop reaches the line (in the text-menu variant with
`char_map_size < 256`, so that the line is read) in the state `mid` that the lines of
`head` leave; the body stores the character at index `i` and writes no diagnostic; the
loop goes on with the lines of `tail`; the diagnostics of the load are those of the lines
before followed by those of the lines after; and at the end index `i` holds the
character unless a line of `tail` stores at `i`. -/
theorem line_assigns_spec_char (st : CLI.State) (app : GUI.AppData) (head tail : List Nat)
    (i : Nat) (rep : List Nat) (b : Nat) (hi : 1 ≤ i ∧ i ≤ 256)
    (hrep : spec_char rep = some b) (h0 : ∀ c ∈ rep, c ≠ 0) (h10 : ∀ c ∈ rep, c ≠ 10)
    (hhead : head = [] ∨ head.getLast? = some 10)
    (hlen : (mapping_line i rep).length ≤ 1023) :
    (CLI.indices_in_range (head ++ mapping_line i rep ++ tail) →
      (∀ buf ∈ Libc.fgets_chunks 1024 head [],
        (CLI.parse_line 0 buf).index_below 256 = true) →
      ∃ mid ds1 st2 ds2,
        CLI.load_lines (CLI.cleared st) 0 (Libc.fgets_chunks 1024 head []) = some (mid, ds1) ∧
        mid.char_map_size < CLI.MAX_CHAR_MAP ∧
        CLI.apply_effect mid
            (CLI.parse_line ((Libc.fgets_chunks 1024 head []).length + 1) (mapping_line i rep))
          = some (CLI.stored mid i b, []) ∧
        CLI.holds (CLI.stored mid i b) i b ∧
        CLI.load_lines (CLI.stored mid i b) ((Libc.fgets_chunks 1024 head []).length + 1)
          (Libc.fgets_chunks 1024 tail []) = some (st2, ds2) ∧
        CLI.load_char_map st (some (head ++ mapping_line i rep ++ tail))
          = some ({ st2 with is_map_loaded := true }, ds1 ++ ds2) ∧
        ((∀ buf ∈ Libc.fgets_chunks 1024 tail [],
            (CLI.parse_line 0 buf).target ≠ some (i : Int)) → CLI.holds st2 i b)) ∧
    (GUI.Inv app → GUI.indices_in_range (head ++ mapping_line i rep ++ tail) →
      ∃ mid ds1 app2 ds2,
        GUI.load_lines (GUI.cleared app) 0 (Libc.fgets_chunks 1024 head []) = some (mid, ds1) ∧
        GUI.apply_effect mid
            (GUI.parse_line ((Libc.fgets_chunks 1024 head []).length + 1) (mapping_line i rep))
          = some (GUI.stored mid i (Libc.cstr [b, 0]), []) ∧
        GUI.holds (GUI.stored mid i (Libc.cstr [b, 0])) i b ∧
        GUI.load_lines (GUI.stored mid i (Libc.cstr [b, 0]))
          ((Libc.fgets_chunks 1024 head []).length + 1) (Libc.fgets_chunks 1024 tail [])
          = some (app2, ds2) ∧
        GUI.load_char_map app (some (head ++ mapping_line i rep ++ tail))
          = some ({ app2 with is_map_loaded := true }, ds1 ++ ds2) ∧
        ((∀ buf ∈ Libc.fgets_chunks 1024 tail [],
            (GUI.parse_line 0 buf).target ≠ some (i : Int)) → GUI.holds app2 i b)) := by
  have hfit := fits_int_of_le i hi.2
  have hchunks := chunks_of_mapping_line head tail i rep hhead h10 hlen
  constructor
  · intro hr hpre
    obtain ⟨mid, ds1, st2, ds2, h1, h2, h3, h4, h5, h6, h7⟩ :=
      cli_line_assign st head tail (mapping_line i rep) i b [] hi hchunks
        (fun ln => cli_parse_spec_char ln i rep b hfit hrep h0 h10) hr hpre
    exact ⟨mid, ds1, st2, ds2, h1, h2, h3, h4, h5, by simpa using h6, h7⟩
  · intro hinv hr
    obtain ⟨mid, ds1, app2, ds2, h1, h3, h4, h5, h6, h7⟩ :=
      gui_line_assign app head tail (mapping_line i rep) i (Libc.cstr [b, 0]) [] hi hchunks
        (fun ln => gui_parse_spec_char ln i rep b hfit hrep h0) hinv hr
    exact ⟨mid, ds1, app2, ds2, h1, h3, ⟨hi.1, h4.1, h4.2⟩, h5, by simpa using h6,
      fun hpost => ⟨hi.1, (h7 hpost).1, (h7 hpost).2⟩⟩

/-- Witness for C15: the line `5<TAB>\n` between the lines `1<TAB>A` and `2<TAB>B`: both
loads return and index 5 holds the newline character. -/
theorem line_assigns_spec_char_witness :
    spec_char [92, 110] = some 10 ∧ (mapping_line 5 [92, 110]).length ≤ 1023 ∧
      CLI.indices_in_range ([49, 9, 65, 10] ++ mapping_line 5 [92, 110] ++ [50, 9, 66, 10]) ∧
      (∃ st1 ds, CLI.load_char_map CLI.init
          (some ([49, 9, 65, 10] ++ mapping_line 5 [92, 110] ++ [50, 9, 66, 10]))
            = some (st1, ds) ∧ CLI.holds st1 5 10) ∧
      (∃ app1 ds, GUI.load_char_map GUI.init
          (some ([49, 9, 65, 10] ++ mapping_line 5 [92, 110] ++ [50, 9, 66, 10]))
            = some (app1, ds) ∧ GUI.holds app1 5 10) := by
  have h := line_assigns_spec_char CLI.init GUI.init [49, 9, 65, 10] [50, 9, 66, 10] 5
    [92, 110] 10 (by decide) (by decide) (by decide) (by decide) (by decide) (by decide)
  refine ⟨by decide, by decide, by decide, ?_, ?_⟩
  · obtain ⟨mid, ds1, st2, ds2, -, -, -, -, -, h6, h7⟩ := h.1 (by decide) (by decide)
    have hh := h7 (by decide)
    exact ⟨_, _, h6, ⟨hh.1, hh.2.1, hh.2.2⟩⟩
  · obtain ⟨mid, ds1, app2, ds2, -, -, -, -, h6, h7⟩ := h.2 GUI.inv_init (by decide)
    have hh := h7 (by decide)
    exact ⟨_, _, h6, ⟨hh.1, hh.2.1, hh.2.2⟩⟩

/-- C17 (the claim as stated fails): in the file `256<TAB>A`, `1<TAB>xyz` the second line
has a representation of three characters.  The text-menu variant ends its read loop
after the first line: index 1 is not assigned `x` and no warning is produced.  The GTK
variant assigns `x` and produces the warning. -/
theorem multi_char_counterexample :
    example_file_256_then_multi = mapping_line 256 [65] ++ mapping_line 1 [120, 121, 122] ∧
      CLI.load_char_map CLI.init (some example_file_256_then_multi)
        = some (⟨List.replicate 255 0 ++ [65], 256, true⟩, []) ∧
      ¬ CLI.holds ⟨List.replicate 255 0 ++ [65], 256, true⟩ 1 120 ∧
      GUI.load_char_map GUI.init (some example_file_256_then_multi)
        = some (⟨[some [120]] ++ List.replicate 254 none ++ [some [65]], 256, true⟩,
            [Diag.multi_char [120, 121, 122] 120]) := by
  decide

/-- C17 (amended): a line `<i><TAB><rep>` of a mapping file, with `i` in `1..256`, at most
1023 bytes long with its newline, whose representation has more than one character, does
not start with a backslash and is neither `Space` nor `Tab`, assigns the first character
of the representation to index `i` and produces exactly one diagnostic, a warning, in the
GTK variant always and in the text-menu variant when every line before it uses an index
below 256.  The file is `head ++ line ++ tail` with `head` empty or ending in a newline,
and its indices lie in `1..256`.  Then the load returns; the read loop reaches the line
in the state `mid` that the lines of `head` leave; the body stores the first character at
index `i` and writes the one warning; the loop goes on with the lines of `tail`; and at
the end index `i` holds that character unless a line of `tail` stores at `i`. -/
theorem multi_char_uses_first (st : CLI.State) (app : GUI.AppData) (head tail : List Nat)
    (i : Nat) (rep : List Nat) (hi : 1 ≤ i ∧ i ≤ 256) (hrl : 1 < rep.length)
    (hb : rep.headD 0 ≠ 92) (hs : rep ≠ str_Space) (ht : rep ≠ str_Tab)
    (h0 : ∀ c ∈ rep, c ≠ 0) (h10 : ∀ c ∈ rep, c ≠ 10)
    (hhead : head = [] ∨ head.getLast? = some 10)
    (hlen : (mapping_line i rep).length ≤ 1023) :
    (CLI.indices_in_range (head ++ mapping_line i rep ++ tail) →
      (∀ buf ∈ Libc.fgets_chunks 1024 head [],
        (CLI.parse_line 0 buf).index_below 256 = true) →
      ∃ mid ds1 st2 ds2,
        CLI.load_lines (CLI.cleared st) 0 (Libc.fgets_chunks 1024 head []) = some (mid, ds1) ∧
        mid.char_map_size < CLI.MAX_CHAR_MAP ∧
        CLI.apply_effect mid
            (CLI.parse_line ((Libc.fgets_chunks 1024 head []).length + 1) (mapping_line i rep))
          = some (CLI.stored mid i (rep.headD 0), [Diag.multi_char rep (rep.headD 0)]) ∧
        CLI.holds (CLI.stored mid i (rep.headD 0)) i (rep.headD 0) ∧
        CLI.load_lines (CLI.stored mid i (rep.headD 0))
          ((Libc.fgets_chunks 1024 head []).length + 1) (Libc.fgets_chunks 1024 tail [])
          = some (st2, ds2) ∧
        CLI.load_char_map st (some (head ++ mapping_line i rep ++ tail))
          = some ({ st2 with is_map_loaded := true },
              ds1 ++ [Diag.multi_char rep (rep.headD 0)] ++ ds2) ∧
        ((∀ buf ∈ Libc.fgets_chunks 1024 tail [],
            (CLI.parse_line 0 buf).target ≠ some (i : Int)) →
          CLI.holds st2 i (rep.headD 0))) ∧
    (GUI.Inv app → GUI.indices_in_range (head ++ mapping_line i rep ++ tail) →
      ∃ mid ds1 app2 ds2,
        GUI.load_lines (GUI.cleared app) 0 (Libc.fgets_chunks 1024 head []) = some (mid, ds1) ∧
        GUI.apply_effect mid
            (GUI.parse_line ((Libc.fgets_chunks 1024 head []).length + 1) (mapping_line i rep))
          = some (GUI.stored mid i [rep.headD 0], [Diag.multi_char rep (rep.headD 0)]) ∧
        (i ≤ (GUI.stored mid i [rep.headD 0]).char_map_size ∧
          (GUI.stored mid i [rep.headD 0]).char_map.getD (i - 1) none
            = some [rep.headD 0]) ∧
        GUI.load_lines (GUI.stored mid i [rep.headD 0])
          ((Libc.fgets_chunks 1024 head []).length + 1) (Libc.fgets_chunks 1024 tail [])
          = some (app2, ds2) ∧
        GUI.load_char_map app (some (head ++ mapping_line i rep ++ tail))
          = some ({ app2 with is_map_loaded := true },
              ds1 ++ [Diag.multi_char rep (rep.headD 0)] ++ ds2) ∧
        ((∀ buf ∈ Libc.fgets_chunks 1024 tail [],
            (GUI.parse_line 0 buf).target ≠ some (i : Int)) →
          i ≤ app2.char_map_size ∧ app2.char_map.getD (i - 1) none = some [rep.headD 0])) ∧
    (Diag.multi_char rep (rep.headD 0)).is_warning = true := by
  have hfit := fits_int_of_le i hi.2
  have hchunks := chunks_of_mapping_line head tail i rep hhead h10 hlen
  exact ⟨fun hr hpre => cli_line_assign st head tail (mapping_line i rep) i (rep.headD 0) _ hi
      hchunks (fun ln => cli_parse_multi_char ln i rep hfit hrl hb hs ht h0 h10) hr hpre,
    fun hinv hr => gui_line_assign app head tail (mapping_line i rep) i [rep.headD 0] _ hi
      hchunks (fun ln => gui_parse_multi_char ln i rep hfit hrl hb hs ht h0) hinv hr,
    rfl⟩

/-- Witness for C17: the line `2<TAB>xyz` between the lines `1<TAB>A` and `4<TAB>B`: both
loads return with the one warning and index 2 holds `x`. -/
theorem multi_char_uses_first_witness :
    (mapping_line 2 [120, 121, 122]).length ≤ 1023 ∧
      CLI.load_char_map CLI.init
          (some ([49, 9, 65, 10] ++ mapping_line 2 [120, 121, 122] ++ [52, 9, 66, 10]))
        = some (⟨[65, 120, 0, 66] ++ List.replicate 252 0, 4, true⟩,
            [Diag.multi_char [120, 121, 122] 120]) ∧
      (∃ st1 ds1 ds2, CLI.load_char_map CLI.init
          (some ([49, 9, 65, 10] ++ mapping_line 2 [120, 121, 122] ++ [52, 9, 66, 10]))
            = some (st1, ds1 ++ [Diag.multi_char [120, 121, 122] 120] ++ ds2) ∧
          CLI.holds st1 2 120) ∧
      (∃ app1 ds1 ds2, GUI.load_char_map GUI.init
          (some ([49, 9, 65, 10] ++ mapping_line 2 [120, 121, 122] ++ [52, 9, 66, 10]))
            = some (app1, ds1 ++ [Diag.multi_char [120, 121, 122] 120] ++ ds2) ∧
          app1.char_map.getD 1 none = some [120]) := by
  have h := multi_char_uses_first CLI.init GUI.init [49, 9, 65, 10] [52, 9, 66, 10] 2
    [120, 121, 122] (by decide) (by decide) (by decide) (by decide) (by decide) (by decide)
    (by decide) (by decide) (by decide)
  refine ⟨by decide, by decide, ?_, ?_⟩
  · obtain ⟨mid, ds1, st2, ds2, -, -, -, -, -, h6, h7⟩ := h.1 (by decide) (by decide)
    have hh := h7 (by decide)
    exact ⟨_, ds1, ds2, h6, ⟨hh.1, hh.2.1, hh.2.2⟩⟩
  · obtain ⟨mid, ds1, app2, ds2, -, -, -, -, h6, h7⟩ := h.2.1 GUI.inv_init (by decide)
    exact ⟨_, ds1, ds2, h6, (h7 (by decide)).2⟩

/-- C18 (the claim as stated fails): in the file `256<TAB>A`, `hello` the second line
contains no tab.  The text-menu variant ends its read loop after the first line: the
line `hello` is not read and no warning is produced for it.  The GTK variant produces
the warning. -/
theorem malformed_line_counterexample :
    example_file_256_then_bad = mapping_line 256 [65] ++ [104, 101, 108, 108, 111, 10] ∧
      (∀ c ∈ [104, 101, 108, 108, 111], c ≠ 9) ∧
      CLI.load_char_map CLI.init (some example_file_256_then_bad)
        = some (⟨List.replicate 255 0 ++ [65], 256, true⟩, []) ∧
      GUI.load_char_map GUI.init (some example_file_256_then_bad)
        = some (⟨List.replicate 255 none ++ [some [65]], 256, true⟩,
            [Diag.bad_format 2]) := by
  decide

/-- C18 (amended): a line of a mapping file, at most 1023 bytes long with its newline,
that contains no tab, or whose text before the first tab does not parse as an integer,
produces exactly one diagnostic, a warning, and leaves the table and the size exactly as
they were, and the lines after it are still processed, in the GTK variant always and in
the text-menu variant when every line before it uses an index below 256.  The file is
`head ++ l ++ [newline] ++ tail` with `head` empty or ending in a newline, and its indices
lie in `1..256`.  Then the load returns; the read loop reaches the line in the state `mid`
that the lines of `head` leave (in the text-menu variant with `char_map_size < 256`); the
body returns the same state `mid` and writes the one warning; and the loop goes on with
the lines of `tail` from `mid`. -/
theorem malformed_line_skipped (st : CLI.State) (app : GUI.AppData) (head l tail : List Nat)
    (d : Nat → Diag) (hl10 : ∀ c ∈ l, c ≠ 10)
    (hhead : head = [] ∨ head.getLast? = some 10) (hlen : (l ++ [10]).length ≤ 1023)
    (hbad : ((∀ c ∈ l, c ≠ 9) ∧ d = Diag.bad_format) ∨
      ((∃ pre more, l = pre ++ 9 :: more ∧ (∀ c ∈ pre, c ≠ 9 ∧ c ≠ 0) ∧
          Libc.scan_d pre = none) ∧ d = Diag.bad_index)) :
    (CLI.indices_in_range (head ++ (l ++ [10]) ++ tail) →
      (∀ buf ∈ Libc.fgets_chunks 1024 head [],
        (CLI.parse_line 0 buf).index_below 256 = true) →
      ∃ mid ds1 st2 ds2,
        CLI.load_lines (CLI.cleared st) 0 (Libc.fgets_chunks 1024 head []) = some (mid, ds1) ∧
        mid.char_map_size < CLI.MAX_CHAR_MAP ∧
        CLI.apply_effect mid
            (CLI.parse_line ((Libc.fgets_chunks 1024 head []).length + 1) (l ++ [10]))
          = some (mid, [d ((Libc.fgets_chunks 1024 head []).length + 1)]) ∧
        CLI.load_lines mid ((Libc.fgets_chunks 1024 head []).length + 1)
          (Libc.fgets_chunks 1024 tail []) = some (st2, ds2) ∧
        CLI.load_char_map st (some (head ++ (l ++ [10]) ++ tail))
          = some ({ st2 with is_map_loaded := true },
              ds1 ++ [d ((Libc.fgets_chunks 1024 head []).length + 1)] ++ ds2)) ∧
    (GUI.Inv app → GUI.indices_in_range (head ++ (l ++ [10]) ++ tail) →
      ∃ mid ds1 app2 ds2,
        GUI.load_lines (GUI.cleared app) 0 (Libc.fgets_chunks 1024 head []) = some (mid, ds1) ∧
        GUI.apply_effect mid
            (GUI.parse_line ((Libc.fgets_chunks 1024 head []).length + 1) (l ++ [10]))
          = some (mid, [d ((Libc.fgets_chunks 1024 head []).length + 1)]) ∧
        GUI.load_lines mid ((Libc.fgets_chunks 1024 head []).length + 1)
          (Libc.fgets_chunks 1024 tail []) = some (app2, ds2) ∧
        GUI.load_char_map app (some (head ++ (l ++ [10]) ++ tail))
          = some ({ app2 with is_map_loaded := true },
              ds1 ++ [d ((Libc.fgets_chunks 1024 head []).length + 1)] ++ ds2)) ∧
    (∀ n, (d n).is_warning = true) := by
  have hchunks := chunks_of_file_line head l tail hhead hl10 hlen
  have hparse : (∀ ln, CLI.parse_line ln (l ++ [10]) = .skip (d ln)) ∧
      (∀ ln, GUI.parse_line ln (l ++ [10]) = .skip (d ln)) ∧ ∀ n, (d n).is_warning = true := by
    rcases hbad with ⟨h9, rfl⟩ | ⟨⟨pre, more, rfl, hpre, hscan⟩, rfl⟩
    · have h9b : ∀ c ∈ l ++ [10], c ≠ 9 := by
        intro c hc
        rcases List.mem_append.1 hc with h | h
        · exact h9 c h
        · simp only [List.mem_singleton] at h; subst h; decide
      exact ⟨fun ln => cli_parse_no_tab ln _ h9b, fun ln => gui_parse_no_tab ln _ h9b,
        fun _ => rfl⟩
    · have hpre2 : ∀ c ∈ pre, c ≠ 9 ∧ c ≠ 0 ∧ c ≠ 10 := fun c hc =>
        ⟨(hpre c hc).1, (hpre c hc).2, hl10 c (List.mem_append_left _ hc)⟩
      have e : pre ++ 9 :: more ++ [10] = pre ++ 9 :: (more ++ [10]) := by simp
      refine ⟨fun ln => ?_, fun ln => ?_, fun _ => rfl⟩
      · rw [e]; exact cli_parse_bad_index ln pre _ hpre2 hscan
      · rw [e]; exact gui_parse_bad_index ln pre _ hpre2 hscan
  exact ⟨fun hr hpre => cli_line_skip st head tail (l ++ [10]) d hchunks hparse.1 hr hpre,
    fun hinv hr => gui_line_skip app head tail (l ++ [10]) d hchunks hparse.2.1 hinv hr,
    hparse.2.2⟩

/-- Witness for C18: the line `hello` between the lines `1<TAB>A` and `2<TAB>B`: both
loads return with the one warning about line 2, and the two other lines are stored. -/
theorem malformed_line_skipped_witness :
    ([104, 101, 108, 108, 111] ++ [10]).length ≤ 1023 ∧
      CLI.load_char_map CLI.init
          (some ([49, 9, 65, 10] ++ ([104, 101, 108, 108, 111] ++ [10]) ++ [50, 9, 66, 10]))
        = some (⟨[65, 66] ++ List.replicate 254 0, 2, true⟩, [Diag.bad_format 2]) ∧
      GUI.load_char_map GUI.init
          (some ([49, 9, 65, 10] ++ ([104, 101, 108, 108, 111] ++ [10]) ++ [50, 9, 66, 10]))
        = some (⟨[some [65], some [66]] ++ List.replicate 254 none, 2, true⟩,
            [Diag.bad_format 2]) ∧
      (∃ st1 ds1 ds2 n, CLI.load_char_map CLI.init
          (some ([49, 9, 65, 10] ++ ([104, 101, 108, 108, 111] ++ [10]) ++ [50, 9, 66, 10]))
            = some (st1, ds1 ++ [Diag.bad_format n] ++ ds2)) ∧
      (∃ app1 ds1 ds2 n, GUI.load_char_map GUI.init
          (some ([49, 9, 65, 10] ++ ([104, 101, 108, 108, 111] ++ [10]) ++ [50, 9, 66, 10]))
            = some (app1, ds1 ++ [Diag.bad_format n] ++ ds2)) := by
  have h := malformed_line_skipped CLI.init GUI.init [49, 9, 65, 10] [104, 101, 108, 108, 111]
    [50, 9, 66, 10] Diag.bad_format (by decide) (by decide) (by decide)
    (Or.inl ⟨by decide, rfl⟩)
  refine ⟨by decide, by decide, by decide, ?_, ?_⟩
  · obtain ⟨mid, ds1, st2, ds2, -, -, -, -, h5⟩ := h.1 (by decide) (by decide)
    exact ⟨_, ds1, ds2, _, h5⟩
  · obtain ⟨mid, ds1, app2, ds2, -, -, -, h5⟩ := h.2.1 GUI.inv_init (by decide)
    exact ⟨_, ds1, ds2, _, h5⟩

/-! ## A line longer than the line buffer -/

theorem fgets_chunks_full_aux (n : Nat) (l rest : List Nat) :
    ∀ cur, (∀ c ∈ l, c ≠ 10) → l ≠ [] → cur.length + l.length = n - 1 →
      Libc.fgets_chunks n (l ++ rest) cur
        = (cur.reverse ++ l) :: Libc.fgets_chunks n rest [] := by
  induction l with
  | nil => intro cur _ h _; exact absurd rfl h
  | cons c cs ih =>
    intro cur h10 _ hlen
    have hc : c ≠ 10 := h10 c (List.mem_cons_self _ _)
    rw [List.cons_append]
    cases cs with
    | nil =>
      have hfull : cur.length + 1 = n - 1 := by simpa using hlen
      rw [List.nil_append, fgets_chunks_cons_pos n c rest cur (Or.inr hfull)]
      simp
    | cons d t =>
      have hnot : ¬ (c = 10 ∨ cur.length + 1 = n - 1) := by
        simp only [List.length_cons] at hlen
        intro h
        rcases h with h | h
        · exact hc h
        · omega
      rw [fgets_chunks_cons_neg n c _ cur hnot,
        ih (c :: cur) (fun x hx => h10 x (List.mem_cons_of_mem _ hx)) (by simp)
          (by simp only [List.length_cons] at hlen ⊢; omega)]
      simp

/-- A line longer than the line buffer is read as several lines.  For the file of 1023
`x` followed by `7<TAB>A` and a newline, one line of 1027 bytes whose text before the tab
does not parse as an integer, both variants read a first buffer of 1023 bytes without a
tab, for which they write the warning of a line without a tab, and then the buffer
`7<TAB>A`, which they store at index 7. -/
theorem long_line_read_as_two :
    Libc.fgets_chunks 1024 (List.replicate 1023 120 ++ [55, 9, 65, 10]) []
        = [List.replicate 1023 120, [55, 9, 65, 10]] ∧
      (CLI.load_char_map CLI.init (some (List.replicate 1023 120 ++ [55, 9, 65, 10]))).map
          (fun r => (r.1.char_map.getD 6 0, r.1.char_map_size, r.2))
        = some (65, 7, [Diag.bad_format 1]) ∧
      (GUI.load_char_map GUI.init (some (List.replicate 1023 120 ++ [55, 9, 65, 10]))).map
          (fun r => (r.1.char_map.getD 6 none, r.1.char_map_size, r.2))
        = some (some [65], 7, [Diag.bad_format 1]) := by
  have h9 : ∀ c ∈ List.replicate 1023 120, c ≠ 9 := by
    intro c hc
    rw [List.eq_of_mem_replicate hc]
    decide
  have h10 : ∀ c ∈ List.replicate 1023 120, c ≠ 10 := by
    intro c hc
    rw [List.eq_of_mem_replicate hc]
    decide
  have hne : List.replicate 1023 120 ≠ [] := by
    intro h
    have := congrArg List.length h
    simp at this
  have hchunks : Libc.fgets_chunks 1024 (List.replicate 1023 120 ++ [55, 9, 65, 10]) []
      = [List.replicate 1023 120, [55, 9, 65, 10]] := by
    rw [fgets_chunks_full_aux 1024 _ _ [] h10 hne (by simp)]
    have e : Libc.fgets_chunks 1024 [55, 9, 65, 10] [] = [[55, 9, 65, 10]] := by decide
    rw [e]
    rfl
  refine ⟨hchunks, ?_, ?_⟩
  · have hc : CLI.apply_effect (CLI.cleared CLI.init)
        (CLI.parse_line (0 + 1) (List.replicate 1023 120))
        = some (CLI.cleared CLI.init, [Diag.bad_format 1]) := by
      rw [cli_parse_no_tab _ _ h9]; rfl
    have e : CLI.load_char_map CLI.init (some (List.replicate 1023 120 ++ [55, 9, 65, 10]))
        = (CLI.load_lines (CLI.cleared CLI.init) 0
            (Libc.fgets_chunks 1024 (List.replicate 1023 120 ++ [55, 9, 65, 10]) [])).map
            (fun r => ({ r.1 with is_map_loaded := true }, r.2)) := rfl
    rw [e, hchunks, cli_load_lines_cons _ _ 0 _ _ _ (by decide) hc]
    have e2 : CLI.load_lines (CLI.cleared CLI.init) (0 + 1) [[55, 9, 65, 10]]
        = some (CLI.stored (CLI.cleared CLI.init) 7 65, []) := by decide
    rw [e2]
    decide
  · have hg : GUI.apply_effect (GUI.cleared GUI.init)
        (GUI.parse_line (0 + 1) (List.replicate 1023 120))
        = some (GUI.cleared GUI.init, [Diag.bad_format 1]) := by
      rw [gui_parse_no_tab _ _ h9]; rfl
    have e : GUI.load_char_map GUI.init (some (List.replicate 1023 120 ++ [55, 9, 65, 10]))
        = (GUI.load_lines (GUI.cleared GUI.init) 0
            (Libc.fgets_chunks 1024 (List.replicate 1023 120 ++ [55, 9, 65, 10]) [])).map
            (fun r => ({ r.1 with is_map_loaded := true }, r.2)) := rfl
    rw [e, hchunks, gui_load_lines_cons _ _ 0 _ _ _ hg]
    have e2 : GUI.load_lines (GUI.cleared GUI.init) (0 + 1) [[55, 9, 65, 10]]
        = some (GUI.stored (GUI.cleared GUI.init) 7 [65], []) := by decide
    rw [e2]
    decide
